import Mathlib

/-!
Broker: overlay routing table, builders, the store of the clone, the store manager, the text
encoder, the kill switch and the Python bindings of the endpoint.

A shallow embedding of `include/broker/alm/routing_table.hh`, of the `add` functions of
`include/broker/builder.hh`, of the message handlers of `src/detail/clone_actor.cc`, of the
store management of `include/broker/mixin/data_store_manager.hh`, of
`include/broker/format/txt.hh`, of `include/broker/internal/killswitch.hh` and of the bindings
of `Configuration` and `Endpoint` in `bindings/python/_broker.cpp`.

* `endpoint_id` is an opaque identifier with equality and a total order; it is embedded as
  `Nat`.
* `caf::actor hdl` is embedded as `Option Nat`; `none` is the null handle.
* `routing_table` is a `std::unordered_map`; it is embedded as the list of its entries in
  iteration order.  The keys of a `std::unordered_map` are unique (`keysUnique`), erasing an
  entry keeps the relative order of the other entries.
* A callback (`on_remove`, `callback`) is embedded by the list of peers it was called with, in
  call order.
* Indexing a vector out of bounds and a failing `BROKER_ASSERT` have no defined result; the
  functions that can reach one return `Option` and yield `none` there.
-/

namespace broker.alm

abbrev endpoint_id := Nat

abbrev lamport_timestamp := Nat

abbrev vector_timestamp := List lamport_timestamp

abbrev path_type := List endpoint_id

abbrev versioned_path_type := path_type × vector_timestamp

/-- Row of the routing table: the handle (null when there is no direct connection) and all
versioned paths leading to the peer. -/
structure routing_table_row where
  hdl : Option Nat
  versioned_paths : List versioned_path_type
deriving DecidableEq, Repr

abbrev routing_table := List (endpoint_id × routing_table_row)

/-- The peers that have a row, in iteration order. -/
def keys (tbl : routing_table) : List endpoint_id := tbl.map Prod.fst

/-- Keys of a `std::unordered_map` are pairwise distinct. -/
def keysUnique (tbl : routing_table) : Prop := (keys tbl).Nodup

instance (tbl : routing_table) : Decidable (keysUnique tbl) :=
  inferInstanceAs (Decidable (keys tbl).Nodup)

/-- `tbl.erase(peer)`: removes the entry with key `peer`, if any. -/
def eraseKey (tbl : routing_table) (peer : endpoint_id) : routing_table :=
  tbl.filter (fun e => decide (e.1 ≠ peer))

/-- `reachable`: `tbl.count(peer) != 0`. -/
def reachable (tbl : routing_table) (peer : endpoint_id) : Bool :=
  (tbl.filter (fun e => decide (e.1 = peer))).length != 0

/-- `is_direct_connection`: the row of `peer` exists and holds a non-null handle. -/
def is_direct_connection (tbl : routing_table) (peer : endpoint_id) : Bool :=
  match tbl.find? (fun e => decide (e.1 = peer)) with
  | some e => e.2.hdl.isSome
  | none => false

/-- The lambda `stale` of `erase`: `std::find` locates `peer` in the path. -/
def stale (peer : endpoint_id) (vpath : versioned_path_type) : Bool :=
  decide (peer ∈ vpath.1)

/-- The range-for loop of the lambda `impl` of `erase`, over the entries still to be visited:
every row drops its stale paths (`std::remove_if` followed by `erase`), and a row that dropped
a path (`sep != paths.end()`) and has none left is appended to `unreachable_peers`. -/
def implLoop (peer : endpoint_id) :
    routing_table → List endpoint_id → routing_table × List endpoint_id
  | [], unreachable_peers => ([], unreachable_peers)
  | (id, row) :: rest, unreachable_peers =>
    let paths := row.versioned_paths.filter (fun vp => !stale peer vp)
    if row.versioned_paths.any (stale peer) then
      let r := implLoop peer rest
        (if paths.isEmpty then unreachable_peers ++ [id] else unreachable_peers)
      ((id, { row with versioned_paths := paths }) :: r.1, r.2)
    else
      let r := implLoop peer rest unreachable_peers
      ((id, row) :: r.1, r.2)

/-- The lambda `impl` of `erase`: `tbl.erase(peer)`, then the loop over the remaining rows. -/
def impl (tbl : routing_table) (unreachable_peers : List endpoint_id) (peer : endpoint_id) :
    routing_table × List endpoint_id :=
  implLoop peer (eraseKey tbl peer) unreachable_peers

/-- The `while (!unreachable_peers.empty())` loop of `erase`.  The first argument bounds the
number of iterations; `none` means the loop has not finished within the bound.  The last
component of the state lists the calls of `on_remove` so far. -/
def eraseLoop : Nat → routing_table → List endpoint_id → List endpoint_id →
    Option (routing_table × List endpoint_id)
  | fuel, tbl, unreachable_peers, calls =>
    match unreachable_peers.getLast? with
    | none => some (tbl, calls)
    | some peer =>
      match fuel with
      | 0 => none
      | fuel + 1 =>
        let r := impl tbl unreachable_peers.dropLast peer
        eraseLoop fuel r.1 r.2 (calls ++ [peer])

/-- `erase(tbl, whom, on_remove)`: the resulting table and the calls of `on_remove` in order,
when the cascade loop finishes within `fuel` iterations. -/
def erase (fuel : Nat) (tbl : routing_table) (whom : endpoint_id) :
    Option (routing_table × List endpoint_id) :=
  let r := impl tbl [] whom
  eraseLoop fuel r.1 r.2 []

/-- The inner loop of `erase_direct` over the paths of one row: a path with `whom` as first hop
is erased.  `path[0]` of an empty path has no defined result. -/
def dropFirstHop (whom : endpoint_id) :
    List versioned_path_type → Option (List versioned_path_type)
  | [] => some []
  | (path, ts) :: rest =>
    match path with
    | [] => none
    | first :: _ =>
      match dropFirstHop whom rest with
      | none => none
      | some rest' => if first = whom then some rest' else some ((path, ts) :: rest')

/-- The outer loop of `erase_direct` over the rows: a row left without paths is reported to
`on_remove` and erased. -/
def eraseDirectLoop (whom : endpoint_id) :
    routing_table → Option (routing_table × List endpoint_id)
  | [] => some ([], [])
  | (id, row) :: rest =>
    match dropFirstHop whom row.versioned_paths with
    | none => none
    | some paths =>
      match eraseDirectLoop whom rest with
      | none => none
      | some r =>
        if paths.isEmpty then some (r.1, id :: r.2)
        else some ((id, { row with versioned_paths := paths }) :: r.1, r.2)

/-- The first statement of `erase_direct` when the row exists: `i->second.hdl = nullptr`. -/
def resetHandle (tbl : routing_table) (whom : endpoint_id) : routing_table :=
  tbl.map (fun e => if e.1 = whom then (e.1, { e.2 with hdl := none }) else e)

/-- `erase_direct(tbl, whom, on_remove)`: the returned flag, the resulting table and the calls
of `on_remove` in order. -/
def erase_direct (tbl : routing_table) (whom : endpoint_id) :
    Option (Bool × routing_table × List endpoint_id) :=
  match tbl.find? (fun e => decide (e.1 = whom)) with
  | none => some (false, tbl, [])
  | some _ =>
    match eraseDirectLoop whom (resetHandle tbl whom) with
    | none => none
    | some r => some (true, r.1, r.2)

/-- The `for` loop of `blacklisted`, at `index` with `remaining` iterations to go:
`some (some b)` when the loop returns `b`, `some none` when it runs to its end. -/
def blacklistedLoop (path : path_type) (path_ts : vector_timestamp) (revoker : endpoint_id)
    (ts : lamport_timestamp) (hop : endpoint_id) : Nat → Nat → Option (Option Bool)
  | _, 0 => some none
  | index, remaining + 1 =>
    match path[index]? with
    | none => none
    | some p =>
      if p = revoker then
        match path_ts[index]?, path[index - 1]?, path[index + 1]? with
        | some t, some prev, some next =>
          some (some (decide (t ≤ ts) && (decide (prev = hop) || decide (next = hop))))
        | _, _, _ => none
      else blacklistedLoop path path_ts revoker ts hop (index + 1) remaining

/-- `blacklisted(path, path_ts, revoker, ts, hop)`.  `BROKER_ASSERT` (declared in
`broker/detail/assert.hh`) is taken to have no defined result when its condition fails. -/
def blacklisted (path : path_type) (path_ts : vector_timestamp) (revoker : endpoint_id)
    (ts : lamport_timestamp) (hop : endpoint_id) : Option Bool :=
  if path.length ≠ path_ts.length then none
  else if path.length ≤ 1 then some false
  else if path.head? = some revoker then
    match path_ts.head?, path[1]? with
    | some t, some next => some (decide (t ≤ ts) && decide (next = hop))
    | _, _ => none
  else
    match blacklistedLoop path path_ts revoker ts hop 1 (path.length - 1 - 1) with
    | none => none
    | some (some b) => some b
    | some none =>
      if path.getLast? = some revoker then
        match path_ts.getLast?, path[path.length - 2]? with
        | some t, some prev => some (decide (t ≤ ts) && decide (prev = hop))
        | _, _ => none
      else some false

/-- Modelled from the spec: `detail::erase_if` is declared in `broker/detail/algorithms.hh`,
which is not part of the sources at hand; following "erase every path where the `blacklisted`
predicate holds" it removes the elements the predicate holds for and keeps the others in
order.  The predicate is evaluated on every element. -/
def erase_if {α : Type} (pred : α → Option Bool) : List α → Option (List α)
  | [] => some []
  | x :: xs =>
    match pred x with
    | none => none
    | some b =>
      match erase_if pred xs with
      | none => none
      | some r => if b then some r else some (x :: r)

/-- `revoke(tbl, revoker, revoke_time, hop, callback)`: the resulting table and the calls of
`callback` in order. -/
def revoke (revoker : endpoint_id) (revoke_time : lamport_timestamp) (hop : endpoint_id) :
    routing_table → Option (routing_table × List endpoint_id)
  | [] => some ([], [])
  | (id, row) :: rest =>
    match erase_if (fun kvp => blacklisted kvp.1 kvp.2 revoker revoke_time hop)
        row.versioned_paths with
    | none => none
    | some paths =>
      match revoke revoker revoke_time hop rest with
      | none => none
      | some r =>
        if paths.isEmpty then some (r.1, id :: r.2)
        else some ((id, { row with versioned_paths := paths }) :: r.1, r.2)

/-- `operator<` of `std::vector<endpoint_id>`, that is `std::lexicographical_compare`. -/
def vectorLess : path_type → path_type → Bool
  | [], [] => false
  | [], _ :: _ => true
  | _ :: _, [] => false
  | a :: x, b :: y => if a < b then true else if b < a then false else vectorLess x y

/-- `path_less_t::operator()` on two paths; the overloads for versioned paths compare the
paths (`first`) in the same way. -/
def path_less (x y : path_type) : Bool :=
  if x.length < y.length then true
  else if x.length = y.length then vectorLess x y
  else false

/-- `blacklist_entry<endpoint_id>`; `first_seen` is a reading of the actor clock. -/
structure blacklist_entry where
  revoker : endpoint_id
  ts : lamport_timestamp
  hop : endpoint_id
  first_seen : Nat
deriving DecidableEq, Repr

/-- `blacklist<endpoint_id>`, a vector of entries. -/
abbrev blacklist := List blacklist_entry

/-- `std::tie(x.revoker, x.ts, x.hop)`. -/
def blacklist_entry.tie (x : blacklist_entry) : endpoint_id × lamport_timestamp × endpoint_id :=
  (x.revoker, x.ts, x.hop)

/-- `operator<` of `std::tuple` on triples: lexicographic comparison. -/
def tupleLess (x y : endpoint_id × lamport_timestamp × endpoint_id) : Bool :=
  if x.1 < y.1 then true
  else if y.1 < x.1 then false
  else if x.2.1 < y.2.1 then true
  else if y.2.1 < x.2.1 then false
  else decide (x.2.2 < y.2.2)

/-- `std::lower_bound(lst.begin(), lst.end(), value)` with `operator<(blacklist_entry, tuple)`:
the furthermost position such that every entry before it is less than `value`. -/
def lower_bound : blacklist → endpoint_id × lamport_timestamp × endpoint_id → Nat
  | [], _ => 0
  | e :: rest, value => if tupleLess e.tie value then lower_bound rest value + 1 else 0

/-- `emplace(lst, self, revoker, ts, hop)`, where `now` is `self->clock().now()`: the list
afterwards, the position of the returned iterator and the returned flag. -/
def emplace (lst : blacklist) (now : Nat) (revoker : endpoint_id) (ts : lamport_timestamp)
    (hop : endpoint_id) : blacklist × Nat × Bool :=
  let i := lower_bound lst (revoker, ts, hop)
  match lst[i]? with
  | none => (lst.take i ++ ⟨revoker, ts, hop, now⟩ :: lst.drop i, i, true)
  | some e =>
    if e.revoker ≠ revoker ∨ e.ts ≠ ts ∨ e.hop ≠ hop then
      (lst.take i ++ ⟨revoker, ts, hop, now⟩ :: lst.drop i, i, true)
    else (lst, i, false)

/-! ## Proof-side descriptions of the loops, and sample tables -/

/-- What the loop of `impl` leaves of one entry. -/
def scrub (peer : endpoint_id) (e : endpoint_id × routing_table_row) :
    endpoint_id × routing_table_row :=
  (e.1, { e.2 with versioned_paths := e.2.versioned_paths.filter (fun vp => !stale peer vp) })

/-- Whether the loop of `impl` appends the entry's peer to `unreachable_peers`. -/
def emptied (peer : endpoint_id) (e : endpoint_id × routing_table_row) : Bool :=
  e.2.versioned_paths.any (stale peer)
    && (e.2.versioned_paths.filter (fun vp => !stale peer vp)).isEmpty

/-- Number of rows that still hold a path. -/
def livePaths (tbl : routing_table) : Nat :=
  tbl.countP (fun e => !e.2.versioned_paths.isEmpty)

/-- Every path of the table has at least one hop. -/
def pathsNonEmpty (tbl : routing_table) : Bool :=
  tbl.all (fun e => e.2.versioned_paths.all (fun vp => !vp.1.isEmpty))

/-- The first hop of the path is `whom`. -/
def firstHopIs (whom : endpoint_id) (vp : versioned_path_type) : Bool :=
  vp.1.head? == some whom

/-- What the inner loop of `erase_direct` leaves of one entry. -/
def keepDirect (whom : endpoint_id) (e : endpoint_id × routing_table_row) :
    endpoint_id × routing_table_row :=
  (e.1, { e.2 with
    versioned_paths := e.2.versioned_paths.filter (fun vp => !firstHopIs whom vp) })

/-- What `erase_direct` makes of one entry before it decides whether to erase the row. -/
def directEntry (whom : endpoint_id) (e : endpoint_id × routing_table_row) :
    endpoint_id × routing_table_row :=
  keepDirect whom (if e.1 = whom then (e.1, { e.2 with hdl := none }) else e)

/-- A table in which peer 1 has no direct connection and is reached through peer 2. -/
def indirectTable : routing_table :=
  [(1, ⟨none, [([2, 1], [1, 1])]⟩), (2, ⟨some 7, [([2], [1])]⟩)]

/-- A table in which peer 2 is reached through peer 1 only, and a path to peer 3 runs through
peers 4 and 2. -/
def relayTable : routing_table :=
  [(1, ⟨some 1, [([1], [1])]⟩),
   (2, ⟨none, [([1, 2], [1, 1])]⟩),
   (3, ⟨none, [([4, 2, 3], [1, 1, 1])]⟩),
   (4, ⟨some 4, [([4], [1])]⟩)]

/-- Every path of the table comes with a timestamp vector of its length, the condition that
`blacklisted` asserts. -/
def timestampsMatch (tbl : routing_table) : Bool :=
  tbl.all (fun e => e.2.versioned_paths.all (fun vp => vp.1.length == vp.2.length))

/-- The predicate that `revoke` hands to `erase_if` holds for the versioned path. -/
def revoked (revoker : endpoint_id) (ts : lamport_timestamp) (hop : endpoint_id)
    (vp : versioned_path_type) : Bool :=
  blacklisted vp.1 vp.2 revoker ts hop == some true

/-- What `erase_if` in `revoke` leaves of one entry. -/
def revokeEntry (revoker : endpoint_id) (ts : lamport_timestamp) (hop : endpoint_id)
    (e : endpoint_id × routing_table_row) : endpoint_id × routing_table_row :=
  (e.1, { e.2 with
    versioned_paths := e.2.versioned_paths.filter (fun vp => !revoked revoker ts hop vp) })

/-- The blacklist is sorted by `(revoker, ts, hop)`: no entry is less than an earlier one. -/
def blacklistSorted (lst : blacklist) : Prop :=
  lst.Pairwise (fun a b => tupleLess b.tie a.tie = false)

/-- No two entries of the blacklist have the same `(revoker, ts, hop)`. -/
def blacklistDupFree (lst : blacklist) : Prop :=
  (lst.map blacklist_entry.tie).Nodup

instance (lst : blacklist) : Decidable (blacklistSorted lst) :=
  inferInstanceAs (Decidable (lst.Pairwise _))

instance (lst : blacklist) : Decidable (blacklistDupFree lst) :=
  inferInstanceAs (Decidable (lst.map blacklist_entry.tie).Nodup)

/-- Strictly ascending by `(revoker, ts, hop)`. -/
def blacklistAscending (lst : blacklist) : Prop :=
  lst.Pairwise (fun a b => tupleLess a.tie b.tie = true)

/-- The rows of `t` come from `tbl` by deleting: every row of `t` belongs to a peer with a row
in `tbl` whose path list contains the paths of the row in `t`, with their timestamps and in the
same relative order. -/
def onlyDeleted (tbl t : routing_table) : Prop :=
  ∀ e' ∈ t, ∃ e ∈ tbl, e.1 = e'.1 ∧ e'.2.versioned_paths.Sublist e.2.versioned_paths

/-- The path list is loop-free, sorted by `path_less` and free of duplicate paths. -/
def pathListWellFormed (l : List versioned_path_type) : Prop :=
  (∀ vp ∈ l, vp.1.Nodup) ∧ l.Pairwise (fun a b => path_less b.1 a.1 = false) ∧
    (l.map Prod.fst).Nodup

/-- The row has a direct handle or some path of length at least 2 that ends in its peer. -/
def rowReachable (e : endpoint_id × routing_table_row) : Bool :=
  e.2.hdl.isSome
    || e.2.versioned_paths.any (fun vp => decide (2 ≤ vp.1.length) && vp.1.getLast? == some e.1)

/-- Every row of the table has a direct handle or some path of length at least 2 that ends in
its peer. -/
def tableReachable (tbl : routing_table) : Bool :=
  tbl.all rowReachable

/-- Every path of the table ends in the peer of its row. -/
def pathsEndAtPeer (tbl : routing_table) : Bool :=
  tbl.all (fun e => e.2.versioned_paths.all (fun vp => vp.1.getLast? == some e.1))

/-- Every path in a row without a direct handle has at least 2 hops. -/
def indirectPathsLong (tbl : routing_table) : Bool :=
  tbl.all (fun e => e.2.hdl.isSome || e.2.versioned_paths.all (fun vp => decide (2 ≤ vp.1.length)))

/-- The rows of `t` come from `tbl` by deleting paths and rows; handles are untouched. -/
def onlyDeletedPaths (tbl t : routing_table) : Prop :=
  ∀ e' ∈ t, ∃ e ∈ tbl, e.1 = e'.1 ∧ e.2.hdl = e'.2.hdl ∧
    e'.2.versioned_paths.Sublist e.2.versioned_paths

/-- A table in which peer 2 has no direct handle and holds the one-hop path `[2]` next to the
path through peer 1. -/
def shortcutTable : routing_table :=
  [(1, ⟨some 1, [([1], [1])]⟩), (2, ⟨none, [([2], [1]), ([1, 2], [1, 1])]⟩)]

/-- A table whose paths through peer 1 were announced at different times of peer 1: the path
`[1, 2, 3]` at time 4, the path `[1, 2]` at time 6. -/
def timedTable : routing_table :=
  [(1, ⟨some 1, [([1], [7])]⟩),
   (2, ⟨none, [([1, 2], [6, 1])]⟩),
   (3, ⟨none, [([1, 2, 3], [4, 1, 1]), ([1, 3], [7, 1])]⟩)]

/-- A table in which peer 2 has a row with a handle and no path, the row that the constructor
`routing_table_row(caf::actor)` makes. -/
def emptyRowTable : routing_table :=
  [(1, ⟨some 1, [([1], [1])]⟩), (2, ⟨some 2, []⟩)]

/-- A table for concrete runs: peers 1 and 4 are direct, 2 is behind 1, 3 behind 2, and 5 is
reached through 4 and 3 or through 1. -/
def sampleTable : routing_table :=
  [(1, ⟨some 1, [([1], [1])]⟩),
   (2, ⟨none, [([1, 2], [1, 1])]⟩),
   (3, ⟨none, [([1, 2, 3], [1, 1, 1]), ([2, 3], [1, 1])]⟩),
   (4, ⟨some 4, [([4], [1]), ([3, 4], [1, 1])]⟩),
   (5, ⟨none, [([4, 3, 5], [1, 1, 1]), ([1, 5], [1, 1])]⟩)]

end broker.alm

/-! ## The builders of `include/broker/builder.hh` -/

namespace broker

/-- `builder_buffer`, a vector of bytes. -/
abbrev builder_buffer := List Nat

/-- The parts of `format::bin::v1` (declared in `broker/format/bin.hh`) and the type tags of
`data::type` that the builders use, as parameters.  `encode` and `write_sequence` write to an
output iterator; they are given by the bytes they write. -/
structure bin_v1 (α : Type) where
  encode : α → builder_buffer
  write_sequence : Nat → Nat → builder_buffer → builder_buffer
  vector_tag : Nat
  set_tag : Nat
  table_tag : Nat

/-- What can be added to a builder after `detail::promote`: a primitive value, or another
builder, of which `builder_access::add` reads `tag()`, `num_values()` and
`encoded_values()`. -/
inductive builder_value (α : Type) where
  | primitive (value : α)
  | nested (tag : Nat) (num_values : Nat) (encoded_values : builder_buffer)

/-- The data members of `set_builder`, `table_builder` and `list_builder`. -/
structure builder_state where
  size_ : Nat
  bytes_ : builder_buffer
deriving DecidableEq, Repr

/-- `++size_` on a `size_t`. -/
def builder_state.incr_size (b : builder_state) : builder_state :=
  { b with size_ := (b.size_ + 1) % 2 ^ 64 }

/-- The bytes that `detail::builder_access::add` writes for `value`. -/
def detail.builder_access.written {α : Type} (fmt : bin_v1 α) :
    builder_value α → builder_buffer
  | .nested tag num_values encoded_values => fmt.write_sequence tag num_values encoded_values
  | .primitive value => fmt.encode value

/-- `detail::builder_access::add(builder, value)`: writes through `builder.adder()`, a
`std::back_inserter` on `bytes_`. -/
def detail.builder_access.add {α : Type} (fmt : bin_v1 α) (builder : builder_state)
    (value : builder_value α) : builder_state :=
  { builder with bytes_ := builder.bytes_ ++ detail.builder_access.written fmt value }

/-- Modelled from the spec: the constructors of the builders are declared in `builder.hh` and
defined elsewhere.  A fresh builder holds no value; `size_` is 0 by its default member
initializer, and `header` stands for the bytes the constructor puts into the owned buffer
ahead of the values. -/
def fresh_builder (header : builder_buffer) : builder_state :=
  ⟨0, header⟩

/-- `num_values()` of the three builders. -/
def builder_state.num_values (b : builder_state) : Nat := b.size_

/-- Modelled from the spec: `format::bin::v1::encoded_values` is declared in
`broker/format/bin.hh`; `encoded_values()` "returns the values in the builder as encoded
bytes", the part of the buffer behind the `header` of the constructor. -/
def builder_state.encoded_values (header : builder_buffer) (b : builder_state) :
    builder_buffer :=
  b.bytes_.drop header.length

/-- `list_builder::add(value)` for a value that is not a tuple (the `else` branch of the
`if constexpr`); `value` is the promoted value `pval`. -/
def list_builder.add {α : Type} (fmt : bin_v1 α) (b : builder_state)
    (value : builder_value α) : builder_state :=
  detail.builder_access.add fmt b.incr_size value

/-- `set_builder::add(value)`; `value` is the promoted value `pval`. -/
def set_builder.add {α : Type} (fmt : bin_v1 α) (b : builder_state)
    (value : builder_value α) : builder_state :=
  detail.builder_access.add fmt b.incr_size value

/-- `table_builder::add(key_arg, val_arg)`; `key` and `val` are the promoted arguments. -/
def table_builder.add {α : Type} (fmt : bin_v1 α) (b : builder_state)
    (key val : builder_value α) : builder_state :=
  detail.builder_access.add fmt (detail.builder_access.add fmt b.incr_size key) val

/-- A list builder handed to `add` of another builder. -/
def list_builder.as_value {α : Type} (fmt : bin_v1 α) (header : builder_buffer)
    (b : builder_state) : builder_value α :=
  .nested fmt.vector_tag b.num_values (b.encoded_values header)

/-- `format::bin::v1::write_unsigned` and `format::bin::v1::write_varbyte` (declared in
`broker/format/bin.hh`), as parameters: each is given by the bytes it writes for its first
argument. -/
structure bin_v1_writers where
  write_unsigned : Nat → builder_buffer
  write_varbyte : Nat → builder_buffer

/-- An argument of `list_builder::add`, `add_list` and `add_inline_vector_item` after
`detail::promote`: a value that is not a tuple, or a tuple (`detail::is_tuple`) of
arguments. -/
inductive list_item (α : Type) where
  | value (v : builder_value α)
  | tuple (xs : List (list_item α))

/-- `start_inline_vector(num_elements)`; the number of elements is a `sizeof...` and fits a
`size_t`. -/
def list_builder.start_inline_vector {α : Type} (fmt : bin_v1 α) (w : bin_v1_writers)
    (b : builder_state) (num_elements : Nat) : builder_state :=
  { b.incr_size with
    bytes_ := b.bytes_ ++ w.write_unsigned fmt.vector_tag ++ w.write_varbyte num_elements }

mutual

/-- `add_inline_vector_item(value)`: a tuple is written as the vector tag, the tuple size and
its elements, any other value through `builder_access::add`. -/
def list_builder.add_inline_vector_item {α : Type} (fmt : bin_v1 α) (w : bin_v1_writers)
    (b : builder_state) : list_item α → builder_state
  | .tuple xs =>
    list_builder.add_inline_vector_items fmt w
      { b with
        bytes_ := b.bytes_ ++ w.write_unsigned fmt.vector_tag ++ w.write_varbyte xs.length }
      xs
  | .value v => detail.builder_access.add fmt b v

/-- The fold expression `(add_inline_vector_item(xs), ...)`: one call for each element, from
left to right. -/
def list_builder.add_inline_vector_items {α : Type} (fmt : bin_v1 α) (w : bin_v1_writers)
    (b : builder_state) : List (list_item α) → builder_state
  | [] => b
  | x :: rest =>
    list_builder.add_inline_vector_items fmt w
      (list_builder.add_inline_vector_item fmt w b x) rest

end

/-- `add_list(xs...)`: `start_inline_vector(sizeof...(xs))`, then `add_inline_vector_item`
for each argument. -/
def list_builder.add_list {α : Type} (fmt : bin_v1 α) (w : bin_v1_writers)
    (b : builder_state) (xs : List (list_item α)) : builder_state :=
  list_builder.add_inline_vector_items fmt w
    (list_builder.start_inline_vector fmt w b xs.length) xs

/-- `list_builder::add(value)` for a tuple `pval` (the first branch of the `if constexpr`):
`std::apply([&](auto&&... xs) { (add_list(xs), ...); }, pval)`, a fold expression over the
comma operator that calls `add_list` with one argument for each element of the tuple, from
left to right. -/
def list_builder.add_tuple {α : Type} (fmt : bin_v1 α) (w : bin_v1_writers)
    (b : builder_state) (pval : List (list_item α)) : builder_state :=
  pval.foldl (fun builder x => list_builder.add_list fmt w builder [x]) b

/-- Writers for concrete runs: the type tag and the number of elements take one byte each. -/
def sampleWriters : bin_v1_writers :=
  ⟨fun tag => [tag], fun n => [n]⟩

/-- A codec for concrete runs: a number is written as the byte 1 followed by the number, a
sequence as its tag, its length and its bytes. -/
def sampleCodec : bin_v1 Nat :=
  ⟨fun n => [1, n], fun tag n bytes => tag :: n :: bytes, 14, 12, 13⟩

/-- Values for concrete runs, out of order and with a repeated element. -/
def sampleValues : List (builder_value Nat) :=
  [.primitive 7, .primitive 3, .primitive 7]

/-- Table entries for concrete runs, out of order and with a repeated key. -/
def sampleEntries : List (builder_value Nat × builder_value Nat) :=
  [(.primitive 7, .primitive 1), (.primitive 3, .primitive 2), (.primitive 7, .primitive 5)]

end broker

/-! ## The store of `src/detail/clone_actor.cc` -/

namespace broker.detail

/-- The status code that the handlers of `clone_actor` return, `sc::no_such_key`. -/
inductive sc where
  | no_such_key
deriving DecidableEq, Repr

/-- `clone_state::store`, a `std::unordered_map<data, data>`, as the list of its entries; the
keys of the entries are pairwise distinct.  `data` is a parameter with decidable equality. -/
abbrev store_type (data : Type) := List (data × data)

/-- The keys of the store. -/
def store_keys {data : Type} (store : store_type data) : List data := store.map Prod.fst

/-- `store.find(key)`: the entry with the key, if any. -/
def store_find {data : Type} [DecidableEq data] (store : store_type data) (key : data) :
    Option (data × data) :=
  store.find? (fun e => decide (e.1 = key))

/-- `i->second = std::move(value)` for the iterator `i` that `find(key)` returned. -/
def store_assign {data : Type} [DecidableEq data] :
    store_type data → data → data → store_type data
  | [], _, _ => []
  | e :: rest, key, value =>
    if e.1 = key then (e.1, value) :: rest else e :: store_assign rest key value

/-- The handler of `(atom::put, key, value)` in `update`.  Where `emplace` puts a new entry in
the iteration order of the `std::unordered_map` is not specified; here it comes last. -/
def update_put {data : Type} [DecidableEq data] (store : store_type data) (key value : data) :
    store_type data :=
  match store_find store key with
  | some _ => store_assign store key value
  | none => store ++ [(key, value)]

/-- The handler of `(atom::erase, key)` in `update`: `store.erase(key)`. -/
def update_erase {data : Type} [DecidableEq data] (store : store_type data) (key : data) :
    store_type data :=
  store.filter (fun e => decide (e.1 ≠ key))

/-- The handler of `(atom::get, key)` in `query`: the answer and the store afterwards. -/
def query_get {data : Type} [DecidableEq data] (store : store_type data) (key : data) :
    Except sc data × store_type data :=
  match store_find store key with
  | none => (.error sc.no_such_key, store)
  | some e => (.ok e.2, store)

/-- A store for concrete runs. -/
def sampleStore : store_type Nat := [(1, 10), (2, 20), (3, 30)]

/-- The handler of `(atom::add, key, value)` in `update`.  `adder value current` stands for
`visit(adder{value}, i->second)` (declared in `broker/detail/appliers.hh`): the new content of
`i->second`, or `none` when the visitor reports an error, in which case `BROKER_ASSERT(result)`
fails. -/
def update_add {data : Type} [DecidableEq data] (adder : data → data → Option data)
    (store : store_type data) (key value : data) : Option (store_type data) :=
  match store_find store key with
  | none => some (store ++ [(key, value)])
  | some e =>
    match adder value e.2 with
    | none => none
    | some sum => some (store_assign store key sum)

/-- The handler of `(atom::remove, key, value)` in `update`.  `remover value current` stands
for `visit(remover{value}, i->second)`; both assertions of the handler must hold. -/
def update_remove {data : Type} [DecidableEq data] (remover : data → data → Option data)
    (store : store_type data) (key value : data) : Option (store_type data) :=
  match store_find store key with
  | none => none
  | some e =>
    match remover value e.2 with
    | none => none
    | some difference => some (store_assign store key difference)

/-- The messages that the handlers of `update` accept. -/
inductive command (data : Type) where
  | put (key value : data)
  | add (key value : data)
  | remove (key value : data)
  | erase (key : data)
deriving DecidableEq, Repr

/-- The message handler `update`: the store after the message, `none` when an assertion of
the handler fails. -/
def update {data : Type} [DecidableEq data] (adder remover : data → data → Option data)
    (store : store_type data) : command data → Option (store_type data)
  | .put key value => some (update_put store key value)
  | .add key value => update_add adder store key value
  | .remove key value => update_remove remover store key value
  | .erase key => some (update_erase store key)

/-- The handler `dispatch` on a sequence of messages from the core, in order of arrival: it
passes every message to `update`. -/
def dispatch_all {data : Type} [DecidableEq data] (adder remover : data → data → Option data) :
    store_type data → List (command data) → Option (store_type data)
  | store, [] => some store
  | store, msg :: rest =>
    match update adder remover store msg with
    | none => none
    | some store' => dispatch_all adder remover store' rest

/-- `snapshot` (declared in `broker/snapshot.hh`): the entries of the master's store. -/
structure snapshot (data : Type) where
  entries : store_type data

/-- The handler of `snapshot` in `direct`: `self->state.store = ss.entries`. -/
def direct_snapshot {data : Type} (_store : store_type data) (ss : snapshot data) :
    store_type data :=
  ss.entries

/-- Modelled from the spec: the master actor is not among the sources at hand.  These are the
requests of its command handling, `put(k, v, expiry?)`, `add(k, v, expiry?)`,
`subtract(k, v, expiry?)`, `erase(k)`, `clear()` and `expire(k, ts)`; a timestamp is a
number. -/
inductive master_request (data : Type) where
  | put (key value : data) (expiry : Option Nat)
  | add (key value : data) (expiry : Option Nat)
  | subtract (key value : data) (expiry : Option Nat)
  | erase (key : data)
  | clear
  | expire (key : data) (ts : Nat)
deriving DecidableEq, Repr

/-- Modelled from the spec: the state of the master, "name, authoritative key→value map,
optional per-key expiry timestamp, a monotonically increasing command sequence, and the set of
attached clones (by endpoint id)".  A key without an entry in `expiries` has no expiry. -/
structure master_state (data : Type) where
  name : String
  store : store_type data
  expiries : List (data × Nat)
  seq : Nat
  clones : List Nat
deriving DecidableEq, Repr

/-- Modelled from the spec: the command message that the master emits, "carrying (op, key,
value, expiry, seq)"; the request holds the operation with its key, value and expiry. -/
structure master_command (data : Type) where
  request : master_request data
  seq : Nat
deriving DecidableEq, Repr

/-- Modelled from the spec: the expiry timestamps after a mutation of `key` ("reset expiry",
"canceling/rescheduling on any mutation"): what was recorded for the key is dropped, and
`expiry` is recorded when there is one. -/
def reset_expiry {data : Type} [DecidableEq data] (expiries : List (data × Nat)) (key : data)
    (expiry : Option Nat) : List (data × Nat) :=
  match expiry with
  | none => expiries.filter (fun e => decide (e.1 ≠ key))
  | some ts => expiries.filter (fun e => decide (e.1 ≠ key)) ++ [(key, ts)]

/-- Modelled from the spec: `add` and its "symmetric inverse" `subtract` on the map, "if
absent, initialize to the neutral element of `v`'s type then apply", otherwise apply to the
stored value.  `op value current` is `+` or its inverse with the per-tag semantics; `none`
means that the operands are rejected. -/
def master_combine {data : Type} [DecidableEq data] (neutral : data → data)
    (op : data → data → Option data) (store : store_type data) (key value : data) :
    Option (store_type data) :=
  match store_find store key with
  | none =>
    match op value (neutral value) with
    | none => none
    | some result => some (store ++ [(key, result)])
  | some e =>
    match op value e.2 with
    | none => none
    | some result => some (store_assign store key result)

/-- Modelled from the spec: the command handling of the master, the state after a successful
mutation, with the command sequence increased, and `none` when the mutation does not succeed.
`put` overwrites and resets the expiry; `add` and `subtract` combine; `erase` removes the key;
`clear` removes every key; `expire(k, ts)` removes `k` "iff its recorded expiry equals `ts`". -/
def master_apply {data : Type} [DecidableEq data] (neutral : data → data)
    (adder remover : data → data → Option data) (s : master_state data) :
    master_request data → Option (master_state data)
  | .put key value expiry =>
    some { s with
      store := update_put s.store key value
      expiries := reset_expiry s.expiries key expiry
      seq := s.seq + 1 }
  | .add key value expiry =>
    match master_combine neutral adder s.store key value with
    | none => none
    | some store' =>
      some { s with
        store := store'
        expiries := reset_expiry s.expiries key expiry
        seq := s.seq + 1 }
  | .subtract key value expiry =>
    match master_combine neutral remover s.store key value with
    | none => none
    | some store' =>
      some { s with
        store := store'
        expiries := reset_expiry s.expiries key expiry
        seq := s.seq + 1 }
  | .erase key =>
    some { s with
      store := update_erase s.store key
      expiries := reset_expiry s.expiries key none
      seq := s.seq + 1 }
  | .clear => some { s with store := [], expiries := [], seq := s.seq + 1 }
  | .expire key ts =>
    if (s.expiries.find? (fun e => decide (e.1 = key))).map Prod.snd = some ts then
      some { s with
        store := update_erase s.store key
        expiries := reset_expiry s.expiries key none
        seq := s.seq + 1 }
    else none

/-- Modelled from the spec: the master handles the requests in order; "for each successful
mutation" it emits a command message with the request and the command sequence.  The result
is the state of the master and the commands it emitted, in mutation order. -/
def master_run {data : Type} [DecidableEq data] (neutral : data → data)
    (adder remover : data → data → Option data) :
    master_state data → List (master_request data) →
      master_state data × List (master_command data)
  | s, [] => (s, [])
  | s, request :: rest =>
    match master_apply neutral adder remover s request with
    | none => master_run neutral adder remover s rest
    | some s' =>
      ((master_run neutral adder remover s' rest).1,
        ⟨request, s'.seq⟩ :: (master_run neutral adder remover s' rest).2)

/-- Modelled from the spec: how the master puts a command into a message is not among the
sources at hand.  Of a command "carrying (op, key, value, expiry, seq)" the handlers of
`update` take the atom of the operation (`atom::remove` for `subtract`) with the key and the
value; this is the message that reaches them.  `update` has no handler for `clear` and
`expire`, so there is no such message for these commands. -/
def update_message {data : Type} (c : master_command data) : Option (command data) :=
  match c.request with
  | .put key value _ => some (.put key value)
  | .add key value _ => some (.add key value)
  | .subtract key value _ => some (.remove key value)
  | .erase key => some (.erase key)
  | .clear => none
  | .expire _ _ => none

/-- The handler `dispatch` on the commands of the master that arrive, in order of arrival:
`update(msg)` on the message of each command.  Nothing happens for a command that no handler
of `update` accepts, so these commands drop out. -/
def dispatch_commands {data : Type} [DecidableEq data]
    (adder remover : data → data → Option data) (store : store_type data)
    (cmds : List (master_command data)) : Option (store_type data) :=
  dispatch_all adder remover store (cmds.filterMap update_message)

/-- What arrives at the clone when every command comes with the number of times it is
delivered: the commands in their order, each repeated that many times. -/
def deliveries {α : Type} : List (α × Nat) → List α
  | [] => []
  | (msg, times) :: rest => List.replicate times msg ++ deliveries rest

/-- Every command is delivered at least once. -/
def deliveredAtLeastOnce {α : Type} (ds : List (α × Nat)) : Bool :=
  ds.all (fun d => decide (1 ≤ d.2))

/-- The commands `add` and `subtract` are delivered exactly once. -/
def addSubtractOnce {data : Type} (ds : List (master_command data × Nat)) : Bool :=
  ds.all (fun d =>
    match d.1.request with
    | .add _ _ _ => decide (d.2 = 1)
    | .subtract _ _ _ => decide (d.2 = 1)
    | _ => true)

/-- Every command is a `put`, `add`, `subtract` or `erase`, the operations that `update` has a
handler for. -/
def updateAcceptsAll {data : Type} (cmds : List (master_command data)) : Bool :=
  cmds.all (fun c => (update_message c).isSome)

/-- Every `subtract` among the requests names a key that the master holds when it handles the
request. -/
def subtractKeysPresent {data : Type} [DecidableEq data] (neutral : data → data)
    (adder remover : data → data → Option data) :
    master_state data → List (master_request data) → Bool
  | _, [] => true
  | s, request :: rest =>
    (match request with
      | .subtract key _ _ => (store_find s.store key).isSome
      | _ => true)
    && subtractKeysPresent neutral adder remover
        ((master_apply neutral adder remover s request).getD s) rest

/-- Addition of `count` values, a 64-bit unsigned integer, for concrete runs. -/
def countAdder (value current : Nat) : Option Nat := some ((current + value) % 2 ^ 64)

/-- Subtraction of `count` values, a 64-bit unsigned integer, for concrete runs. -/
def countRemover (value current : Nat) : Option Nat :=
  some ((current + 2 ^ 64 - value % 2 ^ 64) % 2 ^ 64)

/-- Adding `value` to the neutral element of its type gives `value`, for the value of every
`add` among the requests. -/
def neutralLaw {data : Type} [DecidableEq data] (neutral : data → data)
    (adder : data → data → Option data) (requests : List (master_request data)) : Bool :=
  requests.all (fun request =>
    match request with
    | .add _ value _ => decide (adder value (neutral value) = some value)
    | _ => true)

/-- A master of the store `kono` for concrete runs, with the entries of `store`, no expiry and
one attached clone. -/
def sampleMaster (store : store_type Nat) : master_state Nat :=
  ⟨"kono", store, [], 0, [7]⟩

/-- The messages that reach the behavior of `clone_actor`.  A `timestamp` is a number, an
actor is a number and a `topic` is a string; `command` holds the messages with an atom, a key
and at most a value, `topic_message` is a message made of a topic, a `caf::message` and an
actor. -/
inductive message (data : Type) where
  | put (key value : data) (expiry : Option Nat)
  | add (key value : data) (expiry : Option Nat)
  | remove (key value : data) (expiry : Option Nat)
  | command (c : command data)
  | get (key : data)
  | get_value (key value : data)
  | get_name
  | snapshot (ss : snapshot data)
  | topic_message (t : String) (msg : message data) (source : Nat)

/-- The arguments `core`, `master` and `name` of `clone_actor`, and what its handlers use of
headers outside the sources at hand, as parameters: `master_topic name` is the topic
`name / topics::reserved / topics::master`, and `adder`, `remover` and `retriever` are the
visitors of `broker/detail/appliers.hh`. -/
structure clone_env (data : Type) where
  core : Nat
  master : Nat
  name : String
  master_topic : String → String
  adder : data → data → Option data
  remover : data → data → Option data
  retriever : data → data → Except sc data

/-- A message sent by `self->send(receiver, t, msg, core)`. -/
structure sent (data : Type) where
  receiver : Nat
  t : String
  msg : message data
  core : Nat

/-- What a handler of `query` returns to the sender. -/
inductive reply (data : Type) where
  | value (result : Except sc data)
  | name (result : String)

/-- What a message handler makes of a message: `unmatched` when none of its handlers accepts
the message, `failed` when a `BROKER_ASSERT` fails, and otherwise the store afterwards, the
messages sent and the reply. -/
inductive handled (data : Type) where
  | unmatched
  | failed
  | done (store : store_type data) (sends : List (sent data)) (answer : Option (reply data))

/-- The lambda `forward` of `clone_actor`: the message that it sends. -/
def forward {data : Type} (env : clone_env data) (msg : message data) : sent data :=
  ⟨env.master, env.master_topic env.name, msg, env.core⟩

/-- The message handler `relay`. -/
def relay {data : Type} (env : clone_env data) (store : store_type data) :
    message data → handled data
  | .put key value expiry => .done store [forward env (.put key value expiry)] none
  | .add key value expiry => .done store [forward env (.add key value expiry)] none
  | .remove key value expiry => .done store [forward env (.remove key value expiry)] none
  | .command (.erase key) => .done store [forward env (.command (.erase key))] none
  | _ => .unmatched

/-- The message handler `update` on a message: it accepts the messages of `command`. -/
def update_handler {data : Type} [DecidableEq data] (env : clone_env data)
    (store : store_type data) : message data → handled data
  | .command c =>
    match update env.adder env.remover store c with
    | some store' => .done store' [] none
    | none => .failed
  | _ => .unmatched

/-- The message handler `dispatch`: `update(msg)` on the message inside; nothing happens when
`update` does not accept it. -/
def dispatch {data : Type} [DecidableEq data] (env : clone_env data)
    (store : store_type data) : message data → handled data
  | .topic_message _ msg _ =>
    match update_handler env store msg with
    | .unmatched => .done store [] none
    | r => r
  | _ => .unmatched

/-- The message handler `query`. -/
def query {data : Type} [DecidableEq data] (env : clone_env data) (store : store_type data) :
    message data → handled data
  | .get key => .done store [] (some (.value (query_get store key).1))
  | .get_value key value =>
    match store_find store key with
    | none => .done store [] (some (.value (.error sc.no_such_key)))
    | some e => .done store [] (some (.value (env.retriever value e.2)))
  | .get_name => .done store [] (some (.name env.name))
  | _ => .unmatched

/-- The message handler `direct`. -/
def direct {data : Type} (store : store_type data) : message data → handled data
  | .snapshot ss => .done (direct_snapshot store ss) [] none
  | _ => .unmatched

/-- `first.or_else(second)`: the handlers of `second` are tried when none of `first` accepts
the message. -/
def or_else {data : Type} (first second : message data → handled data) :
    message data → handled data :=
  fun msg =>
    match first msg with
    | .unmatched => second msg
    | r => r

/-- The behavior that `clone_actor` returns,
`dispatch.or_else(relay).or_else(update).or_else(query).or_else(direct)`, on a message. -/
def clone_actor {data : Type} [DecidableEq data] (env : clone_env data)
    (store : store_type data) : message data → handled data :=
  or_else (or_else (or_else (or_else (dispatch env store) (relay env store))
    (update_handler env store)) (query env store)) (direct store)

/-- A clone of the store `kono` for concrete runs, with values of type `count`. -/
def sampleClone : clone_env Nat :=
  ⟨1, 2, "kono", fun name => name ++ "/master", countAdder, countRemover,
    fun _ current => .ok current⟩

end broker.detail

/-! ## The store manager of `include/broker/mixin/data_store_manager.hh` -/

namespace broker.mixin

/-- The error codes that `data_store_manager` returns. -/
inductive ec where
  | unspecified
  | no_such_master
deriving DecidableEq, Repr

/-- The members `masters_` and `clones_` of `data_store_manager`: the master and clone actors
created by this core, each an `std::unordered_map` from store name to actor handle, as the
lists of their entries. -/
structure data_store_manager where
  masters_ : List (String × Nat)
  clones_ : List (String × Nat)
deriving DecidableEq, Repr

/-- A newly constructed `data_store_manager`: both maps are empty. -/
def data_store_manager.initial : data_store_manager := ⟨[], []⟩

/-- `attach_master(name, backend_type, opts)`: the result and the manager afterwards.  The body
is `return ec::unspecified;`; what follows in the source is a comment. -/
def data_store_manager.attach_master (self : data_store_manager) (_name : String)
    (_backend_type : Nat) (_opts : List (String × Nat)) : Except ec Nat × data_store_manager :=
  (.error ec.unspecified, self)

/-- `attach_clone(name, resync_interval, stale_interval, mutation_buffer_interval)`: the
result and the manager afterwards.  The body is `return ec::unspecified;`; what follows in the
source is a comment.  The intervals are given by their bit patterns. -/
def data_store_manager.attach_clone (self : data_store_manager) (_name : String)
    (_resync_interval _stale_interval _mutation_buffer_interval : Nat) :
    Except ec Nat × data_store_manager :=
  (.error ec.unspecified, self)

/-- `get_master(name)`. -/
def data_store_manager.get_master (self : data_store_manager) (name : String) :
    Except ec Nat × data_store_manager :=
  match self.masters_.find? (fun e => decide (e.1 = name)) with
  | some e => (.ok e.2, self)
  | none => (.error ec.no_such_master, self)

/-- `detach_stores()`: after the exit messages both containers are cleared. -/
def data_store_manager.detach_stores (_self : data_store_manager) : data_store_manager :=
  ⟨[], []⟩

/-- The messages of `make_behavior` that reach the two maps. -/
inductive store_request where
  | attach_clone (name : String) (resync_interval stale_interval mutation_buffer_interval : Nat)
  | attach_master (name : String) (backend_type : Nat) (opts : List (String × Nat))
  | get_master (name : String)
  | detach_stores
  | resolve (name : String) (who_asked : Nat)

/-- The manager after a message of `make_behavior`; resolving a master reads `masters_`
only. -/
def data_store_manager.handle (self : data_store_manager) : store_request → data_store_manager
  | .attach_clone name r s m => (self.attach_clone name r s m).2
  | .attach_master name backend_type opts => (self.attach_master name backend_type opts).2
  | .get_master name => (self.get_master name).2
  | .detach_stores => self.detach_stores
  | .resolve _ _ => self

/-- The manager after a sequence of messages, handled one at a time. -/
def data_store_manager.run (self : data_store_manager) (requests : List store_request) :
    data_store_manager :=
  requests.foldl data_store_manager.handle self

end broker.mixin

/-! ## The text encoder of `include/broker/format/txt.hh` -/

namespace broker.format.txt.v1

/-- What the encoder takes from outside: the rendering of a `real`, given by its bit pattern,
under the conversion `%f` of `std::snprintf`, and the `convert` functions for `address`,
`subnet` and `port` (given by an identifier of the value). -/
structure renderers where
  fmt_f : Nat → List Char
  convert_address : Nat → List Char
  convert_subnet : Nat → List Char
  convert_port : Nat → List Char

/-- The alternatives of `variant_data`; `data` and `variant` have the same alternatives and
are encoded by the same functions. -/
inductive variant_data where
  | none
  | boolean (value : Bool)
  | count (value : Nat)
  | integer (value : Int)
  | real (value : Nat)
  | string (value : List Char)
  | address (value : Nat)
  | subnet (value : Nat)
  | port (value : Nat)
  | timestamp (value : Int)
  | timespan (value : Int)
  | enum_value (name : List Char)
  | set (values : List variant_data)
  | table (values : List (variant_data × variant_data))
  | list (values : List variant_data)

/-- The terminating null character. -/
def NUL : Char := Char.ofNat 0

/-- `std::snprintf(buf, n, format, value)` where `text` is the complete rendering of the
value: the characters stored in `buf` (at most `n - 1` characters of the rendering and the
terminating null character, nothing when `n` is 0) and the returned number, the length of the
complete rendering. -/
def snprintf (n : Nat) (text : List Char) : List Char × Nat :=
  (if n = 0 then [] else text.take (n - 1) ++ [NUL], text.length)

/-- `std::copy(buf, buf + size, out)` from a buffer of which `stored` are the characters that
were written: the characters appended to `out`.  Reading beyond the written characters has no
defined result. -/
def copy_chars (stored : List Char) (size : Nat) : Option (List Char) :=
  if size ≤ stored.length then some (stored.take size) else none

/-- The rendering of the conversion `%llu`. -/
def fmt_llu (value : Nat) : List Char := Nat.toDigits 10 value

/-- The rendering of the conversion `%lld`. -/
def fmt_lld (value : Int) : List Char :=
  if value < 0 then '-' :: Nat.toDigits 10 value.natAbs else Nat.toDigits 10 value.natAbs

/-- `encode(none, out)`. -/
def encode_none : List Char := ['n', 'i', 'l']

/-- `encode(boolean, out)`. -/
def encode_boolean (value : Bool) : List Char := [if value then 'T' else 'F']

/-- `encode(count, out)`; the cast to `long long unsigned` keeps 64 bits. -/
def encode_count (value : Nat) : Option (List Char) :=
  copy_chars (snprintf 24 (fmt_llu (value % 2 ^ 64))).1 (snprintf 24 (fmt_llu (value % 2 ^ 64))).2

/-- `static_cast<long long>(value)`. -/
def to_long_long (value : Int) : Int := (value + 2 ^ 63) % 2 ^ 64 - 2 ^ 63

/-- `encode(integer, out)`. -/
def encode_integer (value : Int) : Option (List Char) :=
  copy_chars (snprintf 24 (fmt_lld (to_long_long value))).1
    (snprintf 24 (fmt_lld (to_long_long value))).2

/-- `encode(real, out)`.  In the `else` branch the vector has `size + 1` elements, which
`snprintf` fills, and `std::copy` copies the vector from `begin()` to `end()`. -/
def encode_real (env : renderers) (value : Nat) : Option (List Char) :=
  if (snprintf 0 (env.fmt_f value)).2 < 24 then
    copy_chars (snprintf 24 (env.fmt_f value)).1 (snprintf 24 (env.fmt_f value)).2
  else
    some (snprintf ((snprintf 0 (env.fmt_f value)).2 + 1) (env.fmt_f value)).1

/-- `encode(timestamp, out)` and `encode(timespan, out)` on the count of nanoseconds. -/
def encode_nanoseconds (value : Int) : Option (List Char) :=
  match encode_integer value with
  | none => none
  | some digits => some (digits ++ ['n', 's'])

mutual
/-- `encode(const variant_data&, out)`: the characters written, `none` when a copy has no
defined result. -/
def encode (env : renderers) : variant_data → Option (List Char)
  | .none => some encode_none
  | .boolean value => some (encode_boolean value)
  | .count value => encode_count value
  | .integer value => encode_integer value
  | .real value => encode_real env value
  | .string value => some value
  | .address value => some (env.convert_address value)
  | .subnet value => some (env.convert_subnet value)
  | .port value => some (env.convert_port value)
  | .timestamp value => encode_nanoseconds value
  | .timespan value => encode_nanoseconds value
  | .enum_value name => some name
  | .set values => encode_range env values '{' '}'
  | .table values => encode_range_pairs env values '(' ')'
  | .list values => encode_range env values '{' '}'
/-- `encode_range(first, last, left, right, out)` on a range of values. -/
def encode_range (env : renderers) : List variant_data → Char → Char → Option (List Char)
  | [], left, right => some [left, right]
  | x :: rest, left, right =>
    match encode env x with
    | none => none
    | some head =>
      match encode_range_loop env rest with
      | none => none
      | some tail => some (left :: head ++ tail ++ [right])
/-- The `while` loop of `encode_range` on a range of values. -/
def encode_range_loop (env : renderers) : List variant_data → Option (List Char)
  | [] => some []
  | x :: rest =>
    match encode env x with
    | none => none
    | some item =>
      match encode_range_loop env rest with
      | none => none
      | some tail => some ([',', ' '] ++ item ++ tail)
/-- `encode(const std::pair<Key, Val>&, out)`. -/
def encode_pair (env : renderers) : variant_data × variant_data → Option (List Char)
  | (key, val) =>
    match encode env key with
    | none => none
    | some first =>
      match encode env val with
      | none => none
      | some second => some (first ++ [' ', '-', '>', ' '] ++ second)
/-- `encode_range(first, last, left, right, out)` on a range of key/value pairs. -/
def encode_range_pairs (env : renderers) :
    List (variant_data × variant_data) → Char → Char → Option (List Char)
  | [], left, right => some [left, right]
  | x :: rest, left, right =>
    match encode_pair env x with
    | none => none
    | some head =>
      match encode_range_pairs_loop env rest with
      | none => none
      | some tail => some (left :: head ++ tail ++ [right])
/-- The `while` loop of `encode_range` on a range of key/value pairs. -/
def encode_range_pairs_loop (env : renderers) :
    List (variant_data × variant_data) → Option (List Char)
  | [] => some []
  | x :: rest =>
    match encode_pair env x with
    | none => none
    | some item =>
      match encode_range_pairs_loop env rest with
      | none => none
      | some tail => some ([',', ' '] ++ item ++ tail)
end

/-- Renderings for concrete runs: `1e30`, the `real` with the bit pattern
`0x46293E5939A08CEA`, has 38 characters under `%f`; other values are not used. -/
def sampleRenderers : renderers :=
  ⟨fun bits =>
      if bits = 0x46293E5939A08CEA then "1000000000000000019884624838656.000000".toList
      else "0.000000".toList,
    fun _ => [], fun _ => [], fun _ => []⟩

end broker.format.txt.v1

/-! ## The kill switch of `include/broker/internal/killswitch.hh` -/

namespace broker.internal

/-- `caf::disposable`, a handle to a subscription, given by a number; `none` is the
default-constructed handle, which converts to `false`. -/
abbrev disposable := Option Nat

/-- `caf::sec`, of which `killswitch` uses `disposed`. -/
inductive sec where
  | disposed
deriving DecidableEq, Repr

/-- What a member function of `killswitch` does to the objects around it, in call order:
`out.on_error(make_error(code))` on an observer, `decorated_.subscribe(out)` on the decorated
observable and `sub.dispose()` on a handle.  Observers are given by numbers. -/
inductive effect where
  | on_error (out : Nat) (code : sec)
  | subscribe (out : Nat)
  | dispose (sub : Nat)
deriving DecidableEq, Repr

/-- The data members of `killswitch<T>`.  `decorated_` (a `caf::flow::observable<T>`) is given
by the handle its `subscribe` returns for an observer after the effects so far; `subs_` lists
the numbers of the stored handles, which are valid ones (`if (sub)`). -/
structure killswitch where
  disposed_ : Bool
  decorated_ : List effect → Nat → disposable
  subs_ : List Nat

/-- The constructor `killswitch(decorated)`: `disposed_` is `false` by its default member
initializer and `subs_` is empty. -/
def killswitch.make (decorated : List effect → Nat → disposable) : killswitch :=
  ⟨false, decorated, []⟩

/-- `subscribe(out)`: the returned handle, the kill switch afterwards and the effects
afterwards. -/
def killswitch.subscribe (self : killswitch) (effects : List effect) (out : Nat) :
    disposable × killswitch × List effect :=
  if self.disposed_ then (none, self, effects ++ [effect.on_error out sec.disposed])
  else
    match self.decorated_ effects out with
    | some sub =>
      (some sub, { self with subs_ := self.subs_ ++ [sub] }, effects ++ [effect.subscribe out])
    | none => (none, self, effects ++ [effect.subscribe out])

/-- `dispose()`: the kill switch afterwards and the effects afterwards. -/
def killswitch.dispose (self : killswitch) (effects : List effect) :
    killswitch × List effect :=
  if !self.disposed_ then
    ({ self with disposed_ := true, subs_ := [] }, effects ++ self.subs_.map effect.dispose)
  else (self, effects)

/-- `disposed()`. -/
def killswitch.disposed (self : killswitch) : Bool := self.disposed_

/-- A call of a member function of the kill switch. -/
inductive call where
  | subscribe (out : Nat)
  | dispose
deriving DecidableEq, Repr

/-- The kill switch and the effects after one call. -/
def killswitch.step (s : killswitch × List effect) : call → killswitch × List effect
  | .subscribe out => (s.1.subscribe s.2 out).2
  | .dispose => s.1.dispose s.2

/-- The kill switch and the effects after a sequence of calls. -/
def killswitch.run (s : killswitch × List effect) (calls : List call) :
    killswitch × List effect :=
  calls.foldl killswitch.step s

/-- The valid handles that the calls of `subscribe` in a sequence of calls return, that is the
subscriptions created through the kill switch. -/
def killswitch.created (s : killswitch × List effect) : List call → List Nat
  | [] => []
  | .subscribe out :: rest =>
    (s.1.subscribe s.2 out).1.toList
      ++ killswitch.created (killswitch.step s (.subscribe out)) rest
  | .dispose :: rest => killswitch.created (killswitch.step s .dispose) rest

/-- An observable for concrete runs: the subscription of observer `out` gets the handle
number `out + 100`, and observer 0 gets no subscription. -/
def sampleObservable : List effect → Nat → disposable :=
  fun _ out => if out = 0 then none else some (out + 100)

end broker.internal

/-! ## The Python bindings of `bindings/python/_broker.cpp` -/

namespace broker.python

/-- The struct `Configuration` of the module `_broker`. -/
structure Configuration where
  disable_ssl : Bool
  openssl_cafile : String
  openssl_capath : String
  openssl_certificate : String
  openssl_key : String
  openssl_passphrase : String
deriving DecidableEq, Repr

/-- The constructor `Configuration(bool disable_ssl = false)`, bound by `py::init<bool>()`;
the strings are default-constructed. -/
def Configuration.init (disable_ssl : Bool) : Configuration :=
  ⟨disable_ssl, "", "", "", "", ""⟩

/-- Modelled from the spec: `broker::configuration` is declared in `broker/configuration.hh`,
which is not part of the sources at hand.  Of the "recognized keys" it holds `disable_ssl` and
the five `openssl_` strings, the ones the module deals with. -/
structure configuration where
  disable_ssl : Bool
  openssl_cafile : String
  openssl_capath : String
  openssl_certificate : String
  openssl_key : String
  openssl_passphrase : String
deriving DecidableEq, Repr

/-- Modelled from the spec: a default-constructed `broker::configuration`; `disable_ssl` is
"bool, default false", the strings are empty. -/
def configuration.default_constructed : configuration :=
  ⟨false, "", "", "", "", ""⟩

/-- The lambda `make_config` of `Endpoint.__init__`, which captures `cfg`; `bcfg` is the
configuration that `broker::configuration bcfg;` declares. -/
def make_config (bcfg : configuration) (cfg : Configuration) : configuration :=
  { bcfg with
    openssl_capath := cfg.openssl_capath
    openssl_passphrase := cfg.openssl_passphrase
    openssl_cafile := cfg.openssl_cafile
    openssl_certificate := cfg.openssl_certificate
    openssl_key := cfg.openssl_key }

/-- The member `config_` of `broker::endpoint`, the one that the bindings of the constructors
reach. -/
structure endpoint where
  config_ : configuration
deriving DecidableEq, Repr

/-- `endpoint::config()`. -/
def endpoint.config (ep : endpoint) : configuration := ep.config_

/-- Modelled from the spec: the constructor `endpoint(configuration config = {})` is declared
in `endpoint.hh` and defined elsewhere; the endpoint keeps the configuration it is given. -/
def endpoint.make (config : configuration) : endpoint := ⟨config⟩

/-- The binding `Endpoint.__init__(cfg)`: `new (&ep) broker::endpoint(make_config())`. -/
def Endpoint.init (bcfg : configuration) (cfg : Configuration) : endpoint :=
  endpoint.make (make_config bcfg cfg)

/-- The argument of `cache().set_use_ssl` in `core_state::make_behavior`,
`!caf::get_or(cfg, "broker.disable-ssl", false)`, where the option `broker.disable-ssl` of the
configuration of the actor system is the `disable_ssl` of the endpoint. -/
def use_ssl (ep : endpoint) : Bool := !ep.config.disable_ssl

/-- The member functions of `broker::endpoint` that the bindings of the peerings refer to.
They are declared in `endpoint.hh` and defined elsewhere; each is given by its result and the
endpoint afterwards, for an endpoint of any type.  `retry` is a number of seconds. -/
structure endpoint_members (E : Type) where
  peer : E → String → Nat → Nat → Bool × E
  peer_nosync : E → String → Nat → Nat → E
  unpeer : E → String → Nat → Bool × E

/-- The binding `Endpoint.peer(addr, port, retry)`, a lambda that returns
`ep.peer(addr, port, std::chrono::seconds((int)retry))`; `retry` is the number after the
cast. -/
def Endpoint.peer {E : Type} (m : endpoint_members E) (ep : E) (addr : String)
    (port retry : Nat) : Bool × E :=
  m.peer ep addr port retry

/-- The binding `Endpoint.unpeer`: `.def("unpeer", &broker::endpoint::peer)`, the member
`peer` with address, port and retry interval. -/
def Endpoint.unpeer {E : Type} (m : endpoint_members E) (ep : E) (address : String)
    (port retry : Nat) : Bool × E :=
  m.peer ep address port retry

/-- What an endpoint is asked to do, for concrete runs. -/
inductive endpoint_request where
  | peer (address : String) (port retry : Nat)
  | unpeer (address : String) (port : Nat)
deriving DecidableEq, Repr

/-- An endpoint for concrete runs, given by the requests made to it in order: every peering
can be set up, and a peering can be torn down when it was set up before. -/
def sampleEndpoint : endpoint_members (List endpoint_request) :=
  ⟨fun ep address port retry => (true, ep ++ [endpoint_request.peer address port retry]),
    fun ep address port retry => ep ++ [endpoint_request.peer address port retry],
    fun ep address port =>
      (ep.any (fun r =>
          match r with
          | .peer a p _ => decide (a = address ∧ p = port)
          | .unpeer _ _ => false),
        ep ++ [endpoint_request.unpeer address port])⟩

end broker.python

namespace broker.alm

theorem filter_not_stale_of_any_false (peer : endpoint_id) (l : List versioned_path_type)
    (h : l.any (stale peer) = false) : l.filter (fun vp => !stale peer vp) = l := by
  rw [List.filter_eq_self]
  intro vp hvp
  have := List.any_eq_false.mp h vp hvp
  simpa using this

theorem implLoop_fst (peer : endpoint_id) (t : routing_table) (q : List endpoint_id) :
    (implLoop peer t q).1 = t.map (scrub peer) := by
  induction t generalizing q with
  | nil => rfl
  | cons e rest ih =>
    obtain ⟨id, row⟩ := e
    by_cases h : row.versioned_paths.any (stale peer) = true
    · simp only [implLoop, h, if_true, List.map_cons, ih, scrub]
    · have h' : row.versioned_paths.any (stale peer) = false := by simpa using h
      simp only [implLoop, h', List.map_cons, ih, scrub,
        filter_not_stale_of_any_false peer _ h']
      simp

theorem implLoop_snd (peer : endpoint_id) (t : routing_table) (q : List endpoint_id) :
    (implLoop peer t q).2 = q ++ (t.filter (emptied peer)).map Prod.fst := by
  induction t generalizing q with
  | nil => simp [implLoop]
  | cons e rest ih =>
    obtain ⟨id, row⟩ := e
    by_cases h : row.versioned_paths.any (stale peer) = true
    · by_cases h2 : (row.versioned_paths.filter (fun vp => !stale peer vp)).isEmpty = true
      · simp only [implLoop, h, h2, if_true, ih, emptied, List.filter_cons, Bool.and_self,
          List.map_cons, List.append_assoc, List.singleton_append]
      · simp only [implLoop, h, h2, if_true, ih, emptied, List.filter_cons, Bool.and_eq_true,
          and_false, if_false]
        simp
    · have h' : row.versioned_paths.any (stale peer) = false := by simpa using h
      simp only [implLoop, h', ih, emptied, List.filter_cons, Bool.false_and]
      simp

theorem impl_fst (t : routing_table) (q : List endpoint_id) (peer : endpoint_id) :
    (impl t q peer).1 = (eraseKey t peer).map (scrub peer) := by
  simp [impl, implLoop_fst]

theorem impl_snd (t : routing_table) (q : List endpoint_id) (peer : endpoint_id) :
    (impl t q peer).2 = q ++ ((eraseKey t peer).filter (emptied peer)).map Prod.fst := by
  simp [impl, implLoop_snd]

/-! ## Termination of the cascade -/

theorem livePaths_map_scrub_add (peer : endpoint_id) (t : routing_table) :
    livePaths (t.map (scrub peer)) + (t.filter (emptied peer)).length ≤ livePaths t := by
  induction t with
  | nil => simp [livePaths]
  | cons e rest ih =>
    unfold livePaths at ih ⊢
    rw [List.map_cons, List.countP_cons, List.countP_cons, List.filter_cons]
    by_cases hE : emptied peer e = true
    · have h1 : (scrub peer e).2.versioned_paths.isEmpty = true := by
        simp only [emptied, Bool.and_eq_true] at hE
        simpa [scrub] using hE.2
      have h2 : e.2.versioned_paths.isEmpty = false := by
        simp only [emptied, Bool.and_eq_true] at hE
        cases hp : e.2.versioned_paths with
        | nil => rw [hp] at hE; simp at hE
        | cons a l => rfl
      simp only [hE, if_true, List.length_cons, h1, h2, Bool.not_true, Bool.not_false,
        Bool.false_eq_true, if_false]
      omega
    · simp only [hE]
      have : (if (!(scrub peer e).2.versioned_paths.isEmpty) = true then 1 else 0)
          ≤ (if (!e.2.versioned_paths.isEmpty) = true then 1 else 0) := by
        cases hp : e.2.versioned_paths with
        | nil => simp [scrub, hp]
        | cons a l => simp; split <;> omega
      simp only [Bool.false_eq_true, if_false]
      omega

theorem livePaths_eraseKey_le (t : routing_table) (peer : endpoint_id) :
    livePaths (eraseKey t peer) ≤ livePaths t :=
  List.Sublist.countP_le _ (List.filter_sublist t)

theorem livePaths_le_length (t : routing_table) : livePaths t ≤ t.length :=
  List.countP_le_length _

theorem impl_measure (t : routing_table) (q : List endpoint_id) (peer : endpoint_id) :
    livePaths (impl t q peer).1 + (impl t q peer).2.length ≤ livePaths t + q.length := by
  rw [impl_fst, impl_snd, List.length_append, List.length_map]
  have h1 := livePaths_map_scrub_add peer (eraseKey t peer)
  have h2 := livePaths_eraseKey_le t peer
  omega

theorem length_dropLast_of_getLast? {α : Type} (q : List α) (a : α)
    (h : q.getLast? = some a) : q.dropLast.length + 1 = q.length := by
  cases q with
  | nil => simp at h
  | cons x xs => simp

theorem eraseLoop_terminates (fuel : Nat) (t : routing_table) (q calls : List endpoint_id)
    (h : livePaths t + q.length ≤ fuel) :
    ∃ r, eraseLoop fuel t q calls = some r
      ∧ r.2.length ≤ calls.length + (livePaths t + q.length) := by
  induction fuel generalizing t q calls with
  | zero =>
    have hq : q = [] := List.length_eq_zero.mp (by omega)
    subst hq
    exact ⟨(t, calls), by simp [eraseLoop], by simp⟩
  | succ n ih =>
    cases hl : q.getLast? with
    | none =>
      refine ⟨(t, calls), ?_, by simp⟩
      unfold eraseLoop
      simp [hl]
    | some peer =>
      have hlen := length_dropLast_of_getLast? q peer hl
      have hm := impl_measure t q.dropLast peer
      obtain ⟨r, hr, hr2⟩ := ih (impl t q.dropLast peer).1 (impl t q.dropLast peer).2
        (calls ++ [peer]) (by omega)
      refine ⟨r, ?_, ?_⟩
      · unfold eraseLoop
        simp only [hl]
        exact hr
      · simp only [List.length_append, List.length_singleton] at hr2
        omega

theorem erase_terminates (tbl : routing_table) (whom : endpoint_id) :
    ∃ r, erase tbl.length tbl whom = some r ∧ r.2.length ≤ tbl.length := by
  have hm := impl_measure tbl [] whom
  have hl := livePaths_le_length tbl
  simp only [List.length_nil, Nat.add_zero] at hm
  obtain ⟨r, hr, hr2⟩ := eraseLoop_terminates tbl.length (impl tbl [] whom).1
    (impl tbl [] whom).2 [] (by omega)
  refine ⟨r, hr, ?_⟩
  simp only [List.length_nil, Nat.zero_add] at hr2
  omega

/-- Loop invariants of the cascade carry over to its result. -/
theorem eraseLoop_invariant (Inv : routing_table → List endpoint_id → List endpoint_id → Prop)
    (hstep : ∀ t q calls peer, Inv t q calls → q.getLast? = some peer →
      Inv (impl t q.dropLast peer).1 (impl t q.dropLast peer).2 (calls ++ [peer]))
    (fuel : Nat) (t : routing_table) (q calls : List endpoint_id)
    (r : routing_table × List endpoint_id)
    (h0 : Inv t q calls) (hr : eraseLoop fuel t q calls = some r) : Inv r.1 [] r.2 := by
  induction fuel generalizing t q calls with
  | zero =>
    unfold eraseLoop at hr
    cases hl : q.getLast? with
    | none =>
      simp only [hl, Option.some.injEq] at hr
      subst hr
      have : q = [] := List.getLast?_eq_none_iff.mp hl
      subst this
      exact h0
    | some peer => simp [hl] at hr
  | succ n ih =>
    unfold eraseLoop at hr
    cases hl : q.getLast? with
    | none =>
      simp only [hl, Option.some.injEq] at hr
      subst hr
      have : q = [] := List.getLast?_eq_none_iff.mp hl
      subst this
      exact h0
    | some peer =>
      simp only [hl] at hr
      exact ih _ _ _ (hstep t q calls peer h0 hl) hr

/-! ## What one pass of `impl` does to the table -/

theorem queue_split (q : List endpoint_id) (peer : endpoint_id)
    (h : q.getLast? = some peer) : q.dropLast ++ [peer] = q :=
  List.dropLast_append_getLast? peer (by simp [h])

theorem mem_dropLast_of_ne (q : List endpoint_id) (peer x : endpoint_id)
    (h : q.getLast? = some peer) (hx : x ∈ q) (hne : x ≠ peer) : x ∈ q.dropLast := by
  rw [← queue_split q peer h] at hx
  simpa [hne] using hx

theorem mem_eraseKey (t : routing_table) (peer : endpoint_id)
    (e : endpoint_id × routing_table_row) : e ∈ eraseKey t peer ↔ e ∈ t ∧ e.1 ≠ peer := by
  simp [eraseKey]

theorem mem_impl_fst (t : routing_table) (q : List endpoint_id) (peer : endpoint_id)
    (e' : endpoint_id × routing_table_row) :
    e' ∈ (impl t q peer).1 ↔ ∃ e, e ∈ t ∧ e.1 ≠ peer ∧ scrub peer e = e' := by
  rw [impl_fst, List.mem_map]
  constructor
  · rintro ⟨e, he, rfl⟩
    exact ⟨e, ((mem_eraseKey t peer e).mp he).1, ((mem_eraseKey t peer e).mp he).2, rfl⟩
  · rintro ⟨e, he, hne, rfl⟩
    exact ⟨e, (mem_eraseKey t peer e).mpr ⟨he, hne⟩, rfl⟩

theorem mem_impl_snd (t : routing_table) (q : List endpoint_id) (peer x : endpoint_id) :
    x ∈ (impl t q peer).2 ↔
      x ∈ q ∨ ∃ e, e ∈ t ∧ e.1 ≠ peer ∧ emptied peer e = true ∧ e.1 = x := by
  rw [impl_snd, List.mem_append, List.mem_map]
  constructor
  · rintro (h | ⟨e, he, rfl⟩)
    · exact Or.inl h
    · rw [List.mem_filter, mem_eraseKey] at he
      exact Or.inr ⟨e, he.1.1, he.1.2, he.2, rfl⟩
  · rintro (h | ⟨e, he, hne, hE, rfl⟩)
    · exact Or.inl h
    · exact Or.inr ⟨e, List.mem_filter.mpr ⟨(mem_eraseKey t peer e).mpr ⟨he, hne⟩, hE⟩, rfl⟩

theorem mem_scrub_paths (peer : endpoint_id) (e : endpoint_id × routing_table_row)
    (vp : versioned_path_type) :
    vp ∈ (scrub peer e).2.versioned_paths ↔ vp ∈ e.2.versioned_paths ∧ peer ∉ vp.1 := by
  simp [scrub, stale]

theorem scrub_fst (peer : endpoint_id) (e : endpoint_id × routing_table_row) :
    (scrub peer e).1 = e.1 := rfl

theorem scrub_eq_self_or_emptied (peer : endpoint_id) (e : endpoint_id × routing_table_row)
    (h : (scrub peer e).2.versioned_paths = []) : scrub peer e = e ∨ emptied peer e = true := by
  by_cases ha : e.2.versioned_paths.any (stale peer) = true
  · right
    simp only [emptied, ha, Bool.true_and]
    simp only [scrub] at h
    simp [h]
  · left
    have h' : e.2.versioned_paths.any (stale peer) = false := by simpa using ha
    obtain ⟨id, row⟩ := e
    simp only [scrub, filter_not_stale_of_any_false peer _ h']

theorem mem_keys (t : routing_table) (p : endpoint_id) :
    p ∈ keys t ↔ ∃ e, e ∈ t ∧ e.1 = p := by
  simp [keys]

theorem mem_keys_impl (t : routing_table) (q : List endpoint_id) (peer p : endpoint_id) :
    p ∈ keys (impl t q peer).1 ↔ p ∈ keys t ∧ p ≠ peer := by
  rw [mem_keys, mem_keys]
  constructor
  · rintro ⟨e', he', rfl⟩
    obtain ⟨e, he, hne, rfl⟩ := (mem_impl_fst t q peer e').mp he'
    exact ⟨⟨e, he, rfl⟩, hne⟩
  · rintro ⟨⟨e, he, rfl⟩, hne⟩
    exact ⟨scrub peer e, (mem_impl_fst t q peer _).mpr ⟨e, he, hne, rfl⟩, rfl⟩

/-- After a pass of `impl` no path holds the erased peer, and no path was added. -/
theorem impl_paths (t : routing_table) (q : List endpoint_id) (peer : endpoint_id)
    (e' : endpoint_id × routing_table_row) (he' : e' ∈ (impl t q peer).1)
    (vp : versioned_path_type) (hvp : vp ∈ e'.2.versioned_paths) :
    peer ∉ vp.1 ∧ ∃ e, e ∈ t ∧ e.1 = e'.1 ∧ vp ∈ e.2.versioned_paths := by
  obtain ⟨e, he, _, rfl⟩ := (mem_impl_fst t q peer e').mp he'
  have := (mem_scrub_paths peer e vp).mp hvp
  exact ⟨this.2, e, he, rfl, this.1⟩

/-- A row without paths after a pass of `impl` was such a row before, or its peer is queued. -/
theorem impl_empty_row (t : routing_table) (q : List endpoint_id) (peer : endpoint_id)
    (e' : endpoint_id × routing_table_row) (he' : e' ∈ (impl t q peer).1)
    (h : e'.2.versioned_paths = []) :
    (e' ∈ t ∧ e'.1 ≠ peer) ∨ e'.1 ∈ (impl t q peer).2 := by
  obtain ⟨e, he, hne, rfl⟩ := (mem_impl_fst t q peer e').mp he'
  rcases scrub_eq_self_or_emptied peer e h with hs | hE
  · left; rw [hs]; exact ⟨he, hne⟩
  · right
    exact (mem_impl_snd t q peer _).mpr (Or.inr ⟨e, he, hne, hE, rfl⟩)

theorem keys_impl_sublist (t : routing_table) (q : List endpoint_id) (peer : endpoint_id) :
    (keys (impl t q peer).1).Sublist (keys t) := by
  have h1 : keys (impl t q peer).1 = keys (eraseKey t peer) := by
    rw [impl_fst]
    simp only [keys, List.map_map]
    rfl
  rw [h1]
  exact (List.filter_sublist t).map Prod.fst

theorem eq_of_keys_nodup (t : routing_table) (h : (keys t).Nodup)
    (e1 e2 : endpoint_id × routing_table_row) (h1 : e1 ∈ t) (h2 : e2 ∈ t)
    (hk : e1.1 = e2.1) : e1 = e2 :=
  List.inj_on_of_nodup_map h h1 h2 hk

theorem emptied_paths_ne_nil (peer : endpoint_id) (e : endpoint_id × routing_table_row)
    (h : emptied peer e = true) : e.2.versioned_paths ≠ [] := by
  intro hn
  simp [emptied, hn] at h

theorem emptied_scrub_paths (peer : endpoint_id) (e : endpoint_id × routing_table_row)
    (h : emptied peer e = true) : (scrub peer e).2.versioned_paths = [] := by
  simp only [emptied, Bool.and_eq_true] at h
  simpa [scrub] using h.2

/-- One pass of `impl` keeps the queue a duplicate-free list of peers whose rows are in the
table and hold no path. -/
theorem impl_queue (t : routing_table) (q0 : List endpoint_id) (peer : endpoint_id)
    (hA : (keys t).Nodup) (hD : q0.Nodup) (hF : ∀ p ∈ q0, p ∈ keys t ∧ p ≠ peer)
    (hG : ∀ e ∈ t, e.1 ∈ q0 → e.2.versioned_paths = []) :
    (keys (impl t q0 peer).1).Nodup ∧ (impl t q0 peer).2.Nodup ∧
    (∀ p ∈ (impl t q0 peer).2, p ∈ keys (impl t q0 peer).1) ∧
    (∀ e ∈ (impl t q0 peer).1, e.1 ∈ (impl t q0 peer).2 → e.2.versioned_paths = []) := by
  refine ⟨hA.sublist (keys_impl_sublist t q0 peer), ?_, ?_, ?_⟩
  · rw [impl_snd]
    refine List.Nodup.append hD ?_ ?_
    · have hs : (((eraseKey t peer).filter (emptied peer)).map Prod.fst).Sublist (keys t) :=
        ((List.filter_sublist _).trans (List.filter_sublist t)).map Prod.fst
      exact hA.sublist hs
    · intro x hx hx'
      obtain ⟨e, he, rfl⟩ := List.mem_map.mp hx'
      rw [List.mem_filter, mem_eraseKey] at he
      exact emptied_paths_ne_nil peer e he.2 (hG e he.1.1 hx)
  · intro p hp
    rw [mem_keys_impl]
    rcases (mem_impl_snd t q0 peer p).mp hp with h | ⟨e, he, hne, _, rfl⟩
    · exact hF p h
    · exact ⟨(mem_keys t _).mpr ⟨e, he, rfl⟩, hne⟩
  · intro e' he' hq
    obtain ⟨e, he, hne, rfl⟩ := (mem_impl_fst t q0 peer e').mp he'
    rcases (mem_impl_snd t q0 peer _).mp hq with h | ⟨e2, he2, _, hE, hk⟩
    · have := hG e he h
      simp [scrub, this]
    · have : e2 = e := eq_of_keys_nodup t hA e2 e he2 he hk
      subst this
      exact emptied_scrub_paths peer e2 hE

/-- The invariant of the cascade loop of `erase` on a table with unique keys. -/
theorem erase_loop_state (tbl : routing_table) (whom : endpoint_id) (hu : keysUnique tbl)
    (fuel : Nat) (r : routing_table × List endpoint_id) (hr : erase fuel tbl whom = some r) :
    r.2.Nodup ∧ (∀ p ∈ r.2, p ∉ keys r.1 ∧ p ∈ keys tbl ∧ p ≠ whom) ∧
    (∀ p ∈ keys tbl, p ∉ keys r.1 → p = whom ∨ p ∈ r.2) := by
  have key := eraseLoop_invariant
    (fun t q calls =>
      ((keys t).Nodup ∧ q.Nodup ∧ (∀ p ∈ q, p ∈ keys t) ∧
        (∀ e ∈ t, e.1 ∈ q → e.2.versioned_paths = [])) ∧
      (∀ p ∈ keys t, p ∈ keys tbl) ∧ whom ∉ keys t ∧ calls.Nodup ∧
      (∀ p ∈ calls, p ∉ keys t ∧ p ∈ keys tbl ∧ p ≠ whom) ∧
      (∀ p ∈ keys tbl, p ∉ keys t → p = whom ∨ p ∈ calls))
    ?_ fuel _ _ _ r ?_ hr
  · exact ⟨key.2.2.2.1, key.2.2.2.2.1, key.2.2.2.2.2⟩
  · rintro t q calls peer ⟨⟨hA, hD, hF, hG⟩, hB, hC, hE, hH, hI⟩ hl
    have hsplit := queue_split q peer hl
    have hpq : peer ∈ q := by rw [← hsplit]; simp
    have hD' : (q.dropLast ++ [peer]).Nodup := by rw [hsplit]; exact hD
    have hnd : peer ∉ q.dropLast := by
      intro h
      have := (List.nodup_append.mp hD').2.2 h (by simp)
      exact this
    have hsub : ∀ p ∈ q.dropLast, p ∈ q := fun p hp => List.dropLast_subset q hp
    refine ⟨impl_queue t q.dropLast peer hA (List.nodup_append.mp hD').1 ?_ ?_,
      ?_, ?_, ?_, ?_, ?_⟩
    · intro p hp
      exact ⟨hF p (hsub p hp), fun h => hnd (h ▸ hp)⟩
    · intro e he hq
      exact hG e he (hsub _ hq)
    · intro p hp
      exact hB p ((mem_keys_impl t _ peer p).mp hp).1
    · intro h
      exact hC ((mem_keys_impl t _ peer whom).mp h).1
    · refine List.Nodup.append hE (by simp) ?_
      intro x hx hx'
      have : x = peer := by simpa using hx'
      subst this
      exact (hH x hx).1 (hF x hpq)
    · intro p hp
      rcases List.mem_append.mp hp with h | h
      · exact ⟨fun hk => (hH p h).1 ((mem_keys_impl t _ peer p).mp hk).1, (hH p h).2⟩
      · have : p = peer := by simpa using h
        subst this
        exact ⟨fun hk => ((mem_keys_impl t _ p p).mp hk).2 rfl, hB p (hF p hpq),
          fun hw => hC (hw ▸ hF p hpq)⟩
    · intro p hp hnp
      by_cases hpe : p = peer
      · right; simp [hpe]
      · have : p ∉ keys t := fun h => hnp ((mem_keys_impl t _ peer p).mpr ⟨h, hpe⟩)
        rcases hI p hp this with h | h
        · exact Or.inl h
        · right; simp [h]
  · refine ⟨impl_queue tbl [] whom hu List.nodup_nil (by simp) (by simp), ?_, ?_,
      List.nodup_nil, by simp, ?_⟩
    · intro p hp
      exact ((mem_keys_impl tbl _ whom p).mp hp).1
    · intro h
      exact ((mem_keys_impl tbl _ whom whom).mp h).2 rfl
    · intro p hp hnp
      by_cases hpe : p = whom
      · exact Or.inl hpe
      · exact absurd ((mem_keys_impl tbl _ whom p).mpr ⟨hp, hpe⟩) hnp

/-! ## `erase` -/

/-- C1: `erase(tbl, whom, on_remove)` returns, and afterwards the table has no row for `whom`
and no path of any remaining row contains `whom`. -/
theorem erase_removes_whom (tbl : routing_table) (whom : endpoint_id) :
    (∃ r, erase tbl.length tbl whom = some r) ∧
    ∀ fuel r, erase fuel tbl whom = some r →
      whom ∉ keys r.1 ∧ ∀ e ∈ r.1, ∀ vp ∈ e.2.versioned_paths, whom ∉ vp.1 := by
  refine ⟨(erase_terminates tbl whom).imp fun r h => h.1, ?_⟩
  intro fuel r hr
  refine eraseLoop_invariant
    (fun t _ _ => whom ∉ keys t ∧ ∀ e ∈ t, ∀ vp ∈ e.2.versioned_paths, whom ∉ vp.1)
    ?_ fuel _ _ _ r ?_ hr
  · rintro t q calls peer ⟨hk, hp⟩ _
    refine ⟨fun h => hk ((mem_keys_impl t _ peer whom).mp h).1, ?_⟩
    intro e' he' vp hvp
    obtain ⟨_, e, he, _, hvp'⟩ := impl_paths t _ peer e' he' vp hvp
    exact hp e he vp hvp'
  · refine ⟨fun h => ((mem_keys_impl tbl _ whom whom).mp h).2 rfl, ?_⟩
    intro e' he' vp hvp
    exact (impl_paths tbl _ whom e' he' vp hvp).1

/-- C2: `erase` returns and has cascaded to a fixed point: a row of the result without paths
is a row of the input (so it lost no path during the call; every row that lost its last path is
gone), and no remaining path contains a peer whose row the call removed. -/
theorem erase_cascades_to_fixed_point (tbl : routing_table) (whom : endpoint_id) :
    (∃ r, erase tbl.length tbl whom = some r) ∧
    ∀ fuel r, erase fuel tbl whom = some r →
      (∀ e ∈ r.1, e.2.versioned_paths = [] → e ∈ tbl) ∧
      (∀ p, p ∈ keys tbl → p ∉ keys r.1 →
        ∀ e ∈ r.1, ∀ vp ∈ e.2.versioned_paths, p ∉ vp.1) := by
  refine ⟨(erase_terminates tbl whom).imp fun r h => h.1, ?_⟩
  intro fuel r hr
  have key := eraseLoop_invariant
    (fun t q calls =>
      (∀ e ∈ t, e.2.versioned_paths = [] → e ∈ tbl ∨ e.1 ∈ q) ∧
      (∀ p, p ∈ keys tbl → p ∉ keys t → p = whom ∨ p ∈ calls) ∧
      (∀ p, p = whom ∨ p ∈ calls → ∀ e ∈ t, ∀ vp ∈ e.2.versioned_paths, p ∉ vp.1))
    ?_ fuel _ _ _ r ?_ hr
  · obtain ⟨h1, h2, h3⟩ := key
    refine ⟨fun e he hE => (h1 e he hE).resolve_right (by simp), ?_⟩
    intro p hp hnp e he vp hvp
    exact h3 p (h2 p hp hnp) e he vp hvp
  · rintro t q calls peer ⟨h1, h2, h3⟩ hl
    refine ⟨?_, ?_, ?_⟩
    · intro e' he' hE
      rcases impl_empty_row t _ peer e' he' hE with ⟨het, hne⟩ | hq
      · rcases h1 e' het hE with h | h
        · exact Or.inl h
        · right
          exact (mem_impl_snd t _ peer _).mpr (Or.inl (mem_dropLast_of_ne q peer _ hl h hne))
      · exact Or.inr hq
    · intro p hp hnp
      by_cases hpe : p = peer
      · right; simp [hpe]
      · have : p ∉ keys t := fun h => hnp ((mem_keys_impl t _ peer p).mpr ⟨h, hpe⟩)
        rcases h2 p hp this with h | h
        · exact Or.inl h
        · right; simp [h]
    · intro p hp e' he' vp hvp
      obtain ⟨hnot, e, he, _, hvp'⟩ := impl_paths t _ peer e' he' vp hvp
      have hp' : (p = whom ∨ p ∈ calls) ∨ p = peer := by
        rcases hp with h | h
        · exact Or.inl (Or.inl h)
        · rcases List.mem_append.mp h with h | h
          · exact Or.inl (Or.inr h)
          · exact Or.inr (by simpa using h)
      rcases hp' with h | h
      · exact h3 p h e he vp hvp'
      · rw [h]; exact hnot
  · refine ⟨?_, ?_, ?_⟩
    · intro e' he' hE
      rcases impl_empty_row tbl _ whom e' he' hE with ⟨het, _⟩ | hq
      · exact Or.inl het
      · exact Or.inr hq
    · intro p hp hnp
      by_cases hpe : p = whom
      · exact Or.inl hpe
      · exact absurd ((mem_keys_impl tbl _ whom p).mpr ⟨hp, hpe⟩) hnp
    · intro p hp e' he' vp hvp
      rcases hp with h | h
      · rw [h]; exact (impl_paths tbl _ whom e' he' vp hvp).1
      · simp at h

/-- C3: on a table with unique keys `erase` returns, and `on_remove` is invoked exactly once
for each peer other than `whom` whose row the call removes and never for any other peer; in
particular never for `whom`. -/
theorem erase_on_remove_exactly_once (tbl : routing_table) (whom : endpoint_id)
    (hu : keysUnique tbl) :
    (∃ r, erase tbl.length tbl whom = some r) ∧
    ∀ fuel r, erase fuel tbl whom = some r →
      r.2.count whom = 0 ∧
      ∀ p, r.2.count p = if p ≠ whom ∧ p ∈ keys tbl ∧ p ∉ keys r.1 then 1 else 0 := by
  refine ⟨(erase_terminates tbl whom).imp fun r h => h.1, ?_⟩
  intro fuel r hr
  obtain ⟨hN, hH, hI⟩ := erase_loop_state tbl whom hu fuel r hr
  refine ⟨List.count_eq_zero_of_not_mem fun h => (hH whom h).2.2 rfl, ?_⟩
  intro p
  by_cases hp : p ∈ r.2
  · rw [if_pos ⟨(hH p hp).2.2, (hH p hp).2.1, (hH p hp).1⟩]
    exact List.count_eq_one_of_mem hN hp
  · rw [if_neg, List.count_eq_zero_of_not_mem hp]
    rintro ⟨h1, h2, h3⟩
    exact hp ((hI p h2 h3).resolve_left h1)

theorem erase_on_remove_exactly_once_witness :
    keysUnique sampleTable ∧
    ((∃ r, erase sampleTable.length sampleTable 1 = some r) ∧
      ∀ fuel r, erase fuel sampleTable 1 = some r →
        r.2.count 1 = 0 ∧
        ∀ p, r.2.count p
          = if p ≠ 1 ∧ p ∈ keys sampleTable ∧ p ∉ keys r.1 then 1 else 0) :=
  ⟨by decide, erase_on_remove_exactly_once sampleTable 1 (by decide)⟩

theorem eraseLoop_fuel_mono (fuel : Nat) (t : routing_table) (q calls : List endpoint_id)
    (r : routing_table × List endpoint_id) (h : eraseLoop fuel t q calls = some r)
    (fuel' : Nat) (hle : fuel ≤ fuel') : eraseLoop fuel' t q calls = some r := by
  induction fuel generalizing t q calls fuel' with
  | zero =>
    unfold eraseLoop at h ⊢
    cases hl : q.getLast? with
    | none => simpa [hl] using h
    | some peer => simp [hl] at h
  | succ n ih =>
    unfold eraseLoop at h ⊢
    cases hl : q.getLast? with
    | none => simpa [hl] using h
    | some peer =>
      simp only [hl] at h ⊢
      obtain ⟨m, rfl⟩ : ∃ m, fuel' = m + 1 := ⟨fuel' - 1, by omega⟩
      exact ih _ _ _ h m (by omega)

theorem erase_fuel_unique (tbl : routing_table) (whom : endpoint_id) (f1 f2 : Nat)
    (r1 r2 : routing_table × List endpoint_id) (h1 : erase f1 tbl whom = some r1)
    (h2 : erase f2 tbl whom = some r2) : r1 = r2 := by
  have a := eraseLoop_fuel_mono f1 _ _ _ r1 h1 (max f1 f2) (le_max_left _ _)
  have b := eraseLoop_fuel_mono f2 _ _ _ r2 h2 (max f1 f2) (le_max_right _ _)
  rw [a] at b
  exact Option.some.inj b

/-- C4: cascade termination.  For every table and peer the loop of `erase` finishes within
`|tbl|` iterations: every bound of at least `|tbl|` iterations yields the same result, no bound
yields another one, and `on_remove` is called at most `|tbl|` times. -/
theorem erase_cascade_terminates (tbl : routing_table) (p : endpoint_id) :
    ∃ r, (∀ fuel, tbl.length ≤ fuel → erase fuel tbl p = some r) ∧
      r.2.length ≤ tbl.length ∧
      ∀ fuel r', erase fuel tbl p = some r' → r' = r := by
  obtain ⟨r, hr, hlen⟩ := erase_terminates tbl p
  refine ⟨r, ?_, hlen, ?_⟩
  · intro fuel hf
    exact eraseLoop_fuel_mono tbl.length _ _ _ r hr fuel hf
  · intro fuel r' hr'
    exact erase_fuel_unique tbl p fuel tbl.length r' r hr' hr

/-! ## `erase_direct` -/

theorem dropFirstHop_eq (whom : endpoint_id) (l : List versioned_path_type)
    (h : ∀ vp ∈ l, vp.1 ≠ []) :
    dropFirstHop whom l = some (l.filter (fun vp => !firstHopIs whom vp)) := by
  induction l with
  | nil => rfl
  | cons vp rest ih =>
    obtain ⟨path, ts⟩ := vp
    have hrest := ih (fun vp hvp => h vp (List.mem_cons_of_mem _ hvp))
    cases path with
    | nil => exact absurd rfl (h ([], ts) (List.mem_cons_self _ _))
    | cons first tl =>
      simp only [dropFirstHop, hrest, List.filter_cons, firstHopIs, List.head?_cons]
      by_cases hf : first = whom
      · simp [hf]
      · simp [hf]

theorem pathsNonEmpty_cons (e : endpoint_id × routing_table_row) (t : routing_table) :
    pathsNonEmpty (e :: t) = true ↔
      (∀ vp ∈ e.2.versioned_paths, vp.1 ≠ []) ∧ pathsNonEmpty t = true := by
  simp [pathsNonEmpty]

theorem pathsNonEmpty_iff (t : routing_table) :
    pathsNonEmpty t = true ↔ ∀ e ∈ t, ∀ vp ∈ e.2.versioned_paths, vp.1 ≠ [] := by
  simp [pathsNonEmpty]

theorem eraseDirectLoop_eq (whom : endpoint_id) (t : routing_table)
    (h : pathsNonEmpty t = true) :
    eraseDirectLoop whom t
      = some ((t.map (keepDirect whom)).filter (fun e => !e.2.versioned_paths.isEmpty),
          ((t.map (keepDirect whom)).filter
            (fun e => e.2.versioned_paths.isEmpty)).map Prod.fst) := by
  induction t with
  | nil => rfl
  | cons e rest ih =>
    obtain ⟨id, row⟩ := e
    obtain ⟨h1, h2⟩ := (pathsNonEmpty_cons _ _).mp h
    simp only [eraseDirectLoop, dropFirstHop_eq whom _ h1, ih h2, List.map_cons,
      List.filter_cons, keepDirect]
    by_cases hE : (row.versioned_paths.filter (fun vp => !firstHopIs whom vp)).isEmpty = true
    · simp [hE]
    · simp [hE]

theorem pathsNonEmpty_resetHandle (t : routing_table) (whom : endpoint_id)
    (h : pathsNonEmpty t = true) : pathsNonEmpty (resetHandle t whom) = true := by
  rw [pathsNonEmpty_iff] at h ⊢
  intro e he vp hvp
  obtain ⟨e0, he0, rfl⟩ := List.mem_map.mp he
  by_cases hk : e0.1 = whom
  · simp only [hk, if_true] at hvp
    exact h e0 he0 vp hvp
  · simp only [hk, if_false] at hvp
    exact h e0 he0 vp hvp

theorem find?_key_eq_none (t : routing_table) (whom : endpoint_id) :
    t.find? (fun e => decide (e.1 = whom)) = none ↔ whom ∉ keys t := by
  rw [List.find?_eq_none, mem_keys]
  constructor
  · rintro h ⟨e, he, hk⟩
    exact h e he (by simpa using hk)
  · intro h e he hk
    exact h ⟨e, he, by simpa using hk⟩

/-- The value of `erase_direct` on a table whose paths are all non-empty. -/
theorem erase_direct_eq (tbl : routing_table) (whom : endpoint_id)
    (h : pathsNonEmpty tbl = true) :
    erase_direct tbl whom =
      if whom ∈ keys tbl then
        some (true,
          ((resetHandle tbl whom).map (keepDirect whom)).filter
            (fun e => !e.2.versioned_paths.isEmpty),
          (((resetHandle tbl whom).map (keepDirect whom)).filter
            (fun e => e.2.versioned_paths.isEmpty)).map Prod.fst)
      else some (false, tbl, []) := by
  unfold erase_direct
  cases hf : tbl.find? (fun e => decide (e.1 = whom)) with
  | none =>
    rw [if_neg ((find?_key_eq_none tbl whom).mp hf)]
  | some e =>
    have hk : whom ∈ keys tbl := by
      by_contra hc
      rw [(find?_key_eq_none tbl whom).mpr hc] at hf
      exact Option.noConfusion hf
    rw [if_pos hk]
    simp only [eraseDirectLoop_eq whom _ (pathsNonEmpty_resetHandle tbl whom h)]

/-- C5: on a table with non-empty paths `erase_direct(tbl, whom, on_remove)` returns `true` if
and only if the table had a row for `whom`; when it returns `false` the table is unchanged and
`on_remove` was not called. -/
theorem erase_direct_true_iff_row (tbl : routing_table) (whom : endpoint_id)
    (h : pathsNonEmpty tbl = true) :
    ∃ b t calls, erase_direct tbl whom = some (b, t, calls) ∧
      (b = true ↔ whom ∈ keys tbl) ∧ (b = false → t = tbl ∧ calls = []) := by
  rw [erase_direct_eq tbl whom h]
  by_cases hk : whom ∈ keys tbl
  · rw [if_pos hk]
    exact ⟨true, _, _, rfl, by simp [hk], by simp⟩
  · rw [if_neg hk]
    exact ⟨false, tbl, [], rfl, by simp [hk], by simp⟩

theorem erase_direct_true_iff_row_witness :
    pathsNonEmpty sampleTable = true ∧
    ∃ b t calls, erase_direct sampleTable 7 = some (b, t, calls) ∧
      (b = true ↔ 7 ∈ keys sampleTable) ∧ (b = false → t = sampleTable ∧ calls = []) :=
  ⟨by decide, erase_direct_true_iff_row sampleTable 7 (by decide)⟩

/-- C6: the table `indirectTable` holds a row for peer 1 with a null handle, so no direct
connection to peer 1 exists; `erase_direct` removes none and changes nothing, and returns
`true`. -/
theorem erase_direct_true_without_direct_connection :
    is_direct_connection indirectTable 1 = false ∧
    erase_direct indirectTable 1 = some (true, indirectTable, []) := by
  decide

theorem directEntry_fst (whom : endpoint_id) (e : endpoint_id × routing_table_row) :
    (directEntry whom e).1 = e.1 := by
  unfold directEntry keepDirect
  split <;> rfl

theorem directEntry_paths (whom : endpoint_id) (e : endpoint_id × routing_table_row) :
    (directEntry whom e).2.versioned_paths
      = e.2.versioned_paths.filter (fun vp => !firstHopIs whom vp) := by
  unfold directEntry keepDirect
  split <;> rfl

theorem directEntry_hdl (whom : endpoint_id) (e : endpoint_id × routing_table_row)
    (h : e.1 = whom) : (directEntry whom e).2.hdl = none := by
  unfold directEntry keepDirect
  rw [if_pos h]

theorem map_keepDirect_resetHandle (tbl : routing_table) (whom : endpoint_id) :
    (resetHandle tbl whom).map (keepDirect whom) = tbl.map (directEntry whom) := by
  simp only [resetHandle, List.map_map]
  rfl

theorem keys_map_directEntry (tbl : routing_table) (whom : endpoint_id) :
    (tbl.map (directEntry whom)).map Prod.fst = keys tbl := by
  simp only [keys, List.map_map]
  exact List.map_congr_left fun e _ => directEntry_fst whom e

theorem filter_firstHop_eq_nil (whom : endpoint_id) (l : List versioned_path_type) :
    l.filter (fun vp => !firstHopIs whom vp) = [] ↔ ∀ vp ∈ l, vp.1.head? = some whom := by
  simp [List.filter_eq_nil_iff, firstHopIs]

/-- C7: on a table with unique keys and non-empty paths that has a row for `whom`,
`erase_direct` returns `true`; afterwards `whom` has no direct handle, no remaining path has
`whom` as first hop, no remaining row is without paths, `on_remove` was called exactly once for
each peer whose row kept no path (all its paths had `whom` as first hop) and for no other peer,
and the rows of the reported peers are erased. -/
theorem erase_direct_drops_first_hop (tbl : routing_table) (whom : endpoint_id)
    (hu : keysUnique tbl) (hne : pathsNonEmpty tbl = true) (hrow : whom ∈ keys tbl) :
    ∃ t calls, erase_direct tbl whom = some (true, t, calls) ∧
      is_direct_connection t whom = false ∧
      (∀ e ∈ t, ∀ vp ∈ e.2.versioned_paths, vp.1.head? ≠ some whom) ∧
      (∀ e ∈ t, e.2.versioned_paths ≠ []) ∧
      (∀ p, calls.count p
        = if ∃ e ∈ tbl, e.1 = p ∧ ∀ vp ∈ e.2.versioned_paths, vp.1.head? = some whom
          then 1 else 0) ∧
      (∀ p ∈ calls, p ∉ keys t) := by
  rw [erase_direct_eq tbl whom hne, if_pos hrow, map_keepDirect_resetHandle]
  refine ⟨_, _, rfl, ?_, ?_, ?_, ?_, ?_⟩
  · unfold is_direct_connection
    split
    · next e hf =>
      have hmem := List.mem_of_find?_eq_some hf
      have hk : e.1 = whom := by simpa using List.find?_some hf
      obtain ⟨e0, _, rfl⟩ := List.mem_map.mp (List.mem_filter.mp hmem).1
      rw [directEntry_fst] at hk
      rw [directEntry_hdl whom e0 hk]
      rfl
    · rfl
  · intro e he vp hvp
    obtain ⟨e0, _, rfl⟩ := List.mem_map.mp (List.mem_filter.mp he).1
    rw [directEntry_paths, List.mem_filter] at hvp
    simpa [firstHopIs] using hvp.2
  · intro e he
    simpa using (List.mem_filter.mp he).2
  · intro p
    have hnd : (((tbl.map (directEntry whom)).filter
        (fun e => e.2.versioned_paths.isEmpty)).map Prod.fst).Nodup := by
      refine List.Nodup.sublist ((List.filter_sublist _).map Prod.fst) ?_
      rw [keys_map_directEntry]
      exact hu
    have hmem : p ∈ ((tbl.map (directEntry whom)).filter
        (fun e => e.2.versioned_paths.isEmpty)).map Prod.fst ↔
        ∃ e ∈ tbl, e.1 = p ∧ ∀ vp ∈ e.2.versioned_paths, vp.1.head? = some whom := by
      constructor
      · intro h
        obtain ⟨e, he, rfl⟩ := List.mem_map.mp h
        obtain ⟨he1, he2⟩ := List.mem_filter.mp he
        obtain ⟨e0, he0, rfl⟩ := List.mem_map.mp he1
        rw [directEntry_paths, List.isEmpty_iff, filter_firstHop_eq_nil] at he2
        exact ⟨e0, he0, (directEntry_fst whom e0).symm, he2⟩
      · rintro ⟨e0, hr, rfl, hall⟩
        refine List.mem_map.mpr ⟨directEntry whom e0, ?_, directEntry_fst whom _⟩
        refine List.mem_filter.mpr ⟨List.mem_map.mpr ⟨e0, hr, rfl⟩, ?_⟩
        rw [directEntry_paths, List.isEmpty_iff, filter_firstHop_eq_nil]
        exact hall
    by_cases hp : ∃ e ∈ tbl, e.1 = p ∧ ∀ vp ∈ e.2.versioned_paths, vp.1.head? = some whom
    · rw [if_pos hp]
      exact List.count_eq_one_of_mem hnd (hmem.mpr hp)
    · rw [if_neg hp]
      exact List.count_eq_zero_of_not_mem fun h => hp (hmem.mp h)
  · intro p hp hk
    obtain ⟨e, he, rfl⟩ := List.mem_map.mp hp
    obtain ⟨he1, he2⟩ := List.mem_filter.mp he
    obtain ⟨e0, he0, rfl⟩ := List.mem_map.mp he1
    obtain ⟨e', he', hk'⟩ := (mem_keys _ _).mp hk
    obtain ⟨he1', he2'⟩ := List.mem_filter.mp he'
    obtain ⟨e0', he0', rfl⟩ := List.mem_map.mp he1'
    rw [directEntry_fst, directEntry_fst] at hk'
    have : e0' = e0 := eq_of_keys_nodup tbl hu e0' e0 he0' he0 hk'
    subst this
    rw [he2] at he2'
    simp at he2'

theorem erase_direct_drops_first_hop_witness :
    keysUnique sampleTable ∧ pathsNonEmpty sampleTable = true ∧ 1 ∈ keys sampleTable ∧
    ∃ t calls, erase_direct sampleTable 1 = some (true, t, calls) ∧
      is_direct_connection t 1 = false ∧
      (∀ e ∈ t, ∀ vp ∈ e.2.versioned_paths, vp.1.head? ≠ some 1) ∧
      (∀ e ∈ t, e.2.versioned_paths ≠ []) ∧
      (∀ p, calls.count p
        = if ∃ e ∈ sampleTable, e.1 = p ∧ ∀ vp ∈ e.2.versioned_paths, vp.1.head? = some 1
          then 1 else 0) ∧
      (∀ p ∈ calls, p ∉ keys t) :=
  ⟨by decide, by decide, by decide,
    erase_direct_drops_first_hop sampleTable 1 (by decide) (by decide) (by decide)⟩

/-- C8: in `relayTable` peer 2 is reached through peer 1 only.  `erase_direct` for peer 1
removes the rows of peers 1 and 2 and reports both, and keeps the path `[4, 2, 3]` to peer 3,
which contains the removed peer 2: the call does not recurse for the peer that became
unreachable. -/
theorem erase_direct_keeps_path_through_removed_peer :
    erase_direct relayTable 1
      = some (true,
          [(3, ⟨none, [([4, 2, 3], [1, 1, 1])]⟩), (4, ⟨some 4, [([4], [1])]⟩)],
          [1, 2]) ∧
    2 ∈ keys relayTable ∧
    2 ∉ keys [(3, ⟨none, [([4, 2, 3], [1, 1, 1])]⟩), (4, ⟨some 4, [([4], [1])]⟩)] ∧
    2 ∈ [4, 2, 3] := by
  decide

/-! ## `revoke` -/

theorem blacklistedLoop_isSome (path : path_type) (path_ts : vector_timestamp)
    (revoker : endpoint_id) (ts : lamport_timestamp) (hop : endpoint_id)
    (hlen : path.length = path_ts.length) (remaining index : Nat)
    (hb : index + remaining + 1 ≤ path.length) :
    ∃ r, blacklistedLoop path path_ts revoker ts hop index remaining = some r := by
  induction remaining generalizing index with
  | zero => exact ⟨none, rfl⟩
  | succ n ih =>
    have h0 : path[index]? = some path[index] := List.getElem?_eq_getElem (by omega)
    have h1 : path_ts[index]? = some path_ts[index] := List.getElem?_eq_getElem (by omega)
    have h2 : path[index - 1]? = some path[index - 1] := List.getElem?_eq_getElem (by omega)
    have h3 : path[index + 1]? = some path[index + 1] := List.getElem?_eq_getElem (by omega)
    unfold blacklistedLoop
    rw [h0]
    by_cases hp : path[index] = revoker
    · simp only [hp, if_true, h1, h2, h3]
      exact ⟨_, rfl⟩
    · simp only [hp, if_false]
      exact ih (index + 1) (by omega)

theorem blacklisted_isSome (path : path_type) (path_ts : vector_timestamp)
    (revoker : endpoint_id) (ts : lamport_timestamp) (hop : endpoint_id)
    (hlen : path.length = path_ts.length) :
    ∃ b, blacklisted path path_ts revoker ts hop = some b := by
  unfold blacklisted
  rw [if_neg (by simpa using hlen)]
  by_cases h1 : path.length ≤ 1
  · rw [if_pos h1]; exact ⟨false, rfl⟩
  rw [if_neg h1]
  have e1 : path[1]? = some path[1] := List.getElem?_eq_getElem (by omega)
  have e2 : path[path.length - 2]? = some path[path.length - 2] :=
    List.getElem?_eq_getElem (by omega)
  obtain ⟨t0, ht0⟩ : ∃ t0, path_ts.head? = some t0 := by
    cases path_ts with
    | nil => rw [List.length_nil] at hlen; omega
    | cons a l => exact ⟨a, rfl⟩
  obtain ⟨tl, htl⟩ : ∃ tl, path_ts.getLast? = some tl := by
    cases path_ts with
    | nil => rw [List.length_nil] at hlen; omega
    | cons a l => exact ⟨_, List.getLast?_eq_getLast _ (by simp)⟩
  by_cases h2 : path.head? = some revoker
  · rw [if_pos h2, ht0, e1]; exact ⟨_, rfl⟩
  rw [if_neg h2]
  obtain ⟨r, hr⟩ := blacklistedLoop_isSome path path_ts revoker ts hop hlen
    (path.length - 1 - 1) 1 (by omega)
  rw [hr]
  cases r with
  | some b => exact ⟨b, rfl⟩
  | none =>
    simp only []
    by_cases h3 : path.getLast? = some revoker
    · rw [if_pos h3, htl, e2]; exact ⟨_, rfl⟩
    · rw [if_neg h3]; exact ⟨false, rfl⟩

theorem erase_if_eq {α : Type} (pred : α → Option Bool) (l : List α)
    (h : ∀ x ∈ l, ∃ b, pred x = some b) :
    erase_if pred l = some (l.filter (fun x => !(pred x == some true))) := by
  induction l with
  | nil => rfl
  | cons x xs ih =>
    obtain ⟨b, hb⟩ := h x (List.mem_cons_self _ _)
    have hxs := ih (fun y hy => h y (List.mem_cons_of_mem _ hy))
    simp only [erase_if, hb, hxs, List.filter_cons]
    cases b <;> simp

theorem timestampsMatch_iff (t : routing_table) :
    timestampsMatch t = true ↔
      ∀ e ∈ t, ∀ vp ∈ e.2.versioned_paths, vp.1.length = vp.2.length := by
  simp [timestampsMatch]

theorem timestampsMatch_cons (e : endpoint_id × routing_table_row) (t : routing_table) :
    timestampsMatch (e :: t) = true ↔
      (∀ vp ∈ e.2.versioned_paths, vp.1.length = vp.2.length) ∧ timestampsMatch t = true := by
  simp [timestampsMatch]

/-- The value of `revoke` on a table whose timestamp vectors have the length of their paths. -/
theorem revoke_eq (revoker : endpoint_id) (ts : lamport_timestamp) (hop : endpoint_id)
    (tbl : routing_table) (h : timestampsMatch tbl = true) :
    revoke revoker ts hop tbl
      = some ((tbl.map (revokeEntry revoker ts hop)).filter
            (fun e => !e.2.versioned_paths.isEmpty),
          ((tbl.map (revokeEntry revoker ts hop)).filter
            (fun e => e.2.versioned_paths.isEmpty)).map Prod.fst) := by
  induction tbl with
  | nil => rfl
  | cons e rest ih =>
    obtain ⟨id, row⟩ := e
    obtain ⟨h1, h2⟩ := (timestampsMatch_cons _ _).mp h
    have hp := erase_if_eq (fun kvp : versioned_path_type =>
      blacklisted kvp.1 kvp.2 revoker ts hop) row.versioned_paths
      (fun vp hvp => blacklisted_isSome vp.1 vp.2 revoker ts hop (h1 vp hvp))
    simp only [revoke, hp, ih h2, List.map_cons, List.filter_cons, revokeEntry, revoked]
    by_cases hE : (row.versioned_paths.filter
        (fun x => !(blacklisted x.1 x.2 revoker ts hop == some true))).isEmpty = true
    · simp [hE]
    · simp [hE]

theorem not_revoked_eq (revoker : endpoint_id) (ts : lamport_timestamp) (hop : endpoint_id)
    (vp : versioned_path_type) (hlen : vp.1.length = vp.2.length) :
    (!revoked revoker ts hop vp) = (blacklisted vp.1 vp.2 revoker ts hop == some false) := by
  obtain ⟨b, hb⟩ := blacklisted_isSome vp.1 vp.2 revoker ts hop hlen
  unfold revoked
  rw [hb]
  cases b <;> rfl

theorem revokeEntry_paths (revoker : endpoint_id) (ts : lamport_timestamp) (hop : endpoint_id)
    (e : endpoint_id × routing_table_row)
    (h : ∀ vp ∈ e.2.versioned_paths, vp.1.length = vp.2.length) :
    (revokeEntry revoker ts hop e).2.versioned_paths
      = e.2.versioned_paths.filter
          (fun vp => blacklisted vp.1 vp.2 revoker ts hop == some false) :=
  List.filter_congr fun vp hvp => not_revoked_eq revoker ts hop vp (h vp hvp)

theorem revokeEntry_paths_isEmpty (revoker : endpoint_id) (ts : lamport_timestamp)
    (hop : endpoint_id) (e : endpoint_id × routing_table_row) :
    (revokeEntry revoker ts hop e).2.versioned_paths.isEmpty
      = e.2.versioned_paths.all (fun vp => blacklisted vp.1 vp.2 revoker ts hop == some true) := by
  rw [Bool.eq_iff_iff, List.isEmpty_iff, List.all_eq_true]
  simp only [revokeEntry, List.filter_eq_nil_iff, revoked]
  simp

/-- C9: on a table whose timestamp vectors have the length of their paths, `revoke` returns
and removes exactly the blacklisted paths: no remaining path is blacklisted; a remaining row is
a row of the input with the same handle and exactly its non-blacklisted paths, with their
timestamps and in their order, and has at least one; every row of the input with a
non-blacklisted path remains in that form; and the callback was called, in table order, for
the peers of the rows left without paths, which are erased. -/
theorem revoke_removes_exactly_blacklisted (tbl : routing_table) (revoker : endpoint_id)
    (ts : lamport_timestamp) (hop : endpoint_id) (h : timestampsMatch tbl = true) :
    ∃ t calls, revoke revoker ts hop tbl = some (t, calls) ∧
      (∀ e ∈ t, ∀ vp ∈ e.2.versioned_paths,
        blacklisted vp.1 vp.2 revoker ts hop = some false) ∧
      (∀ e ∈ t, e.2.versioned_paths ≠ [] ∧ ∃ e0 ∈ tbl, e0.1 = e.1 ∧ e0.2.hdl = e.2.hdl ∧
        e.2.versioned_paths = e0.2.versioned_paths.filter
          (fun vp => blacklisted vp.1 vp.2 revoker ts hop == some false)) ∧
      (∀ e0 ∈ tbl,
        (∃ vp ∈ e0.2.versioned_paths, blacklisted vp.1 vp.2 revoker ts hop = some false) →
        (e0.1, ⟨e0.2.hdl, e0.2.versioned_paths.filter
          (fun vp => blacklisted vp.1 vp.2 revoker ts hop == some false)⟩) ∈ t) ∧
      calls = (tbl.filter (fun e0 => e0.2.versioned_paths.all
        (fun vp => blacklisted vp.1 vp.2 revoker ts hop == some true))).map Prod.fst := by
  have hm := (timestampsMatch_iff tbl).mp h
  refine ⟨_, _, revoke_eq revoker ts hop tbl h, ?_, ?_, ?_, ?_⟩
  · intro e he vp hvp
    obtain ⟨e0, he0, rfl⟩ := List.mem_map.mp (List.mem_filter.mp he).1
    rw [revokeEntry_paths revoker ts hop e0 (hm e0 he0), List.mem_filter] at hvp
    simpa using hvp.2
  · intro e he
    obtain ⟨he1, he2⟩ := List.mem_filter.mp he
    obtain ⟨e0, he0, rfl⟩ := List.mem_map.mp he1
    refine ⟨by simpa using he2, e0, he0, rfl, rfl, ?_⟩
    exact revokeEntry_paths revoker ts hop e0 (hm e0 he0)
  · rintro e0 he0 ⟨vp, hvp, hb⟩
    refine List.mem_filter.mpr ⟨List.mem_map.mpr ⟨e0, he0, ?_⟩, ?_⟩
    · rw [← revokeEntry_paths revoker ts hop e0 (hm e0 he0)]
      rfl
    · have : vp ∈ e0.2.versioned_paths.filter
          (fun vp => blacklisted vp.1 vp.2 revoker ts hop == some false) :=
        List.mem_filter.mpr ⟨hvp, by simp [hb]⟩
      cases hf : e0.2.versioned_paths.filter
          (fun vp => blacklisted vp.1 vp.2 revoker ts hop == some false) with
      | nil => rw [hf] at this; simp at this
      | cons a l => rfl
  · rw [List.filter_map, List.map_map]
    have hfst : (Prod.fst ∘ revokeEntry revoker ts hop
        : endpoint_id × routing_table_row → endpoint_id) = Prod.fst := rfl
    rw [hfst]
    congr 1
    exact List.filter_congr fun e _ => revokeEntry_paths_isEmpty revoker ts hop e

theorem revoke_removes_exactly_blacklisted_witness :
    timestampsMatch relayTable = true ∧
    ∃ t calls, revoke 1 5 2 relayTable = some (t, calls) ∧
      (∀ e ∈ t, ∀ vp ∈ e.2.versioned_paths, blacklisted vp.1 vp.2 1 5 2 = some false) ∧
      (∀ e ∈ t, e.2.versioned_paths ≠ [] ∧ ∃ e0 ∈ relayTable, e0.1 = e.1 ∧
        e0.2.hdl = e.2.hdl ∧
        e.2.versioned_paths = e0.2.versioned_paths.filter
          (fun vp => blacklisted vp.1 vp.2 1 5 2 == some false)) ∧
      (∀ e0 ∈ relayTable,
        (∃ vp ∈ e0.2.versioned_paths, blacklisted vp.1 vp.2 1 5 2 = some false) →
        (e0.1, ⟨e0.2.hdl, e0.2.versioned_paths.filter
          (fun vp => blacklisted vp.1 vp.2 1 5 2 == some false)⟩) ∈ t) ∧
      calls = (relayTable.filter (fun e0 => e0.2.versioned_paths.all
        (fun vp => blacklisted vp.1 vp.2 1 5 2 == some true))).map Prod.fst :=
  ⟨by decide, revoke_removes_exactly_blacklisted relayTable 1 5 2 (by decide)⟩

/-- C10, as stated, fails: in `relayTable` the only path to peer 2 is blacklisted by
`(1, 5, 2)`; `revoke` erases the row of peer 2 and reports it, and keeps the path
`[4, 2, 3]` to peer 3, which contains the removed peer 2. -/
theorem revoke_keeps_path_through_removed_peer :
    revoke 1 5 2 relayTable
      = some ([(1, ⟨some 1, [([1], [1])]⟩), (3, ⟨none, [([4, 2, 3], [1, 1, 1])]⟩),
          (4, ⟨some 4, [([4], [1])]⟩)], [2]) ∧
    2 ∈ keys relayTable ∧
    2 ∉ keys [(1, ⟨some 1, [([1], [1])]⟩), (3, ⟨none, [([4, 2, 3], [1, 1, 1])]⟩),
      (4, ⟨some 4, [([4], [1])]⟩)] ∧
    2 ∈ [4, 2, 3] := by
  decide

/-- C10, amended: `revoke` erases and reports the rows left without paths and does not
cascade.  On a table whose timestamp vectors have the length of their paths it returns, no
remaining row is without paths, no remaining path is blacklisted, and every path of the input
that is not blacklisted is still in the row of its peer, whichever peers it contains. -/
theorem revoke_keeps_every_unblacklisted_path (tbl : routing_table) (revoker : endpoint_id)
    (ts : lamport_timestamp) (hop : endpoint_id) (h : timestampsMatch tbl = true) :
    ∃ t calls, revoke revoker ts hop tbl = some (t, calls) ∧
      (∀ e ∈ t, e.2.versioned_paths ≠ []) ∧
      (∀ e ∈ t, ∀ vp ∈ e.2.versioned_paths,
        blacklisted vp.1 vp.2 revoker ts hop = some false) ∧
      (∀ e0 ∈ tbl, ∀ vp ∈ e0.2.versioned_paths,
        blacklisted vp.1 vp.2 revoker ts hop = some false →
        ∃ e ∈ t, e.1 = e0.1 ∧ vp ∈ e.2.versioned_paths) := by
  have hm := (timestampsMatch_iff tbl).mp h
  refine ⟨_, _, revoke_eq revoker ts hop tbl h, ?_, ?_, ?_⟩
  · intro e he
    simpa using (List.mem_filter.mp he).2
  · intro e he vp hvp
    obtain ⟨e0, he0, rfl⟩ := List.mem_map.mp (List.mem_filter.mp he).1
    rw [revokeEntry_paths revoker ts hop e0 (hm e0 he0), List.mem_filter] at hvp
    simpa using hvp.2
  · intro e0 he0 vp hvp hb
    have hin : vp ∈ (revokeEntry revoker ts hop e0).2.versioned_paths := by
      rw [revokeEntry_paths revoker ts hop e0 (hm e0 he0)]
      exact List.mem_filter.mpr ⟨hvp, by simp [hb]⟩
    refine ⟨revokeEntry revoker ts hop e0, ?_, rfl, hin⟩
    refine List.mem_filter.mpr ⟨List.mem_map.mpr ⟨e0, he0, rfl⟩, ?_⟩
    cases hf : (revokeEntry revoker ts hop e0).2.versioned_paths with
    | nil => rw [hf] at hin; simp at hin
    | cons a l => rfl

theorem revoke_keeps_every_unblacklisted_path_witness :
    timestampsMatch relayTable = true ∧
    ∃ t calls, revoke 1 5 2 relayTable = some (t, calls) ∧
      (∀ e ∈ t, e.2.versioned_paths ≠ []) ∧
      (∀ e ∈ t, ∀ vp ∈ e.2.versioned_paths, blacklisted vp.1 vp.2 1 5 2 = some false) ∧
      (∀ e0 ∈ relayTable, ∀ vp ∈ e0.2.versioned_paths,
        blacklisted vp.1 vp.2 1 5 2 = some false →
        ∃ e ∈ t, e.1 = e0.1 ∧ vp ∈ e.2.versioned_paths) :=
  ⟨by decide, revoke_keeps_every_unblacklisted_path relayTable 1 5 2 (by decide)⟩

/-! ## `path_less` -/

theorem vectorLess_iff_lex (x y : List Nat) :
    vectorLess x y = true ↔ List.Lex (· < ·) x y := by
  induction x generalizing y with
  | nil =>
    cases y with
    | nil => simp [vectorLess]
    | cons b y => simp [vectorLess, List.Lex.nil]
  | cons a x ih =>
    cases y with
    | nil => simp [vectorLess]
    | cons b y =>
      simp only [vectorLess]
      by_cases h1 : a < b
      · simp only [h1, if_true, true_iff]
        exact List.Lex.rel h1
      · by_cases h2 : b < a
        · simp only [h1, h2, if_true, if_false, Bool.false_eq_true, false_iff]
          intro h
          cases h with
          | cons h => omega
          | rel h => omega
        · have hab : a = b := by omega
          subst hab
          simp only [h1, if_false, ih y]
          exact List.Lex.cons_iff.symm

theorem vectorLess_irrefl (x : List Nat) : vectorLess x x = false := by
  induction x with
  | nil => rfl
  | cons a x ih => simp [vectorLess, ih]

theorem vectorLess_trans (x y z : List Nat) (h1 : vectorLess x y = true)
    (h2 : vectorLess y z = true) : vectorLess x z = true := by
  induction x generalizing y z with
  | nil =>
    cases y with
    | nil => simp [vectorLess] at h1
    | cons b y =>
      cases z with
      | nil => simp [vectorLess] at h2
      | cons c z => rfl
  | cons a x ih =>
    cases y with
    | nil => simp [vectorLess] at h1
    | cons b y =>
      cases z with
      | nil => simp [vectorLess] at h2
      | cons c z =>
        simp only [vectorLess] at h1 h2 ⊢
        by_cases hab : a < b
        · by_cases hbc : b < c
          · have hac : a < c := by omega
            rw [if_pos hac]
          · by_cases hcb : c < b
            · simp [hbc, hcb] at h2
            · have hac : a < c := by omega
              rw [if_pos hac]
        · by_cases hba : b < a
          · simp [hab, hba] at h1
          · have e : a = b := by omega
            subst e
            simp only [hab, if_false] at h1
            by_cases hbc : a < c
            · rw [if_pos hbc]
            · by_cases hcb : c < a
              · simp [hbc, hcb] at h2
              · simp only [hbc, hcb, if_false] at h2 ⊢
                exact ih y z h1 h2

theorem vectorLess_asymm (x y : List Nat) (h : vectorLess x y = true) :
    vectorLess y x = false := by
  cases h' : vectorLess y x with
  | false => rfl
  | true =>
    have := vectorLess_trans x y x h h'
    rw [vectorLess_irrefl] at this
    exact absurd this (by simp)

theorem vectorLess_total (x y : List Nat) (hlen : x.length = y.length) (hne : x ≠ y) :
    vectorLess x y = true ∨ vectorLess y x = true := by
  induction x generalizing y with
  | nil =>
    cases y with
    | nil => exact absurd rfl hne
    | cons b y => simp at hlen
  | cons a x ih =>
    cases y with
    | nil => simp at hlen
    | cons b y =>
      simp only [vectorLess]
      by_cases hab : a < b
      · left; rw [if_pos hab]
      · by_cases hba : b < a
        · right; rw [if_pos hba]
        · have e : a = b := by omega
          subst e
          simp only [hab, if_false]
          refine ih y (by simpa using hlen) ?_
          intro h
          exact hne (by rw [h])

theorem path_less_irrefl (x : List Nat) : path_less x x = false := by
  simp [path_less, vectorLess_irrefl]

theorem path_less_iff (x y : List Nat) :
    path_less x y = true ↔
      x.length < y.length ∨ (x.length = y.length ∧ vectorLess x y = true) := by
  unfold path_less
  by_cases h1 : x.length < y.length
  · simp [h1]
  · by_cases h2 : x.length = y.length
    · simp [h2]
    · simp [h1, h2]

theorem path_less_trans (x y z : List Nat) (h1 : path_less x y = true)
    (h2 : path_less y z = true) : path_less x z = true := by
  rw [path_less_iff] at h1 h2 ⊢
  rcases h1 with h1 | ⟨h1, h1'⟩
  · rcases h2 with h2 | ⟨h2, _⟩
    · left; omega
    · left; omega
  · rcases h2 with h2 | ⟨h2, h2'⟩
    · left; omega
    · right; exact ⟨by omega, vectorLess_trans x y z h1' h2'⟩

theorem path_less_asymm (x y : List Nat) (h : path_less x y = true) :
    path_less y x = false := by
  cases h' : path_less y x with
  | false => rfl
  | true =>
    have := path_less_trans x y x h h'
    rw [path_less_irrefl] at this
    exact absurd this (by simp)

theorem path_less_total (x y : List Nat) (hne : x ≠ y) :
    path_less x y = true ∨ path_less y x = true := by
  rw [path_less_iff, path_less_iff]
  rcases Nat.lt_trichotomy x.length y.length with h | h | h
  · exact Or.inl (Or.inl h)
  · rcases vectorLess_total x y h hne with h' | h'
    · exact Or.inl (Or.inr ⟨h, h'⟩)
    · exact Or.inr (Or.inr ⟨h.symm, h'⟩)
  · exact Or.inr (Or.inl h)

/-- C15: `path_less(x, y)` holds iff `x` is shorter than `y`, or both have the same length
and `x` precedes `y` lexicographically; it is irreflexive and transitive, for distinct paths
exactly one of `path_less(x, y)` and `path_less(y, x)` holds, and two distinct paths of equal
length are ordered by the lexicographic comparison. -/
theorem path_less_strict_total_order :
    (∀ x y : path_type, path_less x y = true ↔
      x.length < y.length ∨ (x.length = y.length ∧ List.Lex (fun a b => a < b) x y)) ∧
    (∀ x : path_type, path_less x x = false) ∧
    (∀ x y z : path_type, path_less x y = true → path_less y z = true →
      path_less x z = true) ∧
    (∀ x y : path_type, x ≠ y →
      (path_less x y = true ∧ path_less y x = false) ∨
      (path_less x y = false ∧ path_less y x = true)) ∧
    (∀ x y : path_type, x.length = y.length → x ≠ y →
      (path_less x y = true ↔ List.Lex (fun a b => a < b) x y) ∧
      (List.Lex (fun a b => a < b) x y ∨ List.Lex (fun a b => a < b) y x)) := by
  refine ⟨?_, path_less_irrefl, path_less_trans, ?_, ?_⟩
  · intro x y
    rw [path_less_iff, vectorLess_iff_lex]
  · intro x y hne
    rcases path_less_total x y hne with h | h
    · exact Or.inl ⟨h, path_less_asymm x y h⟩
    · exact Or.inr ⟨path_less_asymm y x h, h⟩
  · intro x y hlen hne
    refine ⟨?_, ?_⟩
    · rw [path_less_iff, vectorLess_iff_lex]
      constructor
      · rintro (h | h)
        · omega
        · exact h.2
      · intro h
        exact Or.inr ⟨hlen, h⟩
    · rcases vectorLess_total x y hlen hne with h | h
      · exact Or.inl ((vectorLess_iff_lex x y).mp h)
      · exact Or.inr ((vectorLess_iff_lex y x).mp h)

/-! ## `blacklisted` -/

/-- What the loop of `blacklisted` returns: nothing when the revoker is at none of the visited
indices, and otherwise the verdict at the first index that holds the revoker. -/
theorem blacklistedLoop_spec (path : path_type) (path_ts : vector_timestamp)
    (revoker : endpoint_id) (ts : lamport_timestamp) (hop : endpoint_id)
    (hlen : path.length = path_ts.length) (remaining index : Nat)
    (hb : index + remaining + 1 ≤ path.length) :
    (blacklistedLoop path path_ts revoker ts hop index remaining = some none ∧
      ∀ j, index ≤ j → j < index + remaining → path[j]? ≠ some revoker) ∨
    (∃ j t prev next, index ≤ j ∧ j < index + remaining ∧ path[j]? = some revoker ∧
      path_ts[j]? = some t ∧ path[j - 1]? = some prev ∧ path[j + 1]? = some next ∧
      blacklistedLoop path path_ts revoker ts hop index remaining
        = some (some (decide (t ≤ ts) && (decide (prev = hop) || decide (next = hop))))) := by
  induction remaining generalizing index with
  | zero =>
    left
    exact ⟨rfl, fun j h1 h2 => by omega⟩
  | succ n ih =>
    have h0 : path[index]? = some path[index] := List.getElem?_eq_getElem (by omega)
    have h1 : path_ts[index]? = some path_ts[index] := List.getElem?_eq_getElem (by omega)
    have h2 : path[index - 1]? = some path[index - 1] := List.getElem?_eq_getElem (by omega)
    have h3 : path[index + 1]? = some path[index + 1] := List.getElem?_eq_getElem (by omega)
    unfold blacklistedLoop
    rw [h0]
    by_cases hp : path[index] = revoker
    · right
      refine ⟨index, path_ts[index], path[index - 1], path[index + 1], le_refl _, by omega,
        by rw [h0, hp], h1, h2, h3, ?_⟩
      simp only [hp, if_true, h1, h2, h3]
    · simp only [hp, if_false]
      rcases ih (index + 1) (by omega) with ⟨hr, hall⟩ | ⟨j, t, prev, next, hj1, hj2, hrest⟩
      · left
        refine ⟨hr, ?_⟩
        intro j hj1 hj2
        by_cases hji : j = index
        · subst hji
          rw [h0]
          intro h
          exact hp (Option.some.inj h)
        · exact hall j (by omega) (by omega)
      · right
        exact ⟨j, t, prev, next, by omega, by omega, hrest⟩

theorem revoker_index_unique (path : path_type) (revoker : endpoint_id) (hloop : path.Nodup)
    (i j : Nat) (hi : path[i]? = some revoker) (hj : path[j]? = some revoker) : i = j := by
  have hlt : i < path.length := by
    by_contra h
    rw [List.getElem?_eq_none (by omega)] at hi
    exact Option.noConfusion hi
  exact List.getElem?_inj hlt hloop (hi.trans hj.symm)

/-- C11: for a loop-free path with a timestamp vector of the same length `blacklisted` returns,
and it returns `true` if and only if some index `i` holds the revoker with a timestamp of at
most `ts` and the hop right before or right after it; it returns `false` for every path of
length at most 1. -/
theorem blacklisted_iff_revoker_adjacent_to_hop (path : path_type)
    (path_ts : vector_timestamp) (revoker : endpoint_id) (ts : lamport_timestamp)
    (hop : endpoint_id) (hloop : path.Nodup) (hlen : path.length = path_ts.length) :
    ∃ b, blacklisted path path_ts revoker ts hop = some b ∧
      (b = true ↔ ∃ i, path[i]? = some revoker ∧ (∃ t, path_ts[i]? = some t ∧ t ≤ ts) ∧
        ((1 ≤ i ∧ path[i - 1]? = some hop) ∨ path[i + 1]? = some hop)) ∧
      (path.length ≤ 1 → b = false) := by
  have uniq : ∀ j, path[j]? = some revoker →
      ((∃ i, path[i]? = some revoker ∧ (∃ t, path_ts[i]? = some t ∧ t ≤ ts) ∧
        ((1 ≤ i ∧ path[i - 1]? = some hop) ∨ path[i + 1]? = some hop)) ↔
       ((∃ t, path_ts[j]? = some t ∧ t ≤ ts) ∧
        ((1 ≤ j ∧ path[j - 1]? = some hop) ∨ path[j + 1]? = some hop))) := by
    intro j hj
    constructor
    · rintro ⟨i, hi, h⟩
      have := revoker_index_unique path revoker hloop i j hi hj
      subst this
      exact h
    · intro h
      exact ⟨j, hj, h⟩
  unfold blacklisted
  rw [if_neg (by simpa using hlen)]
  by_cases h1 : path.length ≤ 1
  · rw [if_pos h1]
    refine ⟨false, rfl, ?_, fun _ => rfl⟩
    simp only [Bool.false_eq_true, false_iff]
    rintro ⟨i, hi, _, h | h⟩
    · have : i < path.length := by
        by_contra hc
        rw [List.getElem?_eq_none (by omega)] at hi
        exact Option.noConfusion hi
      omega
    · rw [List.getElem?_eq_none (by omega)] at h
      exact Option.noConfusion h
  rw [if_neg h1]
  have e0 : path[0]? = path.head? := (List.head?_eq_getElem? path).symm
  have t0 : path_ts[0]? = path_ts.head? := (List.head?_eq_getElem? path_ts).symm
  have e1 : path[1]? = some path[1] := List.getElem?_eq_getElem (by omega)
  have e2 : path[path.length - 2]? = some path[path.length - 2] :=
    List.getElem?_eq_getElem (by omega)
  have eL : path[path.length - 1]? = path.getLast? := by
    rw [List.getLast?_eq_getElem?]
  have tL : path_ts[path.length - 1]? = path_ts.getLast? := by
    rw [List.getLast?_eq_getElem?, hlen]
  obtain ⟨t0v, ht0⟩ : ∃ t0, path_ts.head? = some t0 := by
    cases path_ts with
    | nil => rw [List.length_nil] at hlen; omega
    | cons a l => exact ⟨a, rfl⟩
  obtain ⟨tlv, htl⟩ : ∃ tl, path_ts.getLast? = some tl := by
    cases path_ts with
    | nil => rw [List.length_nil] at hlen; omega
    | cons a l => exact ⟨_, List.getLast?_eq_getLast _ (by simp)⟩
  by_cases h2 : path.head? = some revoker
  · rw [if_pos h2, ht0, e1]
    refine ⟨_, rfl, ?_, fun h => absurd h h1⟩
    rw [uniq 0 (e0.trans h2), t0, ht0, e1]
    simp
  rw [if_neg h2]
  rcases blacklistedLoop_spec path path_ts revoker ts hop hlen (path.length - 1 - 1) 1
      (by omega) with ⟨hr, hall⟩ | ⟨j, t, prev, next, hj1, hj2, hjr, hjt, hjp, hjn, hr⟩
  · rw [hr]
    simp only []
    by_cases h3 : path.getLast? = some revoker
    · rw [if_pos h3, htl, e2]
      refine ⟨_, rfl, ?_, fun h => absurd h h1⟩
      rw [uniq (path.length - 1) (eL.trans h3), tL, htl]
      have hnone : path[path.length - 1 + 1]? = none := List.getElem?_eq_none (by omega)
      have hidx : path.length - 1 - 1 = path.length - 2 := by omega
      rw [hnone, hidx, e2]
      simp
      intro _ _
      omega
    · rw [if_neg h3]
      refine ⟨false, rfl, ?_, fun _ => rfl⟩
      simp only [Bool.false_eq_true, false_iff]
      rintro ⟨i, hi, _⟩
      have hlt : i < path.length := by
        by_contra hc
        rw [List.getElem?_eq_none (by omega)] at hi
        exact Option.noConfusion hi
      by_cases hi0 : i = 0
      · subst hi0
        exact h2 (e0.symm.trans hi)
      · by_cases hiL : i = path.length - 1
        · subst hiL
          exact h3 (eL.symm.trans hi)
        · exact hall i (by omega) (by omega) hi
  · rw [hr]
    refine ⟨_, rfl, ?_, fun h => absurd h h1⟩
    rw [uniq j hjr, hjt, hjp, hjn]
    simp
    intro _
    constructor
    · rintro (h | h)
      · exact Or.inl ⟨by omega, h⟩
      · exact Or.inr h
    · rintro (⟨_, h⟩ | h)
      · exact Or.inl h
      · exact Or.inr h

theorem blacklisted_iff_revoker_adjacent_to_hop_witness :
    ([4, 2, 1, 5] : path_type).Nodup ∧
    ([4, 2, 1, 5] : path_type).length = ([1, 1, 1, 9] : vector_timestamp).length ∧
    ∃ b, blacklisted [4, 2, 1, 5] [1, 1, 1, 9] 1 5 2 = some b ∧
      (b = true ↔ ∃ i, ([4, 2, 1, 5] : path_type)[i]? = some 1 ∧
        (∃ t, ([1, 1, 1, 9] : vector_timestamp)[i]? = some t ∧ t ≤ 5) ∧
        ((1 ≤ i ∧ ([4, 2, 1, 5] : path_type)[i - 1]? = some 2)
          ∨ ([4, 2, 1, 5] : path_type)[i + 1]? = some 2)) ∧
      (([4, 2, 1, 5] : path_type).length ≤ 1 → b = false) :=
  ⟨by decide, by decide,
    blacklisted_iff_revoker_adjacent_to_hop [4, 2, 1, 5] [1, 1, 1, 9] 1 5 2
      (by decide) (by decide)⟩

/-! ## `emplace` on the blacklist -/

theorem tupleLess_iff (x y : Nat × Nat × Nat) :
    tupleLess x y = true ↔
      x.1 < y.1 ∨ (x.1 = y.1 ∧ (x.2.1 < y.2.1 ∨ (x.2.1 = y.2.1 ∧ x.2.2 < y.2.2))) := by
  unfold tupleLess
  delta endpoint_id lamport_timestamp
  split_ifs with h1 h2 h3 h4 <;>
    simp only [decide_eq_true_eq, Bool.false_eq_true, true_iff, false_iff] <;> omega

theorem tupleLess_irrefl (x : Nat × Nat × Nat) : tupleLess x x = false := by
  cases h : tupleLess x x with
  | false => rfl
  | true => rw [tupleLess_iff] at h; omega

theorem tupleLess_trans (x y z : Nat × Nat × Nat) (h1 : tupleLess x y = true)
    (h2 : tupleLess y z = true) : tupleLess x z = true := by
  rw [tupleLess_iff] at h1 h2 ⊢
  omega

theorem tupleLess_total (x y : Nat × Nat × Nat) (h1 : tupleLess x y = false)
    (hne : x ≠ y) : tupleLess y x = true := by
  have h1' : ¬ tupleLess x y = true := by simp [h1]
  rw [tupleLess_iff] at h1' ⊢
  have : x.1 ≠ y.1 ∨ x.2.1 ≠ y.2.1 ∨ x.2.2 ≠ y.2.2 := by
    by_contra hc
    apply hne
    obtain ⟨a, b, c⟩ := x
    obtain ⟨a', b', c'⟩ := y
    simp only [Prod.mk.injEq]
    simp only [not_or, not_not] at hc
    exact hc
  omega

theorem tupleLess_asymm (x y : Nat × Nat × Nat) (h : tupleLess x y = true) :
    tupleLess y x = false := by
  cases h' : tupleLess y x with
  | false => rfl
  | true =>
    have := tupleLess_trans x y x h h'
    rw [tupleLess_irrefl] at this
    exact absurd this (by simp)

theorem blacklistAscending_iff (lst : blacklist) :
    blacklistAscending lst ↔ blacklistSorted lst ∧ blacklistDupFree lst := by
  unfold blacklistAscending blacklistSorted blacklistDupFree
  rw [List.Nodup, List.pairwise_map]
  constructor
  · intro h
    refine ⟨h.imp fun {a b} hab => tupleLess_asymm _ _ hab, h.imp fun {a b} hab heq => ?_⟩
    rw [heq, tupleLess_irrefl] at hab
    exact absurd hab (by simp)
  · rintro ⟨h1, h2⟩
    exact (h1.and h2).imp fun {a b} hab => tupleLess_total _ _ hab.1 (Ne.symm hab.2)

theorem lower_bound_le (lst : blacklist) (v : Nat × Nat × Nat) :
    lower_bound lst v ≤ lst.length := by
  induction lst with
  | nil => simp [lower_bound]
  | cons e rest ih =>
    unfold lower_bound
    split
    · simp; omega
    · simp

theorem lower_bound_take (lst : blacklist) (v : Nat × Nat × Nat) :
    ∀ e ∈ lst.take (lower_bound lst v), tupleLess e.tie v = true := by
  induction lst with
  | nil => simp [lower_bound]
  | cons e rest ih =>
    unfold lower_bound
    by_cases h : tupleLess e.tie v = true
    · rw [if_pos h, List.take_succ_cons]
      intro x hx
      rcases List.mem_cons.mp hx with rfl | hx
      · exact h
      · exact ih x hx
    · rw [if_neg h]
      simp

theorem lower_bound_drop (lst : blacklist) (v : Nat × Nat × Nat)
    (hS : blacklistAscending lst) :
    ∀ e ∈ lst.drop (lower_bound lst v), tupleLess e.tie v = false := by
  induction lst with
  | nil => simp [lower_bound]
  | cons e rest ih =>
    have hS' := List.pairwise_cons.mp hS
    unfold lower_bound
    by_cases h : tupleLess e.tie v = true
    · rw [if_pos h, List.drop_succ_cons]
      exact ih hS'.2
    · rw [if_neg h, List.drop_zero]
      intro x hx
      rcases List.mem_cons.mp hx with rfl | hx
      · simpa using h
      · cases hxv : tupleLess x.tie v with
        | false => rfl
        | true => exact absurd (tupleLess_trans _ _ _ (hS'.1 x hx) hxv) h

theorem tie_ne_iff (e : blacklist_entry) (revoker ts hop : Nat) :
    (e.revoker ≠ revoker ∨ e.ts ≠ ts ∨ e.hop ≠ hop) ↔ e.tie ≠ (revoker, ts, hop) := by
  unfold blacklist_entry.tie
  simp only [ne_eq, Prod.mk.injEq, not_and]
  tauto

/-- The position found by `lower_bound` holds the entry with the triple, if there is one. -/
theorem lower_bound_finds (lst : blacklist) (v : Nat × Nat × Nat)
    (hS : blacklistAscending lst) (e : blacklist_entry) (he : e ∈ lst) (hv : e.tie = v) :
    lst[lower_bound lst v]? = some e := by
  have hsplit := List.take_append_drop (lower_bound lst v) lst
  have hmem : e ∈ lst.drop (lower_bound lst v) := by
    rw [← hsplit] at he
    rcases List.mem_append.mp he with h | h
    · have := lower_bound_take lst v e h
      rw [hv, tupleLess_irrefl] at this
      exact absurd this (by simp)
    · exact h
  have hlt : lower_bound lst v < lst.length := by
    by_contra hc
    rw [List.drop_eq_nil_of_le (by omega)] at hmem
    simp at hmem
  rw [List.getElem?_eq_getElem hlt]
  rw [List.drop_eq_getElem_cons hlt] at hmem
  rcases List.mem_cons.mp hmem with h | h
  · rw [h]
  · have hS2 : blacklistAscending (lst.drop (lower_bound lst v)) :=
      List.Pairwise.sublist (List.drop_sublist _ _) hS
    rw [List.drop_eq_getElem_cons hlt] at hS2
    have hlt2 := (List.pairwise_cons.mp hS2).1 e h
    have hd := lower_bound_drop lst v hS (lst[lower_bound lst v])
      (by rw [List.drop_eq_getElem_cons hlt]; exact List.mem_cons_self _ _)
    rw [hv, hd] at hlt2
    exact absurd hlt2 (by simp)

/-- Inserting a new triple at the position found by `lower_bound` keeps the list ascending. -/
theorem insert_at_lower_bound (lst : blacklist) (x : blacklist_entry)
    (hS : blacklistAscending lst) (hno : ∀ e ∈ lst, e.tie ≠ x.tie) :
    blacklistAscending
      (lst.take (lower_bound lst x.tie) ++ x :: lst.drop (lower_bound lst x.tie)) := by
  have hsplit := List.take_append_drop (lower_bound lst x.tie) lst
  have hS' : blacklistAscending
      (lst.take (lower_bound lst x.tie) ++ lst.drop (lower_bound lst x.tie)) := by
    rw [hsplit]; exact hS
  unfold blacklistAscending at hS' ⊢
  rw [List.pairwise_append] at hS' ⊢
  obtain ⟨h1, h2, h3⟩ := hS'
  refine ⟨h1, List.pairwise_cons.mpr ⟨?_, h2⟩, ?_⟩
  · intro b hb
    have hd := lower_bound_drop lst x.tie hS b hb
    exact tupleLess_total _ _ hd (hno b (List.mem_of_mem_drop hb))
  · intro a ha b hb
    rcases List.mem_cons.mp hb with rfl | hb
    · exact lower_bound_take lst _ a ha
    · exact h3 a ha b hb

theorem emplace_present (lst : blacklist) (now revoker ts hop : Nat)
    (hS : blacklistAscending lst) (e : blacklist_entry) (he : e ∈ lst)
    (hv : e.tie = (revoker, ts, hop)) :
    emplace lst now revoker ts hop = (lst, lower_bound lst (revoker, ts, hop), false) := by
  have hf := lower_bound_finds lst (revoker, ts, hop) hS e he hv
  unfold emplace
  simp only [hf]
  rw [if_neg]
  rw [tie_ne_iff]
  exact fun h => h hv

theorem emplace_fresh (lst : blacklist) (now revoker ts hop : Nat)
    (hno : ∀ e ∈ lst, e.tie ≠ (revoker, ts, hop)) :
    emplace lst now revoker ts hop
      = (lst.take (lower_bound lst (revoker, ts, hop))
          ++ ⟨revoker, ts, hop, now⟩ :: lst.drop (lower_bound lst (revoker, ts, hop)),
        lower_bound lst (revoker, ts, hop), true) := by
  unfold emplace
  cases hf : lst[lower_bound lst (revoker, ts, hop)]? with
  | none => simp only [hf]
  | some e =>
    simp only [hf]
    rw [if_pos]
    rw [tie_ne_iff]
    exact hno e (List.getElem?_mem hf)

theorem ascending_nodup (lst : blacklist) (hS : blacklistAscending lst) : lst.Nodup := by
  refine List.Pairwise.imp ?_ hS
  intro a b hab heq
  rw [heq, tupleLess_irrefl] at hab
  exact absurd hab (by simp)

/-- C12: on a blacklist that is sorted by `(revoker, ts, hop)` and has no duplicate triples,
`emplace` returns `true` and inserts a new entry if and only if no entry with the triple
exists; otherwise it returns `false` and leaves the list, with the `first_seen` of the
existing entry, unchanged.  The returned iterator points to the entry with the triple, the
result is sorted and free of duplicates, and emplacing the same triple again changes nothing
and returns `false` with the same position. -/
theorem emplace_deduplicates (lst : blacklist) (now : Nat) (revoker : endpoint_id)
    (ts : lamport_timestamp) (hop : endpoint_id)
    (hs : blacklistSorted lst) (hd : blacklistDupFree lst) :
    ∃ l i b, emplace lst now revoker ts hop = (l, i, b) ∧
      (b = true ↔ ∀ e ∈ lst, e.tie ≠ (revoker, ts, hop)) ∧
      (b = true → l = lst.take i ++ ⟨revoker, ts, hop, now⟩ :: lst.drop i ∧ i ≤ lst.length) ∧
      (b = false → l = lst) ∧
      (∃ e, l[i]? = some e ∧ e.tie = (revoker, ts, hop)) ∧
      blacklistSorted l ∧ blacklistDupFree l ∧
      ∀ now', emplace l now' revoker ts hop = (l, i, false) := by
  have hS := (blacklistAscending_iff lst).mpr ⟨hs, hd⟩
  by_cases hex : ∃ e ∈ lst, e.tie = (revoker, ts, hop)
  · obtain ⟨e, he, hv⟩ := hex
    have hp := emplace_present lst now revoker ts hop hS e he hv
    refine ⟨_, _, _, hp, ?_, ?_, fun _ => rfl,
      ⟨e, lower_bound_finds lst _ hS e he hv, hv⟩, hs, hd,
      fun now' => emplace_present lst now' revoker ts hop hS e he hv⟩
    · simp only [Bool.false_eq_true, false_iff]
      exact fun h => h e he hv
    · intro h
      exact absurd h (by simp)
  · have hno : ∀ e ∈ lst, e.tie ≠ (revoker, ts, hop) := fun e he hv => hex ⟨e, he, hv⟩
    have hle := lower_bound_le lst (revoker, ts, hop)
    have hS2 : blacklistAscending (lst.take (lower_bound lst (revoker, ts, hop))
        ++ (⟨revoker, ts, hop, now⟩ : blacklist_entry)
          :: lst.drop (lower_bound lst (revoker, ts, hop))) :=
      insert_at_lower_bound lst ⟨revoker, ts, hop, now⟩ hS hno
    have hat : (lst.take (lower_bound lst (revoker, ts, hop))
        ++ (⟨revoker, ts, hop, now⟩ : blacklist_entry)
          :: lst.drop (lower_bound lst (revoker, ts, hop)))[lower_bound lst (revoker, ts, hop)]?
        = some ⟨revoker, ts, hop, now⟩ := by
      rw [List.getElem?_append_right (by rw [List.length_take]; omega), List.length_take,
        Nat.min_eq_left hle, Nat.sub_self]
      simp
    have hmem : (⟨revoker, ts, hop, now⟩ : blacklist_entry)
        ∈ lst.take (lower_bound lst (revoker, ts, hop))
          ++ (⟨revoker, ts, hop, now⟩ : blacklist_entry)
            :: lst.drop (lower_bound lst (revoker, ts, hop)) := by
      simp
    refine ⟨_, _, _, emplace_fresh lst now revoker ts hop hno, ?_, fun _ => ⟨rfl, hle⟩, ?_,
      ⟨_, hat, rfl⟩, ((blacklistAscending_iff _).mp hS2).1,
      ((blacklistAscending_iff _).mp hS2).2, ?_⟩
    · simp only [true_iff]
      exact hno
    · intro h
      exact absurd h (by simp)
    · intro now'
      have hp := emplace_present _ now' revoker ts hop hS2 ⟨revoker, ts, hop, now⟩ hmem rfl
      have hf := lower_bound_finds _ (revoker, ts, hop) hS2 ⟨revoker, ts, hop, now⟩ hmem rfl
      have hlt : lower_bound lst (revoker, ts, hop)
          < (lst.take (lower_bound lst (revoker, ts, hop))
            ++ (⟨revoker, ts, hop, now⟩ : blacklist_entry)
              :: lst.drop (lower_bound lst (revoker, ts, hop))).length := by
        simp
        omega
      have := List.getElem?_inj hlt (ascending_nodup _ hS2) (hat.trans hf.symm)
      rw [hp, ← this]

theorem emplace_deduplicates_witness :
    blacklistSorted [⟨1, 2, 3, 0⟩, ⟨1, 3, 2, 0⟩, ⟨2, 1, 1, 0⟩] ∧
    blacklistDupFree [⟨1, 2, 3, 0⟩, ⟨1, 3, 2, 0⟩, ⟨2, 1, 1, 0⟩] ∧
    ∃ l i b, emplace [⟨1, 2, 3, 0⟩, ⟨1, 3, 2, 0⟩, ⟨2, 1, 1, 0⟩] 9 1 3 1 = (l, i, b) ∧
      (b = true ↔ ∀ e ∈ ([⟨1, 2, 3, 0⟩, ⟨1, 3, 2, 0⟩, ⟨2, 1, 1, 0⟩] : blacklist),
        e.tie ≠ (1, 3, 1)) ∧
      (b = true → l = ([⟨1, 2, 3, 0⟩, ⟨1, 3, 2, 0⟩, ⟨2, 1, 1, 0⟩] : blacklist).take i
        ++ ⟨1, 3, 1, 9⟩ :: ([⟨1, 2, 3, 0⟩, ⟨1, 3, 2, 0⟩, ⟨2, 1, 1, 0⟩] : blacklist).drop i
        ∧ i ≤ ([⟨1, 2, 3, 0⟩, ⟨1, 3, 2, 0⟩, ⟨2, 1, 1, 0⟩] : blacklist).length) ∧
      (b = false → l = [⟨1, 2, 3, 0⟩, ⟨1, 3, 2, 0⟩, ⟨2, 1, 1, 0⟩]) ∧
      (∃ e, l[i]? = some e ∧ e.tie = (1, 3, 1)) ∧
      blacklistSorted l ∧ blacklistDupFree l ∧
      ∀ now', emplace l now' 1 3 1 = (l, i, false) :=
  ⟨by decide, by decide,
    emplace_deduplicates [⟨1, 2, 3, 0⟩, ⟨1, 3, 2, 0⟩, ⟨2, 1, 1, 0⟩] 9 1 3 1
      (by decide) (by decide)⟩

/-! ## The operations only delete -/

theorem onlyDeleted_refl (tbl : routing_table) : onlyDeleted tbl tbl :=
  fun e he => ⟨e, he, rfl, List.Sublist.refl _⟩

theorem onlyDeleted_trans (a b c : routing_table) (h1 : onlyDeleted a b)
    (h2 : onlyDeleted b c) : onlyDeleted a c := by
  intro e'' he''
  obtain ⟨e', he', hk', hs'⟩ := h2 e'' he''
  obtain ⟨e, he, hk, hs⟩ := h1 e' he'
  exact ⟨e, he, hk.trans hk', hs'.trans hs⟩

theorem onlyDeleted_impl (t : routing_table) (q : List endpoint_id) (peer : endpoint_id) :
    onlyDeleted t (impl t q peer).1 := by
  intro e' he'
  obtain ⟨e, he, _, rfl⟩ := (mem_impl_fst t q peer e').mp he'
  exact ⟨e, he, rfl, List.filter_sublist _⟩

theorem onlyDeleted_erase (tbl : routing_table) (whom : endpoint_id) (fuel : Nat)
    (r : routing_table × List endpoint_id) (hr : erase fuel tbl whom = some r) :
    onlyDeleted tbl r.1 := by
  refine eraseLoop_invariant (fun t _ _ => onlyDeleted tbl t) ?_ fuel _ _ _ r ?_ hr
  · intro t q calls peer h _
    exact onlyDeleted_trans tbl t _ h (onlyDeleted_impl t _ peer)
  · exact onlyDeleted_impl tbl [] whom

theorem onlyDeleted_erase_direct (tbl : routing_table) (whom : endpoint_id)
    (hne : pathsNonEmpty tbl = true) :
    ∃ r, erase_direct tbl whom = some r ∧ onlyDeleted tbl r.2.1 := by
  rw [erase_direct_eq tbl whom hne]
  by_cases hk : whom ∈ keys tbl
  · rw [if_pos hk, map_keepDirect_resetHandle]
    refine ⟨_, rfl, ?_⟩
    intro e' he'
    obtain ⟨e, he, rfl⟩ := List.mem_map.mp (List.mem_filter.mp he').1
    refine ⟨e, he, (directEntry_fst whom e).symm, ?_⟩
    rw [directEntry_paths]
    exact List.filter_sublist _
  · rw [if_neg hk]
    exact ⟨_, rfl, onlyDeleted_refl tbl⟩

theorem onlyDeleted_revoke (tbl : routing_table) (revoker : endpoint_id)
    (ts : lamport_timestamp) (hop : endpoint_id) (hts : timestampsMatch tbl = true) :
    ∃ r, revoke revoker ts hop tbl = some r ∧ onlyDeleted tbl r.1 := by
  refine ⟨_, revoke_eq revoker ts hop tbl hts, ?_⟩
  intro e' he'
  obtain ⟨e, he, rfl⟩ := List.mem_map.mp (List.mem_filter.mp he').1
  exact ⟨e, he, rfl, List.filter_sublist _⟩

theorem pathListWellFormed_sublist (l' l : List versioned_path_type) (hs : l'.Sublist l)
    (h : pathListWellFormed l) : pathListWellFormed l' :=
  ⟨fun vp hvp => h.1 vp (hs.subset hvp), h.2.1.sublist hs, h.2.2.sublist (hs.map Prod.fst)⟩

theorem wellFormed_of_onlyDeleted (tbl t : routing_table) (hd : onlyDeleted tbl t)
    (h : ∀ e ∈ tbl, pathListWellFormed e.2.versioned_paths) :
    ∀ e ∈ t, pathListWellFormed e.2.versioned_paths := by
  intro e' he'
  obtain ⟨e, he, _, hs⟩ := hd e' he'
  exact pathListWellFormed_sublist _ _ hs (h e he)

/-- C13: `erase`, `erase_direct` and `revoke` only delete.  On a table with non-empty paths
and timestamp vectors of the length of their paths each of them returns, every row of the
resulting table belongs to a peer that had a row before, and its (path, timestamp) pairs were
in that row in the same relative order; so if every path list was loop-free, sorted by
`path_less` and free of duplicate paths before the call, it is afterwards. -/
theorem routing_operations_only_delete (tbl : routing_table) (whom revoker : endpoint_id)
    (ts : lamport_timestamp) (hop : endpoint_id)
    (hne : pathsNonEmpty tbl = true) (hts : timestampsMatch tbl = true) :
    (∃ r, erase tbl.length tbl whom = some r ∧ onlyDeleted tbl r.1 ∧
      ((∀ e ∈ tbl, pathListWellFormed e.2.versioned_paths) →
        ∀ e ∈ r.1, pathListWellFormed e.2.versioned_paths)) ∧
    (∃ r, erase_direct tbl whom = some r ∧ onlyDeleted tbl r.2.1 ∧
      ((∀ e ∈ tbl, pathListWellFormed e.2.versioned_paths) →
        ∀ e ∈ r.2.1, pathListWellFormed e.2.versioned_paths)) ∧
    (∃ r, revoke revoker ts hop tbl = some r ∧ onlyDeleted tbl r.1 ∧
      ((∀ e ∈ tbl, pathListWellFormed e.2.versioned_paths) →
        ∀ e ∈ r.1, pathListWellFormed e.2.versioned_paths)) := by
  refine ⟨?_, ?_, ?_⟩
  · obtain ⟨r, hr, _⟩ := erase_terminates tbl whom
    have hd := onlyDeleted_erase tbl whom _ r hr
    exact ⟨r, hr, hd, wellFormed_of_onlyDeleted tbl r.1 hd⟩
  · obtain ⟨r, hr, hd⟩ := onlyDeleted_erase_direct tbl whom hne
    exact ⟨r, hr, hd, wellFormed_of_onlyDeleted tbl r.2.1 hd⟩
  · obtain ⟨r, hr, hd⟩ := onlyDeleted_revoke tbl revoker ts hop hts
    exact ⟨r, hr, hd, wellFormed_of_onlyDeleted tbl r.1 hd⟩

theorem routing_operations_only_delete_witness :
    pathsNonEmpty relayTable = true ∧ timestampsMatch relayTable = true ∧
    ((∃ r, erase relayTable.length relayTable 1 = some r ∧ onlyDeleted relayTable r.1 ∧
      ((∀ e ∈ relayTable, pathListWellFormed e.2.versioned_paths) →
        ∀ e ∈ r.1, pathListWellFormed e.2.versioned_paths)) ∧
    (∃ r, erase_direct relayTable 1 = some r ∧ onlyDeleted relayTable r.2.1 ∧
      ((∀ e ∈ relayTable, pathListWellFormed e.2.versioned_paths) →
        ∀ e ∈ r.2.1, pathListWellFormed e.2.versioned_paths)) ∧
    (∃ r, revoke 1 5 2 relayTable = some r ∧ onlyDeleted relayTable r.1 ∧
      ((∀ e ∈ relayTable, pathListWellFormed e.2.versioned_paths) →
        ∀ e ∈ r.1, pathListWellFormed e.2.versioned_paths))) :=
  ⟨by decide, by decide,
    routing_operations_only_delete relayTable 1 1 5 2 (by decide) (by decide)⟩

/-! ## Reachability of the remaining rows -/

/-- C14, as stated, fails: every row of `shortcutTable` has a direct handle or a path of
length 2 ending in its peer, and `erase`, `erase_direct` and `revoke` each leave the row of
peer 2 with no handle and the one-hop path `[2]` only. -/
theorem operations_leave_row_without_long_path :
    tableReachable shortcutTable = true ∧
    erase 2 shortcutTable 1 = some ([(2, ⟨none, [([2], [1])]⟩)], []) ∧
    erase_direct shortcutTable 1 = some (true, [(2, ⟨none, [([2], [1])]⟩)], [1]) ∧
    revoke 1 5 2 shortcutTable
      = some ([(1, ⟨some 1, [([1], [1])]⟩), (2, ⟨none, [([2], [1])]⟩)], []) ∧
    rowReachable (2, ⟨none, [([2], [1])]⟩) = false := by
  decide

theorem onlyDeletedPaths_trans (a b c : routing_table) (h1 : onlyDeletedPaths a b)
    (h2 : onlyDeletedPaths b c) : onlyDeletedPaths a c := by
  intro e'' he''
  obtain ⟨e', he', hk', hh', hs'⟩ := h2 e'' he''
  obtain ⟨e, he, hk, hh, hs⟩ := h1 e' he'
  exact ⟨e, he, hk.trans hk', hh.trans hh', hs'.trans hs⟩

theorem onlyDeletedPaths_impl (t : routing_table) (q : List endpoint_id) (peer : endpoint_id) :
    onlyDeletedPaths t (impl t q peer).1 := by
  intro e' he'
  obtain ⟨e, he, _, rfl⟩ := (mem_impl_fst t q peer e').mp he'
  exact ⟨e, he, rfl, rfl, List.filter_sublist _⟩

/-- What `erase` leaves: rows of the input with some paths deleted, and a row without paths
only if it was such a row of the input. -/
theorem erase_rows (tbl : routing_table) (whom : endpoint_id) (fuel : Nat)
    (r : routing_table × List endpoint_id) (hr : erase fuel tbl whom = some r) :
    onlyDeletedPaths tbl r.1 ∧ ∀ e ∈ r.1, e.2.versioned_paths = [] → e ∈ tbl := by
  have key := eraseLoop_invariant
    (fun t q _ => onlyDeletedPaths tbl t ∧
      ∀ e ∈ t, e.2.versioned_paths = [] → e ∈ tbl ∨ e.1 ∈ q)
    ?_ fuel _ _ _ r ?_ hr
  · exact ⟨key.1, fun e he hE => (key.2 e he hE).resolve_right (by simp)⟩
  · rintro t q calls peer ⟨h1, h2⟩ hl
    refine ⟨onlyDeletedPaths_trans tbl t _ h1 (onlyDeletedPaths_impl t _ peer), ?_⟩
    intro e' he' hE
    rcases impl_empty_row t _ peer e' he' hE with ⟨het, hne⟩ | hq
    · rcases h2 e' het hE with h | h
      · exact Or.inl h
      · right
        exact (mem_impl_snd t _ peer _).mpr (Or.inl (mem_dropLast_of_ne q peer _ hl h hne))
    · exact Or.inr hq
  · refine ⟨onlyDeletedPaths_impl tbl [] whom, ?_⟩
    intro e' he' hE
    rcases impl_empty_row tbl _ whom e' he' hE with ⟨het, _⟩ | hq
    · exact Or.inl het
    · exact Or.inr hq

theorem rowReachable_of_path (e : endpoint_id × routing_table_row) (vp : versioned_path_type)
    (hvp : vp ∈ e.2.versioned_paths) (hlen : 2 ≤ vp.1.length)
    (hend : vp.1.getLast? = some e.1) : rowReachable e = true := by
  unfold rowReachable
  rw [Bool.or_eq_true, List.any_eq_true]
  right
  exact ⟨vp, hvp, by simp [hlen, hend]⟩

theorem pathsEndAtPeer_iff (tbl : routing_table) :
    pathsEndAtPeer tbl = true ↔
      ∀ e ∈ tbl, ∀ vp ∈ e.2.versioned_paths, vp.1.getLast? = some e.1 := by
  simp [pathsEndAtPeer]

theorem indirectPathsLong_iff (tbl : routing_table) :
    indirectPathsLong tbl = true ↔
      ∀ e ∈ tbl, e.2.hdl = none → ∀ vp ∈ e.2.versioned_paths, 2 ≤ vp.1.length := by
  unfold indirectPathsLong
  simp only [List.all_eq_true, Bool.or_eq_true, decide_eq_true_eq]
  constructor
  · intro h e he hn vp hvp
    rcases h e he with h1 | h1
    · rw [hn] at h1
      simp at h1
    · exact h1 vp hvp
  · intro h e he
    cases hh : e.2.hdl with
    | some a => left; rfl
    | none => right; exact h e he hh

theorem pathsNonEmpty_of_endAtPeer (tbl : routing_table) (h : pathsEndAtPeer tbl = true) :
    pathsNonEmpty tbl = true := by
  rw [pathsNonEmpty_iff]
  intro e he vp hvp hnil
  have := (pathsEndAtPeer_iff tbl).mp h e he vp hvp
  rw [hnil] at this
  exact Option.noConfusion this

/-- A row that comes from a row of `tbl` by deleting paths, has no handle and still holds a
path is reachable through a path of length at least 2. -/
theorem rowReachable_of_deleted (tbl : routing_table) (hend : pathsEndAtPeer tbl = true)
    (hlong : indirectPathsLong tbl = true) (e' : endpoint_id × routing_table_row)
    (e : endpoint_id × routing_table_row) (he : e ∈ tbl) (hk : e.1 = e'.1)
    (hh : e.2.hdl = e'.2.hdl) (hs : e'.2.versioned_paths.Sublist e.2.versioned_paths)
    (hne : e'.2.versioned_paths ≠ []) : rowReachable e' = true := by
  cases hhdl : e'.2.hdl with
  | some a => simp [rowReachable, hhdl]
  | none =>
    obtain ⟨vp, hvp⟩ := List.exists_mem_of_ne_nil _ hne
    have hvp' := hs.subset hvp
    refine rowReachable_of_path e' vp hvp
      ((indirectPathsLong_iff tbl).mp hlong e he (hh.trans hhdl) vp hvp') ?_
    rw [← hk]
    exact (pathsEndAtPeer_iff tbl).mp hend e he vp hvp'

theorem tableReachable_iff (tbl : routing_table) :
    tableReachable tbl = true ↔ ∀ e ∈ tbl, rowReachable e = true := by
  simp [tableReachable]

theorem directEntry_hdl_of_ne (whom : endpoint_id) (e : endpoint_id × routing_table_row)
    (h : e.1 ≠ whom) : (directEntry whom e).2.hdl = e.2.hdl := by
  unfold directEntry keepDirect
  rw [if_neg h]

theorem two_le_length_of_last_ne_head (l : path_type) (w : endpoint_id)
    (hlast : l.getLast? = some w) (hhead : l.head? ≠ some w) : 2 ≤ l.length := by
  match l, hlast, hhead with
  | [], hlast, _ => exact Option.noConfusion hlast
  | [a], hlast, hhead => exact absurd hlast hhead
  | _ :: _ :: _, _, _ => simp

/-- C14, amended: if every path ends in the peer of its row, every path in a row without a
direct handle has at least 2 hops, and every row has a direct handle or some path of length at
least 2 ending in its peer, then `erase`, `erase_direct` and `revoke` return and every row
remaining in the table has a direct handle or some path of length at least 2 ending in its
peer. -/
theorem operations_keep_rows_reachable (tbl : routing_table) (whom revoker : endpoint_id)
    (ts : lamport_timestamp) (hop : endpoint_id)
    (hts : timestampsMatch tbl = true) (hend : pathsEndAtPeer tbl = true)
    (hlong : indirectPathsLong tbl = true) (hreach : tableReachable tbl = true) :
    (∃ r, erase tbl.length tbl whom = some r ∧ tableReachable r.1 = true) ∧
    (∃ r, erase_direct tbl whom = some r ∧ tableReachable r.2.1 = true) ∧
    (∃ r, revoke revoker ts hop tbl = some r ∧ tableReachable r.1 = true) := by
  have hreach' := (tableReachable_iff tbl).mp hreach
  refine ⟨?_, ?_, ?_⟩
  · obtain ⟨r, hr, _⟩ := erase_terminates tbl whom
    obtain ⟨hd, hempty⟩ := erase_rows tbl whom _ r hr
    refine ⟨r, hr, (tableReachable_iff r.1).mpr ?_⟩
    intro e' he'
    by_cases hE : e'.2.versioned_paths = []
    · exact hreach' e' (hempty e' he' hE)
    · obtain ⟨e, he, hk, hh, hs⟩ := hd e' he'
      exact rowReachable_of_deleted tbl hend hlong e' e he hk hh hs hE
  · rw [erase_direct_eq tbl whom (pathsNonEmpty_of_endAtPeer tbl hend)]
    by_cases hk : whom ∈ keys tbl
    · rw [if_pos hk, map_keepDirect_resetHandle]
      refine ⟨_, rfl, (tableReachable_iff _).mpr ?_⟩
      intro e' he'
      obtain ⟨he1, he2⟩ := List.mem_filter.mp he'
      obtain ⟨e, he, rfl⟩ := List.mem_map.mp he1
      have hE : (directEntry whom e).2.versioned_paths ≠ [] := by simpa using he2
      by_cases hw : e.1 = whom
      · obtain ⟨vp, hvp⟩ := List.exists_mem_of_ne_nil _ hE
        have hvp' := hvp
        rw [directEntry_paths, List.mem_filter] at hvp'
        have hlast := (pathsEndAtPeer_iff tbl).mp hend e he vp hvp'.1
        refine rowReachable_of_path _ vp hvp ?_ (by rw [directEntry_fst]; exact hlast)
        refine two_le_length_of_last_ne_head vp.1 e.1 hlast ?_
        rw [hw]
        simpa [firstHopIs] using hvp'.2
      · refine rowReachable_of_deleted tbl hend hlong _ e he (directEntry_fst whom e).symm
          (directEntry_hdl_of_ne whom e hw).symm ?_ hE
        rw [directEntry_paths]
        exact List.filter_sublist _
    · rw [if_neg hk]
      exact ⟨_, rfl, hreach⟩
  · refine ⟨_, revoke_eq revoker ts hop tbl hts, (tableReachable_iff _).mpr ?_⟩
    intro e' he'
    obtain ⟨he1, he2⟩ := List.mem_filter.mp he'
    obtain ⟨e, he, rfl⟩ := List.mem_map.mp he1
    exact rowReachable_of_deleted tbl hend hlong _ e he rfl rfl (List.filter_sublist _)
      (by simpa using he2)

theorem operations_keep_rows_reachable_witness :
    timestampsMatch relayTable = true ∧ pathsEndAtPeer relayTable = true ∧
    indirectPathsLong relayTable = true ∧ tableReachable relayTable = true ∧
    ((∃ r, erase relayTable.length relayTable 1 = some r ∧ tableReachable r.1 = true) ∧
    (∃ r, erase_direct relayTable 1 = some r ∧ tableReachable r.2.1 = true) ∧
    (∃ r, revoke 1 5 2 relayTable = some r ∧ tableReachable r.1 = true)) :=
  ⟨by decide, by decide, by decide, by decide,
    operations_keep_rows_reachable relayTable 1 1 5 2
      (by decide) (by decide) (by decide) (by decide)⟩

/-! ## `blacklisted` and the revocation time -/

theorem blacklistedLoop_mono (path : path_type) (path_ts : vector_timestamp)
    (revoker hop : endpoint_id) (t t' : Nat) (ht : t ≤ t') (remaining index : Nat) :
    (blacklistedLoop path path_ts revoker t hop index remaining = some none →
      blacklistedLoop path path_ts revoker t' hop index remaining = some none) ∧
    (blacklistedLoop path path_ts revoker t hop index remaining = some (some true) →
      blacklistedLoop path path_ts revoker t' hop index remaining = some (some true)) := by
  induction remaining generalizing index with
  | zero => simp [blacklistedLoop]
  | succ n ih =>
    unfold blacklistedLoop
    cases h0 : path[index]? with
    | none => simp
    | some p =>
      by_cases hp : p = revoker
      · simp only [hp, if_true]
        cases path_ts[index]? <;> cases path[index - 1]? <;> cases path[index + 1]? <;>
          simp
        intro h1 h2
        exact ⟨le_trans h1 ht, h2⟩
      · simp only [hp, if_false]
        exact ih (index + 1)

theorem blacklisted_mono (path : path_type) (path_ts : vector_timestamp)
    (revoker hop : endpoint_id) (t t' : Nat) (ht : t ≤ t')
    (h : blacklisted path path_ts revoker t hop = some true) :
    blacklisted path path_ts revoker t' hop = some true := by
  unfold blacklisted at h ⊢
  by_cases h1 : path.length ≠ path_ts.length
  · rw [if_pos h1] at h
    exact absurd h (by simp)
  · rw [if_neg h1] at h ⊢
    by_cases h2 : path.length ≤ 1
    · rw [if_pos h2] at h
      exact absurd h (by simp)
    · rw [if_neg h2] at h ⊢
      by_cases h3 : path.head? = some revoker
      · rw [if_pos h3] at h ⊢
        revert h
        cases path_ts.head? <;> cases path[1]? <;> simp
        intro h4 h5
        exact ⟨le_trans h4 ht, h5⟩
      · rw [if_neg h3] at h ⊢
        have hm := blacklistedLoop_mono path path_ts revoker hop t t' ht
          (path.length - 1 - 1) 1
        revert h
        cases hl : blacklistedLoop path path_ts revoker t hop 1 (path.length - 1 - 1) with
        | none => simp
        | some r =>
          cases r with
          | none =>
            rw [hm.1 hl]
            simp only []
            by_cases h4 : path.getLast? = some revoker
            · simp only [h4, if_true]
              cases path_ts.getLast? <;> cases path[path.length - 2]? <;> simp
              intro h5 h6
              exact ⟨le_trans h5 ht, h6⟩
            · simp only [h4, if_false]
              simp
          | some b =>
            simp only []
            intro hb
            have hb2 : b = true := by simpa using hb
            subst hb2
            rw [hm.2 hl]

theorem revokeEntry_paths_sublist (revoker hop : endpoint_id) (t t' : Nat) (ht : t ≤ t')
    (e : endpoint_id × routing_table_row) :
    (revokeEntry revoker t' hop e).2.versioned_paths.Sublist
      (revokeEntry revoker t hop e).2.versioned_paths := by
  unfold revokeEntry
  apply List.monotone_filter_right
  intro vp hvp
  cases h : revoked revoker t hop vp with
  | false => rfl
  | true =>
    have h2 : revoked revoker t' hop vp = true := by
      unfold revoked at h ⊢
      rw [beq_iff_eq] at h ⊢
      exact blacklisted_mono vp.1 vp.2 revoker hop t t' ht h
    rw [h2] at hvp
    exact absurd hvp (by simp)

/-- C35: for a path with a timestamp vector of its length `blacklisted` returns for both
revocation times, and when it returns `true` for `t` it returns `true` for every `t'` with
`t ≤ t'`; on a table whose timestamp vectors have the length of their paths `revoke` with `t'`
removes what `revoke` with `t` removes: every row left by the later time belongs to a peer
with a row left by the earlier time that holds all its paths, and every peer reported with
the earlier time is reported with the later one. -/
theorem blacklisted_monotone_in_revocation_time (tbl : routing_table) (path : path_type)
    (path_ts : vector_timestamp) (revoker hop : endpoint_id) (t t' : lamport_timestamp)
    (hlen : path.length = path_ts.length) (ht : t ≤ t') (hm : timestampsMatch tbl = true) :
    (∃ b b', blacklisted path path_ts revoker t hop = some b ∧
      blacklisted path path_ts revoker t' hop = some b' ∧ (b = true → b' = true)) ∧
    ∃ r r', revoke revoker t hop tbl = some r ∧ revoke revoker t' hop tbl = some r' ∧
      onlyDeleted r.1 r'.1 ∧ ∀ p ∈ r.2, p ∈ r'.2 := by
  constructor
  · obtain ⟨b, hb⟩ := blacklisted_isSome path path_ts revoker t hop hlen
    obtain ⟨b', hb'⟩ := blacklisted_isSome path path_ts revoker t' hop hlen
    refine ⟨b, b', hb, hb', ?_⟩
    intro h
    subst h
    have := blacklisted_mono path path_ts revoker hop t t' ht hb
    rw [hb'] at this
    exact Option.some.inj this
  · refine ⟨_, _, revoke_eq revoker t hop tbl hm, revoke_eq revoker t' hop tbl hm, ?_, ?_⟩
    · intro e' he'
      simp only [List.mem_filter, List.mem_map] at he'
      obtain ⟨⟨e0, he0, rfl⟩, hne⟩ := he'
      have hsub := revokeEntry_paths_sublist revoker hop t t' ht e0
      refine ⟨revokeEntry revoker t hop e0, ?_, rfl, hsub⟩
      simp only [List.mem_filter, List.mem_map]
      refine ⟨⟨e0, he0, rfl⟩, ?_⟩
      cases hp : (revokeEntry revoker t hop e0).2.versioned_paths with
      | nil =>
        rw [hp] at hsub
        rw [List.sublist_nil] at hsub
        rw [hsub] at hne
        simp at hne
      | cons a l => simp
    · intro p hp
      simp only [List.mem_filter, List.mem_map] at hp ⊢
      obtain ⟨e, ⟨⟨e0, he0, rfl⟩, hempty⟩, rfl⟩ := hp
      refine ⟨revokeEntry revoker t' hop e0, ⟨⟨e0, he0, rfl⟩, ?_⟩, rfl⟩
      have hsub := revokeEntry_paths_sublist revoker hop t t' ht e0
      rw [List.isEmpty_iff] at hempty ⊢
      rw [hempty] at hsub
      exact List.sublist_nil.mp hsub

theorem blacklisted_monotone_in_revocation_time_witness :
    [1, 2, 3].length = [4, 6, 4].length ∧ 5 ≤ 7 ∧ timestampsMatch timedTable = true ∧
    (∃ b b', blacklisted [1, 2, 3] [4, 6, 4] 1 5 2 = some b ∧
      blacklisted [1, 2, 3] [4, 6, 4] 1 7 2 = some b' ∧ (b = true → b' = true)) ∧
    ∃ r r', revoke 1 5 2 timedTable = some r ∧ revoke 1 7 2 timedTable = some r' ∧
      onlyDeleted r.1 r'.1 ∧ ∀ p ∈ r.2, p ∈ r'.2 :=
  ⟨by decide, by decide, by decide,
    blacklisted_monotone_in_revocation_time timedTable [1, 2, 3] [4, 6, 4] 1 2 5 7
      (by decide) (by decide) (by decide)⟩

/-- On `timedTable` the revocation of the link between 1 and 2 at time 5 removes the path
`[1, 2, 3]` only; at time 7 it removes also the path `[1, 2]`, and with it the row of peer 2. -/
theorem revoke_timedTable :
    revoke 1 5 2 timedTable
      = some ([(1, ⟨some 1, [([1], [7])]⟩), (2, ⟨none, [([1, 2], [6, 1])]⟩),
          (3, ⟨none, [([1, 3], [7, 1])]⟩)], []) ∧
    revoke 1 7 2 timedTable
      = some ([(1, ⟨some 1, [([1], [7])]⟩), (3, ⟨none, [([1, 3], [7, 1])]⟩)], [2]) := by
  decide

/-! ## The rows that `erase_direct` leaves alone -/

/-- C36 as stated fails: in `emptyRowTable` the row of peer 2 has no path with first hop 1,
and `erase_direct` for peer 1 reports peer 2 through `on_remove` and erases its row. -/
theorem erase_direct_erases_row_without_paths :
    erase_direct emptyRowTable 1 = some (true, [], [1, 2]) ∧
    ((2, ⟨some 2, []⟩) : endpoint_id × routing_table_row) ∈ emptyRowTable ∧
    (2 : endpoint_id) ≠ 1 ∧
    (∀ vp ∈ (⟨some 2, []⟩ : routing_table_row).versioned_paths, vp.1.head? ≠ some 1) ∧
    ((2, ⟨some 2, []⟩) : endpoint_id × routing_table_row) ∉ ([] : routing_table) ∧
    (2 : endpoint_id) ∈ [1, 2] := by
  refine ⟨by decide, by decide, by decide, ?_, by simp, by decide⟩
  intro vp hvp
  simp at hvp

theorem directEntry_eq_self (whom : endpoint_id) (e : endpoint_id × routing_table_row)
    (hk : e.1 ≠ whom) (hp : ∀ vp ∈ e.2.versioned_paths, vp.1.head? ≠ some whom) :
    directEntry whom e = e := by
  unfold directEntry keepDirect
  rw [if_neg hk]
  have hf : e.2.versioned_paths.filter (fun vp => !firstHopIs whom vp)
      = e.2.versioned_paths := by
    rw [List.filter_eq_self]
    intro vp hvp
    have := hp vp hvp
    simp [firstHopIs, this]
  rw [hf]

/-- C36, amended: on a table with unique keys whose paths are all non-empty, `erase_direct`
returns, and every row of a peer other than `whom` that holds at least one path and no path
with `whom` as first hop is in the table afterwards, with its handle and its paths, and its
peer is not reported through `on_remove`. -/
theorem erase_direct_leaves_unaffected_rows (tbl : routing_table) (whom : endpoint_id)
    (hu : keysUnique tbl) (hne : pathsNonEmpty tbl = true) :
    ∃ b t calls, erase_direct tbl whom = some (b, t, calls) ∧
      ∀ e ∈ tbl, e.1 ≠ whom → e.2.versioned_paths ≠ [] →
        (∀ vp ∈ e.2.versioned_paths, vp.1.head? ≠ some whom) → e ∈ t ∧ e.1 ∉ calls := by
  rw [erase_direct_eq tbl whom hne]
  by_cases hrow : whom ∈ keys tbl
  · rw [if_pos hrow, map_keepDirect_resetHandle]
    refine ⟨_, _, _, rfl, ?_⟩
    intro e he hk hpaths hp
    have hself := directEntry_eq_self whom e hk hp
    constructor
    · simp only [List.mem_filter, List.mem_map]
      refine ⟨⟨e, he, hself⟩, ?_⟩
      cases hl : e.2.versioned_paths with
      | nil => exact absurd hl hpaths
      | cons a l => simp
    · intro hc
      simp only [List.mem_map, List.mem_filter] at hc
      obtain ⟨e1, ⟨⟨e0, he0, rfl⟩, hempty⟩, hkey⟩ := hc
      rw [directEntry_fst] at hkey
      have heq : e0 = e := eq_of_keys_nodup tbl hu e0 e he0 he hkey
      subst heq
      rw [hself] at hempty
      rw [List.isEmpty_iff] at hempty
      exact hpaths hempty
  · rw [if_neg hrow]
    refine ⟨_, _, _, rfl, ?_⟩
    intro e he _ _ _
    exact ⟨he, by simp⟩

theorem erase_direct_leaves_unaffected_rows_witness :
    keysUnique sampleTable ∧ pathsNonEmpty sampleTable = true ∧
    ∃ b t calls, erase_direct sampleTable 1 = some (b, t, calls) ∧
      ∀ e ∈ sampleTable, e.1 ≠ 1 → e.2.versioned_paths ≠ [] →
        (∀ vp ∈ e.2.versioned_paths, vp.1.head? ≠ some 1) → e ∈ t ∧ e.1 ∉ calls :=
  ⟨by decide, by decide,
    erase_direct_leaves_unaffected_rows sampleTable 1 (by decide) (by decide)⟩

/-- On `sampleTable` the loss of the link to peer 1 leaves the row of peer 4 as it is; the
row of peer 1 loses its handle and its path, the row of peer 2 its only path, and the rows of
the peers 3 and 5 lose the path with first hop 1. -/
theorem erase_direct_sampleTable :
    erase_direct sampleTable 1
      = some (true,
          [(3, ⟨none, [([2, 3], [1, 1])]⟩),
           (4, ⟨some 4, [([4], [1]), ([3, 4], [1, 1])]⟩),
           (5, ⟨none, [([4, 3, 5], [1, 1, 1])]⟩)],
          [1, 2]) := by
  decide

end broker.alm

/-! ## The builders -/

namespace broker

theorem list_builder_fold {α : Type} (fmt : bin_v1 α) (xs : List (builder_value α))
    (b : builder_state) (h : b.size_ + xs.length < 2 ^ 64) :
    (xs.foldl (list_builder.add fmt) b).size_ = b.size_ + xs.length ∧
    (xs.foldl (list_builder.add fmt) b).bytes_
      = b.bytes_ ++ (xs.map (detail.builder_access.written fmt)).flatten := by
  induction xs generalizing b with
  | nil => simp
  | cons x rest ih =>
    rw [List.length_cons] at h
    have hs : (list_builder.add fmt b x).size_ = b.size_ + 1 := by
      simp only [list_builder.add, detail.builder_access.add, builder_state.incr_size]
      exact Nat.mod_eq_of_lt (by omega)
    have hb : (list_builder.add fmt b x).bytes_
        = b.bytes_ ++ detail.builder_access.written fmt x := rfl
    obtain ⟨h1, h2⟩ := ih (list_builder.add fmt b x) (by rw [hs]; omega)
    rw [List.foldl_cons, h1, h2, hs, hb]
    simp
    omega

/-- C16: for every sequence `x1..xn` of values that are not tuples, with `n` in the range of
`size_t`, a fresh `list_builder` after `add(x1)`…`add(xn)` has `num_values() = n`, its buffer
holds, behind what the constructor put there, the bytes written for `x1..xn` concatenated in
call order, and these are its encoded element bytes; handed to another builder it is written
as the vector sequence of these `n` values. -/
theorem list_builder_add_preserves_order {α : Type} (fmt : bin_v1 α)
    (header : builder_buffer) (xs : List (builder_value α)) (hn : xs.length < 2 ^ 64) :
    (xs.foldl (list_builder.add fmt) (fresh_builder header)).num_values = xs.length ∧
    (xs.foldl (list_builder.add fmt) (fresh_builder header)).bytes_
      = header ++ (xs.map (detail.builder_access.written fmt)).flatten ∧
    (xs.foldl (list_builder.add fmt) (fresh_builder header)).encoded_values header
      = (xs.map (detail.builder_access.written fmt)).flatten ∧
    detail.builder_access.written fmt
        (list_builder.as_value fmt header
          (xs.foldl (list_builder.add fmt) (fresh_builder header)))
      = fmt.write_sequence fmt.vector_tag xs.length
          (xs.map (detail.builder_access.written fmt)).flatten := by
  obtain ⟨h1, h2⟩ := list_builder_fold fmt xs (fresh_builder header)
    (by simpa [fresh_builder] using hn)
  have hnum : (xs.foldl (list_builder.add fmt) (fresh_builder header)).num_values
      = xs.length := by
    rw [builder_state.num_values, h1]
    simp [fresh_builder]
  have henc : (xs.foldl (list_builder.add fmt) (fresh_builder header)).encoded_values header
      = (xs.map (detail.builder_access.written fmt)).flatten := by
    rw [builder_state.encoded_values, h2]
    simp [fresh_builder]
  refine ⟨hnum, h2, henc, ?_⟩
  rw [list_builder.as_value, hnum, henc]
  rfl

theorem list_builder_add_preserves_order_witness :
    sampleValues.length < 2 ^ 64 ∧
    ((sampleValues.foldl (list_builder.add sampleCodec) (fresh_builder [0, 0])).num_values
      = sampleValues.length ∧
    (sampleValues.foldl (list_builder.add sampleCodec) (fresh_builder [0, 0])).bytes_
      = [0, 0] ++ (sampleValues.map (detail.builder_access.written sampleCodec)).flatten ∧
    (sampleValues.foldl (list_builder.add sampleCodec)
        (fresh_builder [0, 0])).encoded_values [0, 0]
      = (sampleValues.map (detail.builder_access.written sampleCodec)).flatten ∧
    detail.builder_access.written sampleCodec
        (list_builder.as_value sampleCodec [0, 0]
          (sampleValues.foldl (list_builder.add sampleCodec) (fresh_builder [0, 0])))
      = sampleCodec.write_sequence sampleCodec.vector_tag sampleValues.length
          (sampleValues.map (detail.builder_access.written sampleCodec)).flatten) :=
  ⟨by decide, list_builder_add_preserves_order sampleCodec [0, 0] sampleValues (by decide)⟩

theorem table_builder_fold {α : Type} (fmt : bin_v1 α)
    (kvs : List (builder_value α × builder_value α)) (b : builder_state)
    (h : b.size_ + kvs.length < 2 ^ 64) :
    (kvs.foldl (fun t kv => table_builder.add fmt t kv.1 kv.2) b).size_
      = b.size_ + kvs.length ∧
    (kvs.foldl (fun t kv => table_builder.add fmt t kv.1 kv.2) b).bytes_
      = b.bytes_ ++ (kvs.map (fun kv => detail.builder_access.written fmt kv.1
          ++ detail.builder_access.written fmt kv.2)).flatten := by
  induction kvs generalizing b with
  | nil => simp
  | cons x rest ih =>
    rw [List.length_cons] at h
    have hs : (table_builder.add fmt b x.1 x.2).size_ = b.size_ + 1 := by
      simp only [table_builder.add, detail.builder_access.add, builder_state.incr_size]
      exact Nat.mod_eq_of_lt (by omega)
    have hb : (table_builder.add fmt b x.1 x.2).bytes_
        = b.bytes_ ++ (detail.builder_access.written fmt x.1
          ++ detail.builder_access.written fmt x.2) := by
      simp only [table_builder.add, detail.builder_access.add, builder_state.incr_size,
        List.append_assoc]
    obtain ⟨h1, h2⟩ := ih (table_builder.add fmt b x.1 x.2) (by rw [hs]; omega)
    rw [List.foldl_cons, h1, h2, hs, hb]
    simp
    omega

/-- C17: the builders neither reorder nor deduplicate.  For every sequence of `add` calls on
a `set_builder` and on a `table_builder`, of a length in the range of `size_t` and whatever
the elements and keys are, `num_values()` is the number of calls and the element bytes are the
bytes written for the arguments in the order of the calls, the bytes of the key of a table
entry followed at once by the bytes of its value. -/
theorem set_and_table_builder_keep_call_order {α : Type} (fmt : bin_v1 α)
    (header : builder_buffer) (xs : List (builder_value α))
    (kvs : List (builder_value α × builder_value α))
    (hx : xs.length < 2 ^ 64) (hk : kvs.length < 2 ^ 64) :
    ((xs.foldl (set_builder.add fmt) (fresh_builder header)).num_values = xs.length ∧
      (xs.foldl (set_builder.add fmt) (fresh_builder header)).bytes_
        = header ++ (xs.map (detail.builder_access.written fmt)).flatten ∧
      (xs.foldl (set_builder.add fmt) (fresh_builder header)).encoded_values header
        = (xs.map (detail.builder_access.written fmt)).flatten) ∧
    ((kvs.foldl (fun t kv => table_builder.add fmt t kv.1 kv.2)
        (fresh_builder header)).num_values = kvs.length ∧
      (kvs.foldl (fun t kv => table_builder.add fmt t kv.1 kv.2)
        (fresh_builder header)).bytes_
        = header ++ (kvs.map (fun kv => detail.builder_access.written fmt kv.1
            ++ detail.builder_access.written fmt kv.2)).flatten ∧
      (kvs.foldl (fun t kv => table_builder.add fmt t kv.1 kv.2)
        (fresh_builder header)).encoded_values header
        = (kvs.map (fun kv => detail.builder_access.written fmt kv.1
            ++ detail.builder_access.written fmt kv.2)).flatten) := by
  have hset : ∀ b : builder_state, xs.foldl (set_builder.add fmt) b
      = xs.foldl (list_builder.add fmt) b := fun _ => rfl
  obtain ⟨h1, h2⟩ := list_builder_fold fmt xs (fresh_builder header)
    (by simpa [fresh_builder] using hx)
  obtain ⟨h3, h4⟩ := table_builder_fold fmt kvs (fresh_builder header)
    (by simpa [fresh_builder] using hk)
  refine ⟨⟨?_, ?_, ?_⟩, ?_, h4, ?_⟩
  · rw [hset, builder_state.num_values, h1]
    simp [fresh_builder]
  · rw [hset]
    exact h2
  · rw [hset, builder_state.encoded_values, h2]
    simp [fresh_builder]
  · rw [builder_state.num_values, h3]
    simp [fresh_builder]
  · rw [builder_state.encoded_values, h4]
    simp [fresh_builder]

theorem set_and_table_builder_keep_call_order_witness :
    sampleValues.length < 2 ^ 64 ∧ sampleEntries.length < 2 ^ 64 ∧
    (((sampleValues.foldl (set_builder.add sampleCodec) (fresh_builder [0, 0])).num_values
        = sampleValues.length ∧
      (sampleValues.foldl (set_builder.add sampleCodec) (fresh_builder [0, 0])).bytes_
        = [0, 0] ++ (sampleValues.map (detail.builder_access.written sampleCodec)).flatten ∧
      (sampleValues.foldl (set_builder.add sampleCodec)
          (fresh_builder [0, 0])).encoded_values [0, 0]
        = (sampleValues.map (detail.builder_access.written sampleCodec)).flatten) ∧
    ((sampleEntries.foldl (fun t kv => table_builder.add sampleCodec t kv.1 kv.2)
        (fresh_builder [0, 0])).num_values = sampleEntries.length ∧
      (sampleEntries.foldl (fun t kv => table_builder.add sampleCodec t kv.1 kv.2)
        (fresh_builder [0, 0])).bytes_
        = [0, 0] ++ (sampleEntries.map (fun kv => detail.builder_access.written sampleCodec kv.1
            ++ detail.builder_access.written sampleCodec kv.2)).flatten ∧
      (sampleEntries.foldl (fun t kv => table_builder.add sampleCodec t kv.1 kv.2)
        (fresh_builder [0, 0])).encoded_values [0, 0]
        = (sampleEntries.map (fun kv => detail.builder_access.written sampleCodec kv.1
            ++ detail.builder_access.written sampleCodec kv.2)).flatten)) :=
  ⟨by decide, by decide,
    set_and_table_builder_keep_call_order sampleCodec [0, 0] sampleValues sampleEntries
      (by decide) (by decide)⟩

/-! ## `list_builder::add` for a tuple -/

mutual

theorem add_inline_vector_item_size {α : Type} (fmt : bin_v1 α) (w : bin_v1_writers)
    (b : builder_state) : ∀ x : list_item α,
    (list_builder.add_inline_vector_item fmt w b x).size_ = b.size_
  | .tuple xs => by
    rw [list_builder.add_inline_vector_item]
    exact add_inline_vector_items_size fmt w _ xs
  | .value v => by
    rw [list_builder.add_inline_vector_item]
    rfl

theorem add_inline_vector_items_size {α : Type} (fmt : bin_v1 α) (w : bin_v1_writers)
    (b : builder_state) : ∀ xs : List (list_item α),
    (list_builder.add_inline_vector_items fmt w b xs).size_ = b.size_
  | [] => by rw [list_builder.add_inline_vector_items]
  | x :: rest => by
    rw [list_builder.add_inline_vector_items,
      add_inline_vector_items_size fmt w _ rest, add_inline_vector_item_size fmt w b x]

end

theorem add_list_size {α : Type} (fmt : bin_v1 α) (w : bin_v1_writers) (b : builder_state)
    (xs : List (list_item α)) :
    (list_builder.add_list fmt w b xs).size_ = (b.size_ + 1) % 2 ^ 64 := by
  unfold list_builder.add_list
  rw [add_inline_vector_items_size]
  rfl

theorem add_tuple_size {α : Type} (fmt : bin_v1 α) (w : bin_v1_writers)
    (xs : List (list_item α)) (b : builder_state) :
    (list_builder.add_tuple fmt w b xs).size_ = (b.size_ + xs.length) % 2 ^ 64 ∨
      (xs = [] ∧ (list_builder.add_tuple fmt w b xs).size_ = b.size_) := by
  induction xs generalizing b with
  | nil => exact Or.inr ⟨rfl, rfl⟩
  | cons x rest ih =>
    left
    unfold list_builder.add_tuple
    rw [List.foldl_cons]
    rcases ih (list_builder.add_list fmt w b [x]) with h | ⟨h1, h2⟩
    · unfold list_builder.add_tuple at h
      rw [h, add_list_size, List.length_cons]
      omega
    · unfold list_builder.add_tuple at h2
      rw [h2, add_list_size, h1]
      rfl

/-- C37: on a fresh list builder `add` of the tuple `(7, 3)` appends two nested lists of one
element each and `num_values()` is 2, where `add_list(7, 3)` appends one nested list of two
elements, the bytes that `add_inline_vector_item` writes for the tuple, and `num_values()` is
1; for every tuple of `n ≥ 1` elements `add` makes `num_values()` grow by `n`, and `add_list`
makes it grow by one and writes what `add_inline_vector_item` writes for the tuple. -/
theorem add_tuple_appends_one_list_per_element :
    list_builder.add_tuple sampleCodec sampleWriters (fresh_builder [])
        [.value (.primitive 7), .value (.primitive 3)]
      = ⟨2, [14, 1, 1, 7, 14, 1, 1, 3]⟩ ∧
    list_builder.add_list sampleCodec sampleWriters (fresh_builder [])
        [.value (.primitive 7), .value (.primitive 3)]
      = ⟨1, [14, 2, 1, 7, 1, 3]⟩ ∧
    list_builder.add_inline_vector_item sampleCodec sampleWriters (fresh_builder [])
        (.tuple [.value (.primitive 7), .value (.primitive 3)])
      = ⟨0, [14, 2, 1, 7, 1, 3]⟩ ∧
    ∀ (α : Type) (fmt : bin_v1 α) (w : bin_v1_writers) (b : builder_state)
      (x : list_item α) (xs : List (list_item α)),
      (list_builder.add_tuple fmt w b (x :: xs)).num_values
        = (b.num_values + (x :: xs).length) % 2 ^ 64 ∧
      (list_builder.add_list fmt w b (x :: xs)).num_values = (b.num_values + 1) % 2 ^ 64 ∧
      list_builder.add_list fmt w b (x :: xs)
        = list_builder.add_inline_vector_item fmt w b.incr_size (.tuple (x :: xs)) := by
  refine ⟨by decide, by decide, by decide, ?_⟩
  intro α fmt w b x xs
  refine ⟨?_, add_list_size fmt w b (x :: xs), ?_⟩
  · rcases add_tuple_size fmt w (x :: xs) b with h | ⟨h, _⟩
    · exact h
    · exact absurd h (by simp)
  · rw [list_builder.add_inline_vector_item]
    rfl

end broker

/-! ## The store of the clone -/

namespace broker.detail

theorem store_find_assign {data : Type} [DecidableEq data] (store : store_type data)
    (key value : data) (e : data × data) (h : store_find store key = some e) :
    store_find (store_assign store key value) key = some (e.1, value) := by
  induction store with
  | nil => simp [store_find] at h
  | cons x rest ih =>
    unfold store_find at h ih ⊢
    unfold store_assign
    by_cases hx : x.1 = key
    · rw [if_pos hx, List.find?_cons_of_pos _ (by simpa using hx)]
      rw [List.find?_cons_of_pos _ (by simpa using hx)] at h
      rw [← Option.some.inj h]
    · rw [if_neg hx, List.find?_cons_of_neg _ (by simpa using hx)]
      rw [List.find?_cons_of_neg _ (by simpa using hx)] at h
      exact ih h

theorem store_find_append_new {data : Type} [DecidableEq data] (store : store_type data)
    (key value : data) (h : store_find store key = none) :
    store_find (store ++ [(key, value)]) key = some (key, value) := by
  unfold store_find at h ⊢
  rw [List.find?_append, h]
  simp

theorem store_find_erase {data : Type} [DecidableEq data] (store : store_type data)
    (key : data) : store_find (update_erase store key) key = none := by
  unfold store_find update_erase
  rw [List.find?_eq_none]
  intro e he
  simpa using (List.mem_filter.mp he).2

theorem store_find_eq_none_iff {data : Type} [DecidableEq data] (store : store_type data)
    (key : data) : store_find store key = none ↔ key ∉ store_keys store := by
  unfold store_find store_keys
  rw [List.find?_eq_none, List.mem_map]
  constructor
  · rintro h ⟨e, he, hk⟩
    exact h e he (by simpa using hk)
  · intro h e he hk
    exact h ⟨e, he, by simpa using hk⟩

theorem store_find_of_mem {data : Type} [DecidableEq data] (store : store_type data)
    (hu : (store_keys store).Nodup) (e : data × data) (he : e ∈ store) :
    store_find store e.1 = some e := by
  cases h : store_find store e.1 with
  | none =>
    exact absurd (List.mem_map.mpr ⟨e, he, rfl⟩) ((store_find_eq_none_iff store e.1).mp h)
  | some e' =>
    unfold store_find at h
    have hm := List.mem_of_find?_eq_some h
    have hk : e'.1 = e.1 := by simpa using List.find?_some h
    rw [List.inj_on_of_nodup_map hu hm he hk]

/-- C18: for every store, key `k` and value `v`, `get(k)` after `put(k, v)` returns `v`,
whether or not the store had the key. -/
theorem get_after_put {data : Type} [DecidableEq data] (store : store_type data)
    (k v : data) : (query_get (update_put store k v) k).1 = .ok v := by
  unfold update_put query_get
  cases h : store_find store k with
  | none => simp only [store_find_append_new store k v h]
  | some e => simp only [store_find_assign store k v e h]

/-- C19: for every store, key `k` and value `v`, `get(k)` after `put(k, v)` and `erase(k)`
returns the error `no_such_key`. -/
theorem get_after_put_erase {data : Type} [DecidableEq data] (store : store_type data)
    (k v : data) :
    (query_get (update_erase (update_put store k v) k) k).1 = .error sc.no_such_key := by
  unfold query_get
  rw [store_find_erase]

/-- C20: on a store with pairwise distinct keys `get(k)` returns the error `no_such_key` if
and only if `k` is not a key of the store, returns the value stored under `k` otherwise, and
leaves the store as it is. -/
theorem get_answers_from_store {data : Type} [DecidableEq data] (store : store_type data)
    (k : data) (hu : (store_keys store).Nodup) :
    ((query_get store k).1 = .error sc.no_such_key ↔ k ∉ store_keys store) ∧
    (∀ v, (k, v) ∈ store → (query_get store k).1 = .ok v) ∧
    (query_get store k).2 = store := by
  refine ⟨?_, ?_, ?_⟩
  · rw [← store_find_eq_none_iff]
    unfold query_get
    cases h : store_find store k with
    | none => simp
    | some e => simp
  · intro v hv
    unfold query_get
    rw [store_find_of_mem store hu (k, v) hv]
  · unfold query_get
    cases h : store_find store k <;> rfl

theorem get_answers_from_store_witness :
    (store_keys sampleStore).Nodup ∧
    (((query_get sampleStore 2).1 = .error sc.no_such_key ↔ 2 ∉ store_keys sampleStore) ∧
    (∀ v, (2, v) ∈ sampleStore → (query_get sampleStore 2).1 = .ok v) ∧
    (query_get sampleStore 2).2 = sampleStore) :=
  ⟨by decide, get_answers_from_store sampleStore 2 (by decide)⟩

theorem store_find_append_of_mem {data : Type} [DecidableEq data] (store : store_type data)
    (key : data) (e : data × data) (rest : store_type data)
    (h : store_find store key = some e) : store_find (store ++ rest) key = some e := by
  unfold store_find at h ⊢
  rw [List.find?_append, h]
  rfl

/-- C21: when the store has no entry for `k`, `add(k, n)` succeeds and `get(k)` returns `n`
afterwards; this is what initializing `k` to a neutral element `z` of the addition and then
adding `n` gives. -/
theorem get_after_add_to_absent_key {data : Type} [DecidableEq data]
    (adder : data → data → Option data) (store : store_type data) (k n : data)
    (h : k ∉ store_keys store) :
    ∃ s, update_add adder store k n = some s ∧ (query_get s k).1 = .ok n ∧
      ∀ z, adder n z = some n →
        ∃ s', update_add adder (store ++ [(k, z)]) k n = some s' ∧
          (query_get s' k).1 = (query_get s k).1 := by
  have hf := (store_find_eq_none_iff store k).mpr h
  have hget : (query_get (store ++ [(k, n)]) k).1 = .ok n := by
    unfold query_get
    rw [store_find_append_new store k n hf]
  refine ⟨store ++ [(k, n)], ?_, hget, ?_⟩
  · unfold update_add
    rw [hf]
  · intro z hz
    have hfz := store_find_append_new store k z hf
    refine ⟨store_assign (store ++ [(k, z)]) k n, ?_, ?_⟩
    · unfold update_add
      rw [hfz]
      simp only [hz]
    · rw [hget]
      unfold query_get
      rw [store_find_assign _ k n _ hfz]

theorem get_after_add_to_absent_key_witness :
    4 ∉ store_keys sampleStore ∧
    ∃ s, update_add countAdder sampleStore 4 13 = some s ∧ (query_get s 4).1 = .ok 13 ∧
      ∀ z, countAdder 13 z = some 13 →
        ∃ s', update_add countAdder (sampleStore ++ [(4, z)]) 4 13 = some s' ∧
          (query_get s' 4).1 = (query_get s 4).1 :=
  ⟨by decide, get_after_add_to_absent_key countAdder sampleStore 4 13 (by decide)⟩

/-- C22: the handler of a snapshot replaces the store by the entries of the snapshot: the
store afterwards is `ss.entries`, `get` answers from the snapshot alone, and a key that the
store had and the snapshot has not is gone. -/
theorem snapshot_replaces_store {data : Type} [DecidableEq data] (store : store_type data)
    (ss : snapshot data) :
    direct_snapshot store ss = ss.entries ∧
    (∀ k, query_get (direct_snapshot store ss) k = query_get ss.entries k) ∧
    (∀ k, k ∈ store_keys store → k ∉ store_keys ss.entries →
      (query_get (direct_snapshot store ss) k).1 = .error sc.no_such_key) := by
  refine ⟨rfl, fun _ => rfl, ?_⟩
  intro k _ hk
  unfold direct_snapshot query_get
  rw [(store_find_eq_none_iff ss.entries k).mpr hk]

/-- C23, as stated, fails, with every command delivered in master order and at least once.
The master holds `1` under key `1` and increments it by `1`; the command `add(1, 1)` is
delivered twice and the clone holds `3`, the master `2`.  The master clears its store; the
clone, which has no handler for `clear`, keeps its entry.  The master puts `5` under key `1`
with expiry `9` and expires it; the clone, which has no handler for `expire`, keeps the entry.
The master subtracts `0` from the absent key `1` and holds `0` there; the handler of the clone
asserts that the key is present and does not return. -/
theorem clone_diverges_from_master :
    (master_run (fun _ => 0) countAdder countRemover (sampleMaster [(1, 1)])
        [.add 1 1 none]
      = (⟨"kono", [(1, 2)], [], 1, [7]⟩, [⟨.add 1 1 none, 1⟩]) ∧
      deliveredAtLeastOnce [((⟨.add 1 1 none, 1⟩ : master_command Nat), 2)] = true ∧
      dispatch_commands countAdder countRemover [(1, 1)]
          (deliveries [(⟨.add 1 1 none, 1⟩, 2)])
        = some [(1, 3)]) ∧
    (master_run (fun _ => 0) countAdder countRemover (sampleMaster [(1, 1)]) [.clear]
      = (⟨"kono", [], [], 1, [7]⟩, [⟨.clear, 1⟩]) ∧
      dispatch_commands countAdder countRemover [(1, 1)] (deliveries [(⟨.clear, 1⟩, 1)])
        = some [(1, 1)]) ∧
    (master_run (fun _ => 0) countAdder countRemover (sampleMaster [])
        [.put 1 5 (some 9), .expire 1 9]
      = (⟨"kono", [], [], 2, [7]⟩, [⟨.put 1 5 (some 9), 1⟩, ⟨.expire 1 9, 2⟩]) ∧
      dispatch_commands countAdder countRemover []
          (deliveries [(⟨.put 1 5 (some 9), 1⟩, 1), (⟨.expire 1 9, 2⟩, 1)])
        = some [(1, 5)]) ∧
    (master_run (fun _ => 0) countAdder countRemover (sampleMaster []) [.subtract 1 0 none]
      = (⟨"kono", [(1, 0)], [], 1, [7]⟩, [⟨.subtract 1 0 none, 1⟩]) ∧
      dispatch_commands countAdder countRemover []
          (deliveries [(⟨.subtract 1 0 none, 1⟩, 1)])
        = none) := by
  decide

theorem store_assign_same {data : Type} [DecidableEq data] (store : store_type data)
    (key value : data) (e : data × data) (h : store_find store key = some e)
    (hv : e.2 = value) : store_assign store key value = store := by
  induction store with
  | nil => rfl
  | cons x rest ih =>
    unfold store_find at h ih
    unfold store_assign
    by_cases hx : x.1 = key
    · rw [if_pos hx]
      rw [List.find?_cons_of_pos _ (by simpa using hx)] at h
      have hxe : x = e := Option.some.inj h
      rw [← hv, ← hxe]
    · rw [if_neg hx]
      rw [List.find?_cons_of_neg _ (by simpa using hx)] at h
      rw [ih h]

theorem update_put_of_find {data : Type} [DecidableEq data] (store : store_type data)
    (key value : data) (e : data × data) (h : store_find store key = some e) :
    update_put store key value = store_assign store key value := by
  unfold update_put
  rw [h]

theorem update_put_idempotent {data : Type} [DecidableEq data] (store : store_type data)
    (key value : data) :
    update_put (update_put store key value) key value = update_put store key value := by
  have hfind : ∃ e, store_find (update_put store key value) key = some e ∧ e.2 = value := by
    unfold update_put
    cases h : store_find store key with
    | none => exact ⟨_, store_find_append_new store key value h, rfl⟩
    | some e => exact ⟨_, store_find_assign store key value e h, rfl⟩
  obtain ⟨e, he, hv⟩ := hfind
  rw [update_put_of_find _ key value e he]
  exact store_assign_same _ key value e he hv

theorem update_erase_idempotent {data : Type} [DecidableEq data] (store : store_type data)
    (key : data) : update_erase (update_erase store key) key = update_erase store key := by
  unfold update_erase
  rw [List.filter_filter]
  simp

/-- A request that the master applied, other than `clear` and `expire`, gives the same store
in the handlers of the clone. -/
theorem update_of_master_apply {data : Type} [DecidableEq data] (neutral : data → data)
    (adder remover : data → data → Option data) (s s' : master_state data)
    (request : master_request data) (seq : Nat) (msg : command data)
    (hlaw : neutralLaw neutral adder [request] = true)
    (hsub : subtractKeysPresent neutral adder remover s [request] = true)
    (hmsg : update_message ⟨request, seq⟩ = some msg)
    (h : master_apply neutral adder remover s request = some s') :
    update adder remover s.store msg = some s'.store := by
  cases request with
  | put key value expiry =>
    simp only [update_message, Option.some.injEq] at hmsg
    simp only [master_apply, Option.some.injEq] at h
    subst hmsg
    subst h
    rfl
  | erase key =>
    simp only [update_message, Option.some.injEq] at hmsg
    simp only [master_apply, Option.some.injEq] at h
    subst hmsg
    subst h
    rfl
  | clear => simp [update_message] at hmsg
  | expire key ts => simp [update_message] at hmsg
  | add key value expiry =>
    simp only [update_message, Option.some.injEq] at hmsg
    subst hmsg
    have hn : adder value (neutral value) = some value := by
      simpa [neutralLaw] using hlaw
    simp only [master_apply, master_combine] at h
    simp only [update, update_add]
    cases hf : store_find s.store key with
    | none =>
      simp only [hf, hn, Option.some.injEq] at h
      subst h
      rfl
    | some e =>
      simp only [hf] at h
      cases ha : adder value e.2 with
      | none => simp [ha] at h
      | some sum =>
        simp only [ha, Option.some.injEq] at h
        subst h
        simp only [ha]
  | subtract key value expiry =>
    simp only [update_message, Option.some.injEq] at hmsg
    subst hmsg
    have hp : (store_find s.store key).isSome = true := by
      simpa [subtractKeysPresent] using hsub
    simp only [master_apply, master_combine] at h
    simp only [update, update_remove]
    cases hf : store_find s.store key with
    | none => simp [hf] at hp
    | some e =>
      simp only [hf] at h
      cases hr : remover value e.2 with
      | none => simp [hr] at h
      | some difference =>
        simp only [hr, Option.some.injEq] at h
        subst h
        simp only [hr]

/-- Repeated deliveries of one message of `update` act like one when `add` and `remove` are
not repeated. -/
theorem dispatch_all_replicate {data : Type} [DecidableEq data]
    (adder remover : data → data → Option data) (store store' : store_type data)
    (msg : command data) (times : Nat) (rest : List (command data))
    (h : update adder remover store msg = some store') (h1 : 1 ≤ times)
    (h2 : (∃ key value, msg = .add key value ∨ msg = .remove key value) → times = 1) :
    dispatch_all adder remover store (List.replicate times msg ++ rest)
      = dispatch_all adder remover store' rest := by
  obtain ⟨n, rfl⟩ : ∃ n, times = n + 1 := ⟨times - 1, by omega⟩
  have hfirst : dispatch_all adder remover store (List.replicate (n + 1) msg ++ rest)
      = dispatch_all adder remover store' (List.replicate n msg ++ rest) := by
    rw [List.replicate_succ, List.cons_append]
    conv_lhs => unfold dispatch_all
    rw [h]
  rw [hfirst]
  cases msg with
  | add key value =>
    have : n = 0 := by
      have := h2 ⟨key, value, Or.inl rfl⟩
      omega
    subst this
    rfl
  | remove key value =>
    have : n = 0 := by
      have := h2 ⟨key, value, Or.inr rfl⟩
      omega
    subst this
    rfl
  | put key value =>
    have hs : store' = update_put store key value := (Option.some.inj h).symm
    have hidem : update adder remover store' (.put key value) = some store' := by
      rw [hs]
      simp only [update, update_put_idempotent]
    clear h hfirst h1 h2
    induction n with
    | zero => rfl
    | succ m ih =>
      rw [List.replicate_succ, List.cons_append]
      conv_lhs => unfold dispatch_all
      rw [hidem]
      exact ih
  | erase key =>
    have hs : store' = update_erase store key := (Option.some.inj h).symm
    have hidem : update adder remover store' (.erase key) = some store' := by
      rw [hs]
      simp only [update, update_erase_idempotent]
    clear h hfirst h1 h2
    induction n with
    | zero => rfl
    | succ m ih =>
      rw [List.replicate_succ, List.cons_append]
      conv_lhs => unfold dispatch_all
      rw [hidem]
      exact ih

theorem once_of_addSubtractOnce {data : Type} (c : master_command data) (times : Nat)
    (msg : command data) (hmsg : update_message c = some msg)
    (h2 : addSubtractOnce [(c, times)] = true) :
    (∃ key value, msg = .add key value ∨ msg = .remove key value) → times = 1 := by
  obtain ⟨request, seq⟩ := c
  rintro ⟨key, value, hk | hk⟩
  · subst hk
    cases request <;> simp [update_message] at hmsg
    all_goals simpa [addSubtractOnce] using h2
  · subst hk
    cases request <;> simp [update_message] at hmsg
    all_goals simpa [addSubtractOnce] using h2

/-- C23, amended: the clone starts from the store of the master; the commands that the master
emits are `put`, `add`, `subtract` and `erase` commands, no `subtract` names a key that the
master does not hold, and adding a value to the neutral element gives the value; the commands
are delivered to the clone in master order, every command at least once and `add` and
`subtract` commands exactly once.  Then the handlers of the clone accept every delivery and
the store of the clone is the store of the master. -/
theorem clone_converges_to_master {data : Type} [DecidableEq data] (neutral : data → data)
    (adder remover : data → data → Option data) (m0 : master_state data)
    (requests : List (master_request data)) (ds : List (master_command data × Nat))
    (hkinds : updateAcceptsAll (master_run neutral adder remover m0 requests).2 = true)
    (hsub : subtractKeysPresent neutral adder remover m0 requests = true)
    (hlaw : neutralLaw neutral adder requests = true)
    (hcmds : ds.map Prod.fst = (master_run neutral adder remover m0 requests).2)
    (h1 : deliveredAtLeastOnce ds = true) (h2 : addSubtractOnce ds = true) :
    dispatch_commands adder remover m0.store (deliveries ds)
      = some (master_run neutral adder remover m0 requests).1.store := by
  induction requests generalizing m0 ds with
  | nil =>
    have : ds = [] := by simpa [master_run] using hcmds
    subst this
    rfl
  | cons request rest ih =>
    have hlaw1 : neutralLaw neutral adder [request] = true := by
      simp only [neutralLaw, List.all_cons, Bool.and_eq_true] at hlaw
      simp only [neutralLaw, List.all_cons, List.all_nil, Bool.and_true]
      exact hlaw.1
    have hlaw2 : neutralLaw neutral adder rest = true := by
      simp only [neutralLaw, List.all_cons, Bool.and_eq_true] at hlaw
      exact hlaw.2
    have hsub1 : subtractKeysPresent neutral adder remover m0 [request] = true := by
      simp only [subtractKeysPresent, Bool.and_eq_true] at hsub
      simp only [subtractKeysPresent, Bool.and_true]
      exact hsub.1
    have hsub2 : subtractKeysPresent neutral adder remover
        ((master_apply neutral adder remover m0 request).getD m0) rest = true := by
      simp only [subtractKeysPresent, Bool.and_eq_true] at hsub
      exact hsub.2
    unfold master_run at hcmds hkinds ⊢
    cases hm : master_apply neutral adder remover m0 request with
    | none =>
      rw [hm] at hcmds hkinds hsub2
      simp only [hm]
      exact ih m0 ds hkinds hsub2 hlaw2 hcmds h1 h2
    | some m1 =>
      rw [hm] at hcmds hkinds hsub2
      simp only [hm] at hcmds hkinds ⊢
      simp only [Option.getD_some] at hsub2
      cases ds with
      | nil => simp at hcmds
      | cons d ds' =>
        obtain ⟨c, times⟩ := d
        simp only [List.map_cons, List.cons.injEq] at hcmds
        obtain ⟨hc, hrest⟩ := hcmds
        subst hc
        have h1' : 1 ≤ times ∧ deliveredAtLeastOnce ds' = true := by
          simpa [deliveredAtLeastOnce] using h1
        have h2' : addSubtractOnce [(⟨request, m1.seq⟩, times)] = true
            ∧ addSubtractOnce ds' = true := by
          simp only [addSubtractOnce, List.all_cons, Bool.and_eq_true] at h2
          simp only [addSubtractOnce, List.all_cons, List.all_nil, Bool.and_true]
          exact h2
        have hk : (update_message ⟨request, m1.seq⟩).isSome = true
            ∧ updateAcceptsAll (master_run neutral adder remover m1 rest).2 = true := by
          simpa [updateAcceptsAll] using hkinds
        obtain ⟨msg, hmsg⟩ := Option.isSome_iff_exists.mp hk.1
        have hupd := update_of_master_apply neutral adder remover m0 m1 request m1.seq msg
          hlaw1 hsub1 hmsg hm
        have hih := ih m1 ds' hk.2 hsub2 hlaw2 hrest h1'.2 h2'.2
        unfold dispatch_commands at hih ⊢
        unfold deliveries
        rw [List.filterMap_append, List.filterMap_replicate_of_some hmsg,
          dispatch_all_replicate adder remover m0.store m1.store msg times _ hupd h1'.1
            (once_of_addSubtractOnce _ times msg hmsg h2'.1)]
        exact hih

theorem clone_converges_to_master_witness :
    updateAcceptsAll
      (master_run (fun _ => 0) countAdder countRemover (sampleMaster sampleStore)
        [.put 1 5 (some 9), .expire 1 8, .add 1 2 none, .add 2 3 none, .erase 1,
          .subtract 2 1 none]).2 = true ∧
    subtractKeysPresent (fun _ => 0) countAdder countRemover (sampleMaster sampleStore)
      [.put 1 5 (some 9), .expire 1 8, .add 1 2 none, .add 2 3 none, .erase 1,
        .subtract 2 1 none] = true ∧
    neutralLaw (fun _ => 0) countAdder
      [.put 1 5 (some 9), .expire 1 8, .add 1 2 none, .add 2 3 none, .erase 1,
        .subtract 2 1 none] = true ∧
    [((⟨.put 1 5 (some 9), 1⟩ : master_command Nat), 3), (⟨.add 1 2 none, 2⟩, 1),
        (⟨.add 2 3 none, 3⟩, 1), (⟨.erase 1, 4⟩, 2), (⟨.subtract 2 1 none, 5⟩, 1)].map Prod.fst
      = (master_run (fun _ => 0) countAdder countRemover (sampleMaster sampleStore)
          [.put 1 5 (some 9), .expire 1 8, .add 1 2 none, .add 2 3 none, .erase 1,
            .subtract 2 1 none]).2 ∧
    deliveredAtLeastOnce
      [((⟨.put 1 5 (some 9), 1⟩ : master_command Nat), 3), (⟨.add 1 2 none, 2⟩, 1),
        (⟨.add 2 3 none, 3⟩, 1), (⟨.erase 1, 4⟩, 2), (⟨.subtract 2 1 none, 5⟩, 1)] = true ∧
    addSubtractOnce
      [((⟨.put 1 5 (some 9), 1⟩ : master_command Nat), 3), (⟨.add 1 2 none, 2⟩, 1),
        (⟨.add 2 3 none, 3⟩, 1), (⟨.erase 1, 4⟩, 2), (⟨.subtract 2 1 none, 5⟩, 1)] = true ∧
    dispatch_commands countAdder countRemover (sampleMaster sampleStore).store
        (deliveries
          [((⟨.put 1 5 (some 9), 1⟩ : master_command Nat), 3), (⟨.add 1 2 none, 2⟩, 1),
            (⟨.add 2 3 none, 3⟩, 1), (⟨.erase 1, 4⟩, 2), (⟨.subtract 2 1 none, 5⟩, 1)])
      = some (master_run (fun _ => 0) countAdder countRemover (sampleMaster sampleStore)
          [.put 1 5 (some 9), .expire 1 8, .add 1 2 none, .add 2 3 none, .erase 1,
            .subtract 2 1 none]).1.store :=
  ⟨by decide, by decide, by decide, by decide, by decide, by decide,
    clone_converges_to_master (fun _ => 0) countAdder countRemover (sampleMaster sampleStore)
      [.put 1 5 (some 9), .expire 1 8, .add 1 2 none, .add 2 3 none, .erase 1,
        .subtract 2 1 none]
      [(⟨.put 1 5 (some 9), 1⟩, 3), (⟨.add 1 2 none, 2⟩, 1), (⟨.add 2 3 none, 3⟩, 1),
        (⟨.erase 1, 4⟩, 2), (⟨.subtract 2 1 none, 5⟩, 1)]
      (by decide) (by decide) (by decide) (by decide) (by decide) (by decide)⟩

/-- The run of the witness: the `expire` with a timestamp other than the recorded one does
not succeed and emits nothing; master and clone end with the same store. -/
theorem master_sample_run :
    (master_run (fun _ => 0) countAdder countRemover (sampleMaster sampleStore)
        [.put 1 5 (some 9), .expire 1 8, .add 1 2 none, .add 2 3 none, .erase 1,
          .subtract 2 1 none]).1
      = ⟨"kono", [(2, 22), (3, 30)], [], 5, [7]⟩ ∧
    dispatch_commands countAdder countRemover sampleStore
        (deliveries
          [((⟨.put 1 5 (some 9), 1⟩ : master_command Nat), 3), (⟨.add 1 2 none, 2⟩, 1),
            (⟨.add 2 3 none, 3⟩, 1), (⟨.erase 1, 4⟩, 2), (⟨.subtract 2 1 none, 5⟩, 1)])
      = some [(2, 22), (3, 30)] := by
  decide

/-! ## The behavior of the clone -/

/-- C38 as stated fails: the message `(atom::put, 4, 40)`, sent to the clone as it is, is
neither a message dispatched with a topic nor a snapshot; `relay` does not accept it, `update`
does, and the store changes. -/
theorem direct_command_changes_store :
    (∃ sends answer, clone_actor sampleClone sampleStore (.command (.put 4 40))
      = .done (sampleStore ++ [(4, 40)]) sends answer) ∧
    sampleStore ++ [(4, 40)] ≠ sampleStore ∧
    (∀ (t : String) (msg : message Nat) (source : Nat),
      message.command (.put 4 40) ≠ message.topic_message t msg source) ∧
    (∀ ss : snapshot Nat, message.command (.put 4 40) ≠ message.snapshot ss) := by
  refine ⟨⟨[], none, rfl⟩, by decide, ?_, ?_⟩
  · intro t msg source h
    cases h
  · intro ss h
    cases h

theorem update_handler_of_not_command {data : Type} [DecidableEq data] (env : clone_env data)
    (store : store_type data) (msg : message data) (h : ∀ c, msg ≠ .command c) :
    update_handler env store msg = .unmatched := by
  cases msg with
  | command c => exact absurd rfl (h c)
  | _ => rfl

/-- C38, amended: a `put`, `add` or `remove` with an expiry argument and an `erase`, sent to
the clone as they are, leave the store as it is and are sent on to the master once, with the
same atom, key, value and expiry, under the topic of the master and with the handle of the
core; and when a message changes the store, it is a topic with a message of `update` inside,
or a `put`, `add` or `remove` of `update` sent to the clone as it is, or a snapshot. -/
theorem clone_relays_mutations_with_expiry {data : Type} [DecidableEq data]
    (env : clone_env data) (store : store_type data) :
    (∀ (key value : data) (expiry : Option Nat),
      clone_actor env store (.put key value expiry)
        = .done store
            [⟨env.master, env.master_topic env.name, .put key value expiry, env.core⟩] none ∧
      clone_actor env store (.add key value expiry)
        = .done store
            [⟨env.master, env.master_topic env.name, .add key value expiry, env.core⟩] none ∧
      clone_actor env store (.remove key value expiry)
        = .done store
            [⟨env.master, env.master_topic env.name, .remove key value expiry, env.core⟩]
            none ∧
      clone_actor env store (.command (.erase key))
        = .done store
            [⟨env.master, env.master_topic env.name, .command (.erase key), env.core⟩]
            none) ∧
    (∀ (msg : message data) (store' : store_type data) (sends : List (sent data))
      (answer : Option (reply data)),
      clone_actor env store msg = .done store' sends answer → store' ≠ store →
        (∃ t c source, msg = .topic_message t (.command c) source ∧
          update env.adder env.remover store c = some store') ∨
        (∃ c, msg = .command c ∧ (∀ key, c ≠ .erase key) ∧
          update env.adder env.remover store c = some store') ∨
        (∃ ss, msg = .snapshot ss ∧ store' = ss.entries)) := by
  refine ⟨fun _ _ _ => ⟨rfl, rfl, rfl, rfl⟩, ?_⟩
  intro msg store' sends answer h hne
  cases msg with
  | put key value expiry =>
    simp only [clone_actor, or_else, dispatch, relay, handled.done.injEq] at h
    exact absurd h.1.symm hne
  | add key value expiry =>
    simp only [clone_actor, or_else, dispatch, relay, handled.done.injEq] at h
    exact absurd h.1.symm hne
  | remove key value expiry =>
    simp only [clone_actor, or_else, dispatch, relay, handled.done.injEq] at h
    exact absurd h.1.symm hne
  | command c =>
    right
    left
    cases c with
    | erase key =>
      simp only [clone_actor, or_else, dispatch, relay, handled.done.injEq] at h
      exact absurd h.1.symm hne
    | put key value =>
      refine ⟨_, rfl, (fun _ hk => by cases hk), ?_⟩
      simp only [clone_actor, or_else, dispatch, relay, update_handler, update,
        handled.done.injEq] at h
      rw [← h.1]
      rfl
    | add key value =>
      refine ⟨_, rfl, (fun _ hk => by cases hk), ?_⟩
      simp only [clone_actor, or_else, dispatch, relay, update_handler] at h
      cases hu : update env.adder env.remover store (.add key value) with
      | none =>
        rw [hu] at h
        simp at h
      | some s =>
        rw [hu] at h
        simp only [handled.done.injEq] at h
        rw [h.1]
    | remove key value =>
      refine ⟨_, rfl, (fun _ hk => by cases hk), ?_⟩
      simp only [clone_actor, or_else, dispatch, relay, update_handler] at h
      cases hu : update env.adder env.remover store (.remove key value) with
      | none =>
        rw [hu] at h
        simp at h
      | some s =>
        rw [hu] at h
        simp only [handled.done.injEq] at h
        rw [h.1]
  | get key =>
    simp only [clone_actor, or_else, dispatch, relay, update_handler, query,
      handled.done.injEq] at h
    exact absurd h.1.symm hne
  | get_value key value =>
    simp only [clone_actor, or_else, dispatch, relay, update_handler, query] at h
    cases hf : store_find store key with
    | none =>
      rw [hf] at h
      simp only [handled.done.injEq] at h
      exact absurd h.1.symm hne
    | some e =>
      rw [hf] at h
      simp only [handled.done.injEq] at h
      exact absurd h.1.symm hne
  | get_name =>
    simp only [clone_actor, or_else, dispatch, relay, update_handler, query,
      handled.done.injEq] at h
    exact absurd h.1.symm hne
  | snapshot ss =>
    right
    right
    simp only [clone_actor, or_else, dispatch, relay, update_handler, query, direct,
      direct_snapshot, handled.done.injEq] at h
    exact ⟨ss, rfl, h.1.symm⟩
  | topic_message t inner source =>
    left
    by_cases hc : ∃ c, inner = .command c
    · obtain ⟨c, rfl⟩ := hc
      refine ⟨t, c, source, rfl, ?_⟩
      simp only [clone_actor, or_else, dispatch, update_handler] at h
      cases hu : update env.adder env.remover store c with
      | none =>
        rw [hu] at h
        simp at h
      | some s =>
        rw [hu] at h
        simp only [handled.done.injEq] at h
        rw [h.1]
    · have hun := update_handler_of_not_command env store inner
        (fun c hcc => hc ⟨c, hcc⟩)
      simp only [clone_actor, or_else, dispatch, hun, handled.done.injEq] at h
      exact absurd h.1.symm hne

theorem clone_relays_mutations_with_expiry_witness :
    clone_actor sampleClone sampleStore (.topic_message "kono/clone" (.command (.add 1 5)) 1)
      = .done [(1, 15), (2, 20), (3, 30)] [] none ∧
    [(1, 15), (2, 20), (3, 30)] ≠ sampleStore ∧
    ((∃ t c source,
        message.topic_message "kono/clone" (.command (.add 1 5)) 1
          = .topic_message t (.command c) source ∧
        update sampleClone.adder sampleClone.remover sampleStore c
          = some [(1, 15), (2, 20), (3, 30)]) ∨
      (∃ c, message.topic_message "kono/clone" (.command (.add 1 5)) 1 = .command c ∧
        (∀ key, c ≠ .erase key) ∧
        update sampleClone.adder sampleClone.remover sampleStore c
          = some [(1, 15), (2, 20), (3, 30)]) ∨
      (∃ ss, message.topic_message "kono/clone" (.command (.add 1 5)) 1 = .snapshot ss ∧
        [(1, 15), (2, 20), (3, 30)] = ss.entries)) :=
  ⟨rfl, by decide,
    (clone_relays_mutations_with_expiry sampleClone sampleStore).2
      (.topic_message "kono/clone" (.command (.add 1 5)) 1) [(1, 15), (2, 20), (3, 30)] []
      none rfl (by decide)⟩

end broker.detail

/-! ## The store manager -/

namespace broker.mixin

/-- C24: on a newly constructed manager, where no master for `kono` exists, `attach_master`
returns the error `unspecified` and registers nothing; it does so for every manager, name,
backend and options. -/
theorem attach_master_always_fails :
    data_store_manager.initial.attach_master "kono" 0 []
      = (.error ec.unspecified, data_store_manager.initial) ∧
    ∀ (self : data_store_manager) (name : String) (backend_type : Nat)
      (opts : List (String × Nat)),
      self.attach_master name backend_type opts = (.error ec.unspecified, self) :=
  ⟨rfl, fun _ _ _ _ => rfl⟩

theorem run_initial (requests : List store_request) :
    data_store_manager.initial.run requests = data_store_manager.initial := by
  unfold data_store_manager.run
  induction requests with
  | nil => rfl
  | cons request rest ih =>
    rw [List.foldl_cons]
    have h : data_store_manager.initial.handle request = data_store_manager.initial := by
      cases request <;> rfl
    rw [h]
    exact ih

/-- C25: `attach_clone` returns an error and changes neither map, whatever the manager
hosts, in particular when it hosts a master for the name; and after every sequence of
messages to a newly constructed manager both maps are empty, so that no name is a key of both
`masters_` and `clones_`. -/
theorem master_and_clone_never_share_a_name :
    (∀ (self : data_store_manager) (name : String) (r s m : Nat),
      (∃ e, (self.attach_clone name r s m).1 = .error e) ∧
      (self.attach_clone name r s m).2 = self) ∧
    (∀ requests : List store_request,
      (data_store_manager.initial.run requests).masters_ = [] ∧
      (data_store_manager.initial.run requests).clones_ = [] ∧
      List.Disjoint ((data_store_manager.initial.run requests).masters_.map Prod.fst)
        ((data_store_manager.initial.run requests).clones_.map Prod.fst)) := by
  refine ⟨fun _ _ _ _ _ => ⟨⟨_, rfl⟩, rfl⟩, ?_⟩
  intro requests
  rw [run_initial]
  exact ⟨rfl, rfl, by simp [data_store_manager.initial]⟩

end broker.mixin

/-! ## The text encoder -/

namespace broker.format.txt.v1

theorem toDigits_length_le (n e : Nat) (he : 0 < e) (h : n < 10 ^ e) :
    (Nat.toDigits 10 n).length ≤ e :=
  Nat.toDigitsCore_length 10 (by decide) (n + 1) n e h he

/-- A rendering of at most 23 characters goes through the buffer of 24 characters whole. -/
theorem copy_snprintf_24 (text : List Char) (h : text.length ≤ 23) :
    (snprintf 24 text).1 = text ++ [NUL] ∧
    copy_chars (snprintf 24 text).1 (snprintf 24 text).2 = some text := by
  have htake : text.take 23 = text := List.take_of_length_le h
  have h1 : (snprintf 24 text).1 = text ++ [NUL] := by
    simp only [snprintf]
    rw [if_neg (by decide)]
    simp only [Nat.add_one_sub_one, htake]
  refine ⟨h1, ?_⟩
  rw [h1]
  simp only [snprintf, copy_chars]
  rw [if_pos (by simp)]
  simp

theorem fmt_llu_length (n : Nat) (h : n < 2 ^ 64) : (fmt_llu n).length ≤ 20 :=
  toDigits_length_le n 20 (by decide) (by omega)

theorem fmt_lld_length (i : Int) (h1 : -2 ^ 63 ≤ i) (h2 : i < 2 ^ 63) :
    (fmt_lld i).length ≤ 20 := by
  have hn : (Nat.toDigits 10 i.natAbs).length ≤ 19 :=
    toDigits_length_le i.natAbs 19 (by decide) (by omega)
  unfold fmt_lld
  split
  · simp only [List.length_cons]
    omega
  · omega

theorem to_long_long_of_range (i : Int) (h1 : -2 ^ 63 ≤ i) (h2 : i < 2 ^ 63) :
    to_long_long i = i := by
  unfold to_long_long
  omega

theorem to_long_long_range (i : Int) : -2 ^ 63 ≤ to_long_long i ∧ to_long_long i < 2 ^ 63 := by
  unfold to_long_long
  omega

/-- C29: for every count `n < 2^64` the encoder writes the decimal numeral of `n`, which has
at most 20 digits, and for every integer of 64 bits the decimal numeral with a leading `-`
for a negative value, at most 20 characters; `snprintf` stores the numeral whole in the
buffer of 24 characters. -/
theorem count_and_integer_fit_the_buffer :
    (∀ n : Nat, n < 2 ^ 64 →
      encode_count n = some (Nat.toDigits 10 n) ∧ (Nat.toDigits 10 n).length ≤ 20 ∧
      (snprintf 24 (fmt_llu n)).1 = Nat.toDigits 10 n ++ [NUL]) ∧
    (∀ i : Int, -2 ^ 63 ≤ i → i < 2 ^ 63 →
      encode_integer i
        = some (if i < 0 then '-' :: Nat.toDigits 10 i.natAbs else Nat.toDigits 10 i.natAbs) ∧
      (fmt_lld i).length ≤ 20 ∧
      (snprintf 24 (fmt_lld i)).1 = fmt_lld i ++ [NUL]) := by
  constructor
  · intro n hn
    have hlen := fmt_llu_length n hn
    have hc := copy_snprintf_24 (fmt_llu n) (by omega)
    refine ⟨?_, hlen, hc.1⟩
    unfold encode_count
    rw [Nat.mod_eq_of_lt hn]
    exact hc.2
  · intro i h1 h2
    have hlen := fmt_lld_length i h1 h2
    have hc := copy_snprintf_24 (fmt_lld i) (by omega)
    refine ⟨?_, hlen, hc.1⟩
    unfold encode_integer
    rw [to_long_long_of_range i h1 h2]
    exact hc.2

theorem encode_count_defined (n : Nat) : ∃ r, encode_count n = some r := by
  have hn : n % 2 ^ 64 < 2 ^ 64 := Nat.mod_lt _ (by decide)
  have hc := copy_snprintf_24 (fmt_llu (n % 2 ^ 64)) (by have := fmt_llu_length _ hn; omega)
  exact ⟨_, hc.2⟩

theorem encode_integer_defined (i : Int) : ∃ r, encode_integer i = some r := by
  have hr := to_long_long_range i
  have hc := copy_snprintf_24 (fmt_lld (to_long_long i))
    (by have := fmt_lld_length _ hr.1 hr.2; omega)
  exact ⟨_, hc.2⟩

theorem encode_nanoseconds_defined (i : Int) : ∃ r, encode_nanoseconds i = some r := by
  obtain ⟨r, hr⟩ := encode_integer_defined i
  simp only [encode_nanoseconds, hr]
  exact ⟨_, rfl⟩

/-- What `encode(real, out)` writes: the rendering when it has fewer than 24 characters, and
the rendering followed by the null character otherwise. -/
theorem encode_real_eq (env : renderers) (value : Nat) :
    encode_real env value
      = if (env.fmt_f value).length < 24 then some (env.fmt_f value)
        else some (env.fmt_f value ++ [NUL]) := by
  unfold encode_real
  by_cases h : (env.fmt_f value).length < 24
  · have h' : (snprintf 0 (env.fmt_f value)).2 < 24 := h
    rw [if_pos h', if_pos h]
    exact (copy_snprintf_24 _ (by omega)).2
  · have h' : ¬ (snprintf 0 (env.fmt_f value)).2 < 24 := h
    rw [if_neg h', if_neg h]
    simp [snprintf]

theorem encode_real_defined (env : renderers) (value : Nat) :
    ∃ r, encode_real env value = some r := by
  rw [encode_real_eq]
  split <;> exact ⟨_, rfl⟩

mutual
theorem encode_defined (env : renderers) : ∀ v : variant_data, ∃ r, encode env v = some r
  | .none => ⟨_, rfl⟩
  | .boolean _ => ⟨_, rfl⟩
  | .count value => by simp only [encode]; exact encode_count_defined value
  | .integer value => by simp only [encode]; exact encode_integer_defined value
  | .real value => by simp only [encode]; exact encode_real_defined env value
  | .string _ => ⟨_, rfl⟩
  | .address _ => ⟨_, rfl⟩
  | .subnet _ => ⟨_, rfl⟩
  | .port _ => ⟨_, rfl⟩
  | .timestamp value => by simp only [encode]; exact encode_nanoseconds_defined value
  | .timespan value => by simp only [encode]; exact encode_nanoseconds_defined value
  | .enum_value _ => ⟨_, rfl⟩
  | .set values => by simp only [encode]; exact encode_range_defined env values _ _
  | .table values => by simp only [encode]; exact encode_range_pairs_defined env values _ _
  | .list values => by simp only [encode]; exact encode_range_defined env values _ _
theorem encode_range_defined (env : renderers) :
    ∀ (xs : List variant_data) (left right : Char),
      ∃ r, encode_range env xs left right = some r
  | [], _, _ => ⟨_, rfl⟩
  | x :: rest, _, _ => by
    obtain ⟨a, ha⟩ := encode_defined env x
    obtain ⟨b, hb⟩ := encode_range_loop_defined env rest
    simp only [encode_range, ha, hb]
    exact ⟨_, rfl⟩
theorem encode_range_loop_defined (env : renderers) :
    ∀ xs : List variant_data, ∃ r, encode_range_loop env xs = some r
  | [] => ⟨_, rfl⟩
  | x :: rest => by
    obtain ⟨a, ha⟩ := encode_defined env x
    obtain ⟨b, hb⟩ := encode_range_loop_defined env rest
    simp only [encode_range_loop, ha, hb]
    exact ⟨_, rfl⟩
theorem encode_pair_defined (env : renderers) :
    ∀ kvp : variant_data × variant_data, ∃ r, encode_pair env kvp = some r
  | (key, val) => by
    obtain ⟨a, ha⟩ := encode_defined env key
    obtain ⟨b, hb⟩ := encode_defined env val
    simp only [encode_pair, ha, hb]
    exact ⟨_, rfl⟩
theorem encode_range_pairs_defined (env : renderers) :
    ∀ (xs : List (variant_data × variant_data)) (left right : Char),
      ∃ r, encode_range_pairs env xs left right = some r
  | [], _, _ => ⟨_, rfl⟩
  | x :: rest, _, _ => by
    obtain ⟨a, ha⟩ := encode_pair_defined env x
    obtain ⟨b, hb⟩ := encode_range_pairs_loop_defined env rest
    simp only [encode_range_pairs, ha, hb]
    exact ⟨_, rfl⟩
theorem encode_range_pairs_loop_defined (env : renderers) :
    ∀ xs : List (variant_data × variant_data), ∃ r, encode_range_pairs_loop env xs = some r
  | [] => ⟨_, rfl⟩
  | x :: rest => by
    obtain ⟨a, ha⟩ := encode_pair_defined env x
    obtain ⟨b, hb⟩ := encode_range_pairs_loop_defined env rest
    simp only [encode_range_pairs_loop, ha, hb]
    exact ⟨_, rfl⟩
end

theorem intercalate_cons_eq (sep first : List Char) (rest : List (List Char)) :
    List.intercalate sep (first :: rest) = first ++ (rest.map (fun r => sep ++ r)).flatten := by
  induction rest generalizing first with
  | nil => simp [List.intercalate]
  | cons second rest ih =>
    have h := ih second
    simp only [List.intercalate, List.intersperse, List.flatten_cons, List.map_cons,
      List.append_assoc] at h ⊢
    rw [h]

/-- The loop of `encode_range` writes the separator and the rendering for every element. -/
theorem encode_range_loop_eq (env : renderers) (xs : List variant_data) :
    ∃ rs : List (List Char), xs.map (encode env) = rs.map some ∧
      encode_range_loop env xs = some ((rs.map (fun r => [',', ' '] ++ r)).flatten) := by
  induction xs with
  | nil => exact ⟨[], rfl, rfl⟩
  | cons x rest ih =>
    obtain ⟨a, ha⟩ := encode_defined env x
    obtain ⟨rs, h1, h2⟩ := ih
    refine ⟨a :: rs, by simp only [List.map_cons, ha, h1], ?_⟩
    simp only [encode_range_loop, ha, h2, List.map_cons, List.flatten_cons, List.append_assoc]

/-- C28: every set is rendered as the opening curly brace, the renderings of its elements in
iteration order with the separator `, ` between each two of them and none before the first or
behind the last, and the closing curly brace; the empty set is rendered as the two braces. -/
theorem set_is_rendered_in_braces_with_separators (env : renderers)
    (xs : List variant_data) :
    (∃ rs : List (List Char), xs.map (encode env) = rs.map some ∧
      encode env (.set xs) = some ('{' :: List.intercalate [',', ' '] rs ++ ['}'])) ∧
    encode env (.set []) = some ['{', '}'] := by
  refine ⟨?_, rfl⟩
  cases xs with
  | nil => exact ⟨[], rfl, rfl⟩
  | cons x rest =>
    obtain ⟨a, ha⟩ := encode_defined env x
    obtain ⟨rs, h1, h2⟩ := encode_range_loop_eq env rest
    refine ⟨a :: rs, by simp only [List.map_cons, ha, h1], ?_⟩
    simp only [encode, encode_range, ha, h2, intercalate_cons_eq, List.cons_append,
      List.append_assoc]

theorem encode_range_pairs_ends (env : renderers) (xs : List (variant_data × variant_data))
    (left right : Char) :
    ∃ r, encode_range_pairs env xs left right = some r ∧ r.head? = some left ∧
      r.getLast? = some right := by
  cases xs with
  | nil => exact ⟨[left, right], rfl, rfl, rfl⟩
  | cons x rest =>
    obtain ⟨a, ha⟩ := encode_pair_defined env x
    obtain ⟨b, hb⟩ := encode_range_pairs_loop_defined env rest
    exact ⟨left :: a ++ b ++ [right], by simp only [encode_range_pairs, ha, hb], rfl,
      List.getLast?_concat _⟩

theorem encode_range_ends (env : renderers) (xs : List variant_data) (left right : Char) :
    ∃ r, encode_range env xs left right = some r ∧ r.head? = some left ∧
      r.getLast? = some right := by
  cases xs with
  | nil => exact ⟨[left, right], rfl, rfl, rfl⟩
  | cons x rest =>
    obtain ⟨a, ha⟩ := encode_defined env x
    obtain ⟨b, hb⟩ := encode_range_loop_defined env rest
    exact ⟨left :: a ++ b ++ [right], by simp only [encode_range, ha, hb], rfl,
      List.getLast?_concat _⟩

/-- C26: the table with the one entry `1 -> 2` is rendered as `(1 -> 2)`, and every table is
rendered with `(` as first and `)` as last character, not in curly braces. -/
theorem table_is_rendered_in_parentheses :
    encode sampleRenderers (.table [(.count 1, .count 2)])
      = some ['(', '1', ' ', '-', '>', ' ', '2', ')'] ∧
    ∀ (env : renderers) (xs : List (variant_data × variant_data)),
      ∃ r, encode env (.table xs) = some r ∧ r.head? = some '(' ∧ r.getLast? = some ')' := by
  refine ⟨by decide, ?_⟩
  intro env xs
  simp only [encode]
  exact encode_range_pairs_ends env xs '(' ')'

/-- C27: the list of the counts 1 and 2 is rendered as an opening curly brace, `1, 2` and a
closing curly brace, and every list is rendered with a curly brace as first and as last
character, not in square brackets. -/
theorem list_is_rendered_in_braces :
    encode sampleRenderers (.list [.count 1, .count 2])
      = some ['{', '1', ',', ' ', '2', '}'] ∧
    ∀ (env : renderers) (xs : List variant_data),
      ∃ r, encode env (.list xs) = some r ∧ r.head? = some '{' ∧ r.getLast? = some '}' := by
  refine ⟨by decide, ?_⟩
  intro env xs
  simp only [encode]
  exact encode_range_ends env xs '{' '}'

/-- C30: the `real` `1e30` has a rendering of 38 characters under `%f`; the encoder writes
these 38 characters and the terminating null character.  It does so for every rendering of 24
characters or more, and writes the rendering alone when it is shorter. -/
theorem real_with_long_rendering_ends_with_null :
    encode_real sampleRenderers 0x46293E5939A08CEA
      = some ("1000000000000000019884624838656.000000".toList ++ [NUL]) ∧
    (∀ (env : renderers) (value : Nat), 24 ≤ (env.fmt_f value).length →
      encode_real env value = some (env.fmt_f value ++ [NUL])) ∧
    (∀ (env : renderers) (value : Nat), (env.fmt_f value).length < 24 →
      encode_real env value = some (env.fmt_f value)) := by
  refine ⟨by decide, ?_, ?_⟩
  · intro env value h
    rw [encode_real_eq, if_neg (by omega)]
  · intro env value h
    rw [encode_real_eq, if_pos h]

end broker.format.txt.v1

/-! ## The kill switch -/

namespace broker.internal

theorem step_disposed (s : killswitch × List effect) (c : call)
    (h : s.1.disposed_ = true) : (killswitch.step s c).1.disposed_ = true := by
  cases c with
  | subscribe out => simp [killswitch.step, killswitch.subscribe, h]
  | dispose => simp [killswitch.step, killswitch.dispose, h]

theorem run_disposed (calls : List call) (s : killswitch × List effect)
    (h : s.1.disposed_ = true) : (killswitch.run s calls).1.disposed_ = true := by
  induction calls generalizing s with
  | nil => exact h
  | cons c rest ih =>
    exact ih (killswitch.step s c) (step_disposed s c h)

theorem dispose_disposed (self : killswitch) (effects : List effect) :
    (self.dispose effects).1.disposed_ = true := by
  unfold killswitch.dispose
  cases h : self.disposed_ <;> simp [h]

/-- C31: once `dispose()` has been called, then after any further calls `subscribe(out)`
signals `on_error` with `sec::disposed` to the observer and nothing else happens: the returned
handle is the empty one, the kill switch is as before and `subscribe` is not called on the
decorated observable. -/
theorem subscribe_after_dispose_signals_disposed (self : killswitch) (effects : List effect)
    (calls : List call) (out : Nat) :
    (killswitch.run (self.dispose effects) calls).1.subscribe
        (killswitch.run (self.dispose effects) calls).2 out
      = (none, (killswitch.run (self.dispose effects) calls).1,
          (killswitch.run (self.dispose effects) calls).2
            ++ [effect.on_error out sec.disposed]) := by
  have h := run_disposed calls (self.dispose effects) (dispose_disposed self effects)
  unfold killswitch.subscribe
  rw [if_pos h]

theorem step_effects_mono (s : killswitch × List effect) (c : call) (e : effect)
    (h : e ∈ s.2) : e ∈ (killswitch.step s c).2 := by
  cases c with
  | subscribe out =>
    simp only [killswitch.step, killswitch.subscribe]
    split
    · simp [h]
    · split <;> simp [h]
  | dispose =>
    simp only [killswitch.step, killswitch.dispose]
    split <;> simp [h]

theorem step_subs (s : killswitch × List effect) (c : call) (sub : Nat)
    (h : sub ∈ s.1.subs_) :
    sub ∈ (killswitch.step s c).1.subs_ ∨ effect.dispose sub ∈ (killswitch.step s c).2 := by
  cases c with
  | subscribe out =>
    left
    simp only [killswitch.step, killswitch.subscribe]
    split
    · exact h
    · split <;> simp [h]
  | dispose =>
    simp only [killswitch.step, killswitch.dispose]
    split
    · right
      simp [h]
    · left
      exact h

theorem run_subs (calls : List call) (s : killswitch × List effect) (sub : Nat)
    (h : sub ∈ s.1.subs_ ∨ effect.dispose sub ∈ s.2) :
    sub ∈ (killswitch.run s calls).1.subs_
      ∨ effect.dispose sub ∈ (killswitch.run s calls).2 := by
  induction calls generalizing s with
  | nil => exact h
  | cons c rest ih =>
    apply ih (killswitch.step s c)
    rcases h with h | h
    · exact step_subs s c sub h
    · exact Or.inr (step_effects_mono s c _ h)

theorem subscribe_result_stored (self : killswitch) (effects : List effect) (out sub : Nat)
    (h : sub ∈ (self.subscribe effects out).1.toList) :
    sub ∈ (self.subscribe effects out).2.1.subs_ := by
  unfold killswitch.subscribe at h ⊢
  split
  · rename_i hd
    rw [if_pos hd] at h
    simp at h
  · rename_i hd
    rw [if_neg hd] at h
    split
    · rename_i sub0 hs
      rw [hs] at h
      simp at h
      simp [h]
    · rename_i hs
      rw [hs] at h
      simp at h

theorem created_stored_or_disposed (calls : List call) (s : killswitch × List effect)
    (sub : Nat) (h : sub ∈ killswitch.created s calls) :
    sub ∈ (killswitch.run s calls).1.subs_
      ∨ effect.dispose sub ∈ (killswitch.run s calls).2 := by
  induction calls generalizing s with
  | nil => simp [killswitch.created] at h
  | cons c rest ih =>
    cases c with
    | subscribe out =>
      simp only [killswitch.created, List.mem_append] at h
      rcases h with h | h
      · exact run_subs rest (killswitch.step s (.subscribe out)) sub
          (Or.inl (subscribe_result_stored s.1 s.2 out sub h))
      · exact ih _ h
    | dispose =>
      simp only [killswitch.created] at h
      exact ih _ h

theorem step_subs_nil_of_disposed (s : killswitch × List effect) (c : call)
    (h : s.1.disposed_ = true → s.1.subs_ = []) :
    (killswitch.step s c).1.disposed_ = true → (killswitch.step s c).1.subs_ = [] := by
  cases c with
  | subscribe out =>
    simp only [killswitch.step, killswitch.subscribe]
    split
    · exact h
    · rename_i hd
      split
      · intro hd2
        exact absurd hd2 hd
      · exact h
  | dispose =>
    simp only [killswitch.step, killswitch.dispose]
    split
    · intro _
      rfl
    · exact h

theorem run_subs_nil_of_disposed (calls : List call) (s : killswitch × List effect)
    (h : s.1.disposed_ = true → s.1.subs_ = []) :
    (killswitch.run s calls).1.disposed_ = true → (killswitch.run s calls).1.subs_ = [] := by
  induction calls generalizing s with
  | nil => exact h
  | cons c rest ih => exact ih (killswitch.step s c) (step_subs_nil_of_disposed s c h)

theorem dispose_of_disposed (s : killswitch × List effect) (h : s.1.disposed_ = true) :
    s.1.dispose s.2 = s := by
  unfold killswitch.dispose
  simp [h]

/-- C32: `disposed()` is `false` on a newly constructed kill switch and `true` after
`dispose()`, also after any further calls; a `dispose()` that is not the first one leaves the
kill switch and the effects as they are, so it disposes nothing; and after any calls on a
newly constructed kill switch, `dispose()` leaves every subscription created by those calls
disposed and the kill switch without stored handles. -/
theorem dispose_cancels_all_and_is_idempotent :
    (∀ decorated : List effect → Nat → disposable,
      (killswitch.make decorated).disposed = false) ∧
    (∀ (self : killswitch) (effects : List effect) (calls : List call),
      (killswitch.run (self.dispose effects) calls).1.disposed = true ∧
      (killswitch.run (self.dispose effects) calls).1.dispose
          (killswitch.run (self.dispose effects) calls).2
        = killswitch.run (self.dispose effects) calls) ∧
    (∀ (decorated : List effect → Nat → disposable) (calls : List call),
      ((killswitch.run (killswitch.make decorated, []) calls).1.dispose
          (killswitch.run (killswitch.make decorated, []) calls).2).1.subs_ = [] ∧
      ∀ sub ∈ killswitch.created (killswitch.make decorated, []) calls,
        effect.dispose sub ∈
          ((killswitch.run (killswitch.make decorated, []) calls).1.dispose
            (killswitch.run (killswitch.make decorated, []) calls).2).2) := by
  refine ⟨fun _ => rfl, ?_, ?_⟩
  · intro self effects calls
    have h := run_disposed calls (self.dispose effects) (dispose_disposed self effects)
    exact ⟨h, dispose_of_disposed _ h⟩
  · intro decorated calls
    have hinv := run_subs_nil_of_disposed calls (killswitch.make decorated, [])
      (fun _ => rfl)
    constructor
    · unfold killswitch.dispose
      split
      · rfl
      · rename_i hd
        simp only [Bool.not_eq_true, Bool.not_eq_false_eq_eq_true, Bool.not_not] at hd
        exact hinv (by simpa using hd)
    · intro sub hsub
      have hc := created_stored_or_disposed calls (killswitch.make decorated, []) sub hsub
      unfold killswitch.dispose
      split
      · rcases hc with hc | hc
        · simp [hc]
        · simp [hc]
      · rename_i hd
        have hd2 : (killswitch.run (killswitch.make decorated, []) calls).1.disposed_ = true := by
          simpa using hd
        rcases hc with hc | hc
        · rw [hinv hd2] at hc
          simp at hc
        · exact hc

/-- On a newly constructed kill switch over `sampleObservable`, the observers 1, 0 and 2
subscribe, `dispose()` is called twice and observer 3 subscribes: the subscriptions 101 and
102 are disposed once, observer 3 gets the error. -/
theorem dispose_sample_run :
    (killswitch.run (killswitch.make sampleObservable, [])
        [.subscribe 1, .subscribe 0, .subscribe 2, .dispose, .dispose, .subscribe 3]).2
      = [effect.subscribe 1, effect.subscribe 0, effect.subscribe 2, effect.dispose 101,
          effect.dispose 102, effect.on_error 3 sec.disposed] ∧
    killswitch.created (killswitch.make sampleObservable, [])
        [.subscribe 1, .subscribe 0, .subscribe 2, .dispose, .dispose, .subscribe 3]
      = [101, 102] := by
  decide

end broker.internal

/-! ## The Python bindings -/

namespace broker.python

/-- C33: the endpoint that `Endpoint.__init__` constructs from `Configuration(True)` has
`disable_ssl` false and uses SSL; for every `cfg` the five `openssl_` strings are those of
`cfg`, while `disable_ssl` is the one of the default-constructed configuration, whatever
`cfg.disable_ssl` is. -/
theorem disable_ssl_is_not_passed_on :
    (Configuration.init true).disable_ssl = true ∧
    (Endpoint.init configuration.default_constructed (Configuration.init true)).config.disable_ssl
      = false ∧
    use_ssl (Endpoint.init configuration.default_constructed (Configuration.init true)) = true ∧
    ∀ (bcfg : configuration) (cfg : Configuration),
      (Endpoint.init bcfg cfg).config.disable_ssl = bcfg.disable_ssl ∧
      (Endpoint.init bcfg cfg).config.openssl_cafile = cfg.openssl_cafile ∧
      (Endpoint.init bcfg cfg).config.openssl_capath = cfg.openssl_capath ∧
      (Endpoint.init bcfg cfg).config.openssl_certificate = cfg.openssl_certificate ∧
      (Endpoint.init bcfg cfg).config.openssl_key = cfg.openssl_key ∧
      (Endpoint.init bcfg cfg).config.openssl_passphrase = cfg.openssl_passphrase :=
  ⟨rfl, rfl, rfl, fun _ _ => ⟨rfl, rfl, rfl, rfl, rfl, rfl⟩⟩

/-- C34: on an endpoint without peerings the binding `Endpoint.unpeer` asks for a peering with
127.0.0.1:9999 and returns the result of `peer`, where the member `unpeer` asks for the peering
to be torn down and returns `false`; on an endpoint with that peering the binding asks for it
once more; for every endpoint and all arguments the binding is the member `peer`. -/
theorem python_unpeer_calls_peer :
    Endpoint.unpeer sampleEndpoint [] "127.0.0.1" 9999 10
      = (true, [endpoint_request.peer "127.0.0.1" 9999 10]) ∧
    sampleEndpoint.unpeer [] "127.0.0.1" 9999
      = (false, [endpoint_request.unpeer "127.0.0.1" 9999]) ∧
    Endpoint.unpeer sampleEndpoint [endpoint_request.peer "127.0.0.1" 9999 10] "127.0.0.1" 9999 10
      = (true, [endpoint_request.peer "127.0.0.1" 9999 10,
          endpoint_request.peer "127.0.0.1" 9999 10]) ∧
    sampleEndpoint.unpeer [endpoint_request.peer "127.0.0.1" 9999 10] "127.0.0.1" 9999
      = (true, [endpoint_request.peer "127.0.0.1" 9999 10,
          endpoint_request.unpeer "127.0.0.1" 9999]) ∧
    ∀ (E : Type) (m : endpoint_members E) (ep : E) (address : String) (port retry : Nat),
      Endpoint.unpeer m ep address port retry = m.peer ep address port retry := by
  refine ⟨by decide, by decide, by decide, by decide, fun _ _ _ _ _ _ => rfl⟩

end broker.python
